import Mathlib

/-!
# Priority scheduling simulator: ready queue and tick engine

A shallow embedding of `src/src/priority_scheduler.c` (with the types of
`src/include/scheduler.h`) and the properties of its specification.

Modelling conventions.

* A C `int` is a Lean `Int`.  Signed overflow is undefined behaviour in C, so
  every statement below is about executions in which no `int` computation
  overflows.
* The process table `Process *procs` is a `List Process`; a cell is read with
  `getP` and written with `List.set`.  Reading outside the table (undefined in
  C) yields the default record, writing outside it does nothing.
* The ready queue is the list of its live cells `data[0 .. size)`, so that
  `size` is the length of the list.  No function of the source reads a cell at
  a position `≥ size`, and `capacity` only drives `realloc`.
* The functions of the source that take `const Scheduler *sch` only to reach
  `sch->procs` take the process table instead.
* `while` loops with a variant are structural recursions on a fuel argument
  that is instantiated with the variant; `for` loops are `forLoop`.  The tick
  loop of `scheduler_run`, whose termination is a property to be proved,
  returns `none` when its fuel is exhausted.
-/

namespace PrioritySched

/-! ## Data model (`scheduler.h`) -/

/-- The record `Process` of `scheduler.h`. -/
structure Process where
  pid : Int
  arrival_time : Int
  burst_time : Int
  remaining_time : Int
  base_priority : Int
  effective_priority : Int
  start_time : Int
  finish_time : Int
  last_ready_time : Int
  waiting_time_accum : Int
  started : Bool
deriving DecidableEq, Repr, Inhabited

/-- The live cells `data[0 .. size)` of a `ReadyQueue`: a binary heap of process indices. -/
abbrev ReadyQueue := List Nat

/-- The record `Scheduler` of `scheduler.h`. -/
structure Scheduler where
  procs : List Process
  nprocs : Int
  preemptive : Bool
  aging_enabled : Bool
  aging_interval : Int
  aging_increment : Int
  time : Int
  completed : Int
  current : Int
  rq : ReadyQueue
deriving DecidableEq, Repr

/-- The cell `procs[i]`. -/
def getP (procs : List Process) (i : Nat) : Process := procs.getD i default

/-- The loop `for (int i = 0; i < n; ++i) body(i)`, threading the state. -/
def forLoop {σ : Type} : Nat → (Nat → σ → σ) → σ → σ
  | 0, _, s => s
  | n + 1, body, s => body n (forLoop n body s)

/-! ## Ready queue (`priority_scheduler.c`, lines 6-107) -/

/-- The comparator `compare_proc` (lines 7-17). -/
def compare_proc (procs : List Process) (i j : Nat) : Int :=
  let a := getP procs i
  let b := getP procs j
  if a.effective_priority ≠ b.effective_priority then
    (if a.effective_priority > b.effective_priority then 1 else -1)
  else if a.arrival_time ≠ b.arrival_time then
    (if a.arrival_time < b.arrival_time then 1 else -1)
  else
    (if a.pid < b.pid then 1 else -1)

/-- The exchange `heap_swap(&data[i], &data[j])` (lines 19-21). -/
def heap_swap (data : List Nat) (i j : Nat) : List Nat :=
  (data.set i (data.getD j 0)).set j (data.getD i 0)

/-- The function `rq_is_empty` (line 35). -/
def rq_is_empty (rq : ReadyQueue) : Bool := rq.length == 0

/-- The loop of `sift_up` (lines 38-46); `idx` strictly decreases, so `idx` units of fuel
are enough. -/
def sift_up_loop (procs : List Process) : Nat → List Nat → Nat → List Nat
  | 0, data, _ => data
  | fuel + 1, data, idx =>
    if idx > 0 then
      let parent := (idx - 1) / 2
      if compare_proc procs (data.getD idx 0) (data.getD parent 0) > 0 then
        sift_up_loop procs fuel (heap_swap data idx parent) parent
      else data
    else data

/-- The function `sift_up` (lines 37-47). -/
def sift_up (procs : List Process) (data : List Nat) (idx : Nat) : List Nat :=
  sift_up_loop procs idx data idx

/-- The index `largest` computed by one round of `sift_down` (lines 51-57). -/
def sift_largest (procs : List Process) (data : List Nat) (idx : Nat) : Nat :=
  let left := 2 * idx + 1
  let right := 2 * idx + 2
  let largest := idx
  let largest :=
    if left < data.length ∧ compare_proc procs (data.getD left 0) (data.getD largest 0) > 0
    then left else largest
  let largest :=
    if right < data.length ∧ compare_proc procs (data.getD right 0) (data.getD largest 0) > 0
    then right else largest
  largest

/-- The loop of `sift_down` (lines 50-64); `idx` strictly increases below `size`, so
`size - idx` units of fuel are enough. -/
def sift_down_loop (procs : List Process) : Nat → List Nat → Nat → List Nat
  | 0, data, _ => data
  | fuel + 1, data, idx =>
    let largest := sift_largest procs data idx
    if largest ≠ idx then
      sift_down_loop procs fuel (heap_swap data idx largest) largest
    else data

/-- The function `sift_down` (lines 49-65). -/
def sift_down (procs : List Process) (data : List Nat) (idx : Nat) : List Nat :=
  sift_down_loop procs (data.length - idx) data idx

/-- The function `rq_peek` (line 67). -/
def rq_peek (rq : ReadyQueue) : Int :=
  if rq.length ≠ 0 then (rq.getD 0 0 : Nat) else -1

/-- The function `rq_pop` (lines 69-75): the returned value and the queue left. -/
def rq_pop (procs : List Process) (rq : ReadyQueue) : Int × ReadyQueue :=
  if rq.length = 0 then (-1, rq)
  else
    let top := rq.getD 0 0
    let data := (rq.set 0 (rq.getD (rq.length - 1) 0)).take (rq.length - 1)
    ((top : Nat), sift_down procs data 0)

/-- The function `rq_push` (lines 77-84). -/
def rq_push (procs : List Process) (rq : ReadyQueue) (proc_index : Nat) : ReadyQueue :=
  let data := rq ++ [proc_index]
  sift_up procs data (data.length - 1)

/-- The outer loop of `rq_reheapify` (line 88), counting `i + 1` down from `size / 2`; its body
(lines 90-105) is the text of `sift_down`. -/
def reheapify_loop (procs : List Process) : Nat → List Nat → List Nat
  | 0, data => data
  | i + 1, data => reheapify_loop procs i (sift_down procs data i)

/-- The function `rq_reheapify` (lines 86-107). -/
def rq_reheapify (procs : List Process) (rq : ReadyQueue) : ReadyQueue :=
  reheapify_loop procs (rq.length / 2) rq

/-! ## Scheduler (`priority_scheduler.c`, lines 109-244) -/

/-- The function `maybe_age_waiting` (lines 110-119). -/
def maybe_age_waiting (sch : Scheduler) : Scheduler :=
  if !sch.aging_enabled || sch.aging_interval ≤ 0 then sch
  else if sch.time > 0 ∧ Int.tmod sch.time sch.aging_interval = 0 then
    let procs := forLoop sch.rq.length (fun i procs =>
      let idx := sch.rq.getD i 0
      let p := getP procs idx
      procs.set idx { p with effective_priority := p.effective_priority + sch.aging_increment })
      sch.procs
    { sch with procs := procs, rq := rq_reheapify procs sch.rq }
  else sch

/-- The body of the loop of `admit_arrivals` (lines 123-128). -/
def admit_body (i : Nat) (sch : Scheduler) : Scheduler :=
  let p := getP sch.procs i
  if p.arrival_time = sch.time then
    let procs := sch.procs.set i
      { p with effective_priority := p.base_priority, last_ready_time := sch.time }
    { sch with procs := procs, rq := rq_push procs sch.rq i }
  else sch

/-- The function `admit_arrivals` (lines 121-130). -/
def admit_arrivals (sch : Scheduler) : Scheduler :=
  forLoop sch.nprocs.toNat admit_body sch

/-- The block that gives the CPU to the top of the queue: lines 135-141, and again
lines 157-163. -/
def dispatch_top (sch : Scheduler) : Scheduler :=
  let r := rq_pop sch.procs sch.rq
  let c := r.1.toNat
  let p := getP sch.procs c
  let p := if !p.started then { p with started := true, start_time := sch.time } else p
  let p := { p with waiting_time_accum := p.waiting_time_accum + (sch.time - p.last_ready_time) }
  { sch with current := r.1, rq := r.2, procs := sch.procs.set c p }

/-- The function `dispatch_if_needed` (lines 132-166). -/
def dispatch_if_needed (sch : Scheduler) : Scheduler :=
  if sch.current = -1 then
    if !rq_is_empty sch.rq then dispatch_top sch else sch
  else if !sch.preemptive then sch
  else if !rq_is_empty sch.rq then
    let cand := rq_peek sch.rq
    if compare_proc sch.procs cand.toNat sch.current.toNat > 0 then
      let c := sch.current.toNat
      let cur := getP sch.procs c
      let procs := sch.procs.set c { cur with last_ready_time := sch.time }
      dispatch_top { sch with procs := procs, rq := rq_push procs sch.rq c }
    else sch
  else sch

/-- The initialisation of one table cell (lines 182-188). -/
def init_proc (p : Process) : Process :=
  { p with
    remaining_time := p.burst_time
    effective_priority := p.base_priority
    started := false
    waiting_time_accum := 0
    start_time := -1
    finish_time := -1
    last_ready_time := -1 }

/-- The function `scheduler_init` (lines 168-192). -/
def scheduler_init (procs : List Process) (nprocs : Int) (preemptive aging_enabled : Bool)
    (aging_interval aging_increment : Int) : Scheduler :=
  { procs := forLoop nprocs.toNat (fun i ps => ps.set i (init_proc (getP ps i))) procs
    nprocs := nprocs
    preemptive := preemptive
    aging_enabled := aging_enabled
    aging_interval := aging_interval
    aging_increment := aging_increment
    time := 0
    completed := 0
    current := -1
    rq := [] }

/-- The phases of one tick that precede the trace line (lines 200-202). -/
def schedule_tick (sch : Scheduler) : Scheduler :=
  dispatch_if_needed (maybe_age_waiting (admit_arrivals sch))

/-- The execution of one tick and the clock increment (lines 209-220). -/
def execute_tick (sch : Scheduler) : Scheduler :=
  let sch :=
    if sch.current ≠ -1 then
      let c := sch.current.toNat
      let p := getP sch.procs c
      let p := { p with remaining_time := p.remaining_time - 1 }
      if p.remaining_time = 0 then
        { sch with
          procs := sch.procs.set c { p with finish_time := sch.time + 1 }
          completed := sch.completed + 1
          current := -1 }
      else { sch with procs := sch.procs.set c p }
    else sch
  { sch with time := sch.time + 1 }

/-- One iteration of the loop of `scheduler_run` (lines 200-220). -/
def tick (sch : Scheduler) : Scheduler := execute_tick (schedule_tick sch)

/-- The loop `while (sch->completed < sch->nprocs)` of `scheduler_run` (lines 199-221);
`none` when the fuel does not reach the loop exit. -/
def run_loop : Nat → Scheduler → Option Scheduler
  | 0, sch => if sch.completed < sch.nprocs then none else some sch
  | fuel + 1, sch => if sch.completed < sch.nprocs then run_loop fuel (tick sch) else some sch

/-- The function `rq_free` (lines 29-33). -/
def rq_free (_rq : ReadyQueue) : ReadyQueue := []

/-- The function `scheduler_run` (lines 194-244) as a state transformer: the tick loop, then
`rq_free`.  The summary of lines 223-241 only prints. -/
def scheduler_run (fuel : Nat) (sch : Scheduler) : Option Scheduler :=
  (run_loop fuel sch).map fun s => { s with rq := rq_free s.rq }

/-- The row printed for a tick by lines 204-207 in verbose mode: the pid of the process that
runs, `none` for `idle`. -/
def trace_row (sch : Scheduler) : Option Int :=
  if sch.current = -1 then none else some (getP sch.procs sch.current.toNat).pid

/-- The rows printed by the tick loop of `scheduler_run` in verbose mode, first tick first,
over at most `fuel` ticks. -/
def run_trace : Nat → Scheduler → List (Int × Option Int)
  | 0, _ => []
  | fuel + 1, sch =>
    if sch.completed < sch.nprocs then
      (sch.time, trace_row (schedule_tick sch)) :: run_trace fuel (tick sch)
    else []

/-- The state after `k` iterations of the tick loop. -/
def run_ticks : Nat → Scheduler → Scheduler
  | 0, sch => sch
  | k + 1, sch => run_ticks k (tick sch)

/-- A workload row `PID ARRIVAL BURST PRIORITY` as a table cell, the other fields zero
(as in `main.c`, lines 76-82). -/
def mkProc (pid arrival burst priority : Int) : Process :=
  { pid := pid, arrival_time := arrival, burst_time := burst, remaining_time := 0
    base_priority := priority, effective_priority := 0, start_time := 0, finish_time := 0
    last_ready_time := 0, waiting_time_accum := 0, started := false }

/-- The built-in sample workload of `main.c` (lines 76-82). -/
def sample : List Process :=
  [mkProc 1 0 7 2, mkProc 2 2 4 4, mkProc 3 4 1 6, mkProc 4 5 4 3, mkProc 5 6 6 1]

/-- The two-process workload of scenario S3. -/
def s3_procs : List Process := [mkProc 1 0 10 5, mkProc 2 0 3 1]

/-- The per-process figures printed by the summary of `scheduler_run` (lines 226-235):
`(pid, start, finish, wait, turnaround)`. -/
def report (sch : Scheduler) : List (Int × Int × Int × Int × Int) :=
  sch.procs.map fun p =>
    (p.pid, p.start_time, p.finish_time, p.waiting_time_accum, p.finish_time - p.arrival_time)

/-- The fields that the phases before the execution of a tick never write: the configuration,
the clock and the completion counter. -/
def frame (sch : Scheduler) : Int × Bool × Bool × Int × Int × Int × Int :=
  (sch.nprocs, sch.preemptive, sch.aging_enabled, sch.aging_interval, sch.aging_increment,
    sch.time, sch.completed)

/-! ## Specification vocabulary -/

/-- The lexicographic order of the specification on the scheduling keys: higher effective
priority first, then earlier arrival, then smaller pid. -/
def lex_before (a b : Process) : Prop :=
  a.effective_priority > b.effective_priority ∨
    (a.effective_priority = b.effective_priority ∧
      (a.arrival_time < b.arrival_time ∨
        (a.arrival_time = b.arrival_time ∧ a.pid < b.pid)))

/-- The pids of the table are pairwise distinct. -/
def distinct_pids (procs : List Process) : Prop :=
  ∀ i < procs.length, ∀ j < procs.length, i ≠ j → (getP procs i).pid ≠ (getP procs j).pid

/-- Every burst is positive and no arrival is negative. -/
def valid_table (procs : List Process) : Prop :=
  ∀ i < procs.length, 0 < (getP procs i).burst_time ∧ 0 ≤ (getP procs i).arrival_time

/-- The largest arrival time of the table (`0` for the empty table). -/
def max_arrival (procs : List Process) : Int :=
  procs.foldr (fun p m => max p.arrival_time m) 0

/-- The sum of the bursts of the table. -/
def total_burst (procs : List Process) : Int :=
  (procs.map fun p => p.burst_time).sum

/-- The remaining times of the table, cell by cell. -/
def rems (procs : List Process) : List Int := procs.map fun p => p.remaining_time

/-- Process `i` (arrival `arrival`) has been admitted when the clock shows `time` and the loop
of `admit_arrivals` of that tick has treated the indices below `k`. -/
def admitted (arrival time : Int) (i k : Nat) : Prop :=
  arrival < time ∨ (arrival = time ∧ i < k)

/-- The accounting facts of one table cell `p` whose input row is `p0`, at clock `time`, given
whether the process has been admitted, is in the ready queue, is the running one.
`pre` is the flag `preemptive`. -/
structure proc_ok (pre : Bool) (time : Int) (adm inq run : Prop) (p0 p : Process) :
    Prop where
  arrival_eq : p.arrival_time = p0.arrival_time
  burst_eq : p.burst_time = p0.burst_time
  rem_nonneg : 0 ≤ p.remaining_time
  rem_le : p.remaining_time ≤ p.burst_time
  when_unstarted : p.started = false → p.remaining_time = p.burst_time ∧ p.waiting_time_accum = 0
  when_started : p.started = true →
    adm ∧ p.arrival_time ≤ p.start_time ∧
      p.start_time + (p.burst_time - p.remaining_time) ≤ time
  when_queued : inq →
    adm ∧ 0 < p.remaining_time ∧ p.arrival_time ≤ p.last_ready_time ∧
      p.last_ready_time ≤ time ∧
      p.waiting_time_accum + (p.burst_time - p.remaining_time) =
        p.last_ready_time - p.arrival_time ∧
      (pre = false → p.started = false)
  when_running : run →
    0 < p.remaining_time ∧ p.started = true ∧
      p.waiting_time_accum + (p.burst_time - p.remaining_time) = time - p.arrival_time ∧
      (pre = false →
        p.start_time + (p.burst_time - p.remaining_time) = time ∧
          p.waiting_time_accum = p.start_time - p.arrival_time)
  when_idle : ¬ inq → ¬ run → adm → p.remaining_time = 0
  when_done : p.remaining_time = 0 →
    p.started = true ∧
      p.waiting_time_accum = p.finish_time - p.arrival_time - p.burst_time ∧
      p.finish_time ≤ time ∧ p.start_time + p.burst_time ≤ p.finish_time ∧
      (pre = false →
        p.finish_time - p.start_time = p.burst_time ∧
          p.waiting_time_accum = p.start_time - p.arrival_time)

/-- The invariant of the engine on the table, the queue and the running index, at clock `time`
with the loop of `admit_arrivals` at index `k`; `ps0` is the input table. -/
structure core_inv (ps0 : List Process) (pre : Bool) (k : Nat) (time : Int)
    (procs : List Process) (rq : List Nat) (cur : Int) : Prop where
  len : procs.length = ps0.length
  cur_ok : cur = -1 ∨ (0 ≤ cur ∧ cur.toNat < ps0.length ∧ cur.toNat ∉ rq)
  rq_nodup : rq.Nodup
  rq_lt : ∀ i ∈ rq, i < ps0.length
  procs_ok : ∀ i < ps0.length,
    proc_ok pre time (admitted (getP procs i).arrival_time time i k) (i ∈ rq) (cur = (i : Int))
      (getP ps0 i) (getP procs i)

/-- The invariant `core_inv` of a scheduler state. -/
def sched_inv (ps0 : List Process) (k : Nat) (s : Scheduler) : Prop :=
  core_inv ps0 s.preemptive k s.time s.procs s.rq s.current

/-- The invariant of the counters: `completed` counts the cells with no remaining time, and
the clock is bounded through the remaining work. -/
structure count_inv (ps0 : List Process) (s : Scheduler) : Prop where
  nprocs_eq : s.nprocs = (ps0.length : Int)
  completed_eq : s.completed = (((rems s.procs).countP fun r => decide (r = 0) : Nat) : Int)
  sum_le : (rems s.procs).sum ≤ total_burst ps0
  bound : s.time + (rems s.procs).sum ≤ max_arrival ps0 + total_burst ps0

/-- The facts about the state `r` at the exit of the tick loop, for the input table `ps` and the
flag `pre` (`preemptive`): every process is complete, within the bound on the clock, and its
accounting fields are consistent. -/
def final_ok (ps : List Process) (pre : Bool) (r : Scheduler) : Prop :=
  r.completed = r.nprocs ∧ r.time ≤ max_arrival ps + total_burst ps ∧
  ∀ i < ps.length,
    (getP r.procs i).arrival_time = (getP ps i).arrival_time ∧
    (getP r.procs i).burst_time = (getP ps i).burst_time ∧
    (getP r.procs i).remaining_time = 0 ∧
    (getP r.procs i).waiting_time_accum =
      (getP r.procs i).finish_time - (getP r.procs i).arrival_time -
        (getP r.procs i).burst_time ∧
    (getP r.procs i).arrival_time ≤ (getP r.procs i).start_time ∧
    (getP r.procs i).start_time < (getP r.procs i).finish_time ∧
    (getP r.procs i).finish_time - (getP r.procs i).start_time ≥ (getP r.procs i).burst_time ∧
    (pre = false →
      (getP r.procs i).finish_time - (getP r.procs i).start_time = (getP r.procs i).burst_time ∧
      (getP r.procs i).waiting_time_accum =
        (getP r.procs i).start_time - (getP r.procs i).arrival_time)

/-- The max-heap property of the queue cells under `compare_proc`: no cell beats its parent. -/
def is_heap (procs : List Process) (data : List Nat) : Prop :=
  ∀ k < data.length, 0 < k →
    ¬ compare_proc procs (data.getD k 0) (data.getD ((k - 1) / 2) 0) > 0

/-- The heap property on every edge whose parent is not the cell `idx`: the state of the cells
while `sift_down` works at `idx`. -/
def heap_except (procs : List Process) (data : List Nat) (idx : Nat) : Prop :=
  ∀ k < data.length, 0 < k → (k - 1) / 2 ≠ idx →
    ¬ compare_proc procs (data.getD k 0) (data.getD ((k - 1) / 2) 0) > 0

/-- The heap property on every edge whose parent is at a position `≥ lo`: the state of the cells
when the loop of `rq_reheapify` has treated the positions from `lo` on. -/
def heap_from (procs : List Process) (data : List Nat) (lo : Nat) : Prop :=
  ∀ k < data.length, 0 < k → lo ≤ (k - 1) / 2 →
    ¬ compare_proc procs (data.getD k 0) (data.getD ((k - 1) / 2) 0) > 0

/-- The loop of `maybe_age_waiting` (lines 113-116) on the table: every cell whose index is
in the queue gets the increment. -/
def age_procs (rq : ReadyQueue) (inc : Int) (procs : List Process) : List Process :=
  forLoop rq.length (fun i procs =>
    let idx := rq.getD i 0
    let p := getP procs idx
    procs.set idx { p with effective_priority := p.effective_priority + inc }) procs

/-- The guards of `maybe_age_waiting` (lines 111-112): aging is applied at this tick. -/
def aging_due (sch : Scheduler) : Bool :=
  sch.aging_enabled && decide (0 < sch.aging_interval) &&
    decide (sch.time > 0 ∧ Int.tmod sch.time sch.aging_interval = 0)

/-- The variant of `maybe_age_waiting` in the words of the specification: under the same
guards it only adds the increment to every queued process and never calls `rq_reheapify`. -/
def maybe_age_waiting_no_reheapify (sch : Scheduler) : Scheduler :=
  if !sch.aging_enabled || sch.aging_interval ≤ 0 then sch
  else if sch.time > 0 ∧ Int.tmod sch.time sch.aging_interval = 0 then
    { sch with procs := age_procs sch.rq sch.aging_increment sch.procs }
  else sch

/-- The cell `p'` carries the scheduling key of the cell `p` with the effective priority
shifted by `d`. -/
def key_shift (d : Int) (p p' : Process) : Prop :=
  p'.effective_priority = p.effective_priority + d ∧ p'.arrival_time = p.arrival_time ∧
    p'.pid = p.pid

/-- The configuration fields of the engine, which no phase writes. -/
def config (sch : Scheduler) : Int × Bool × Bool × Int × Int :=
  (sch.nprocs, sch.preemptive, sch.aging_enabled, sch.aging_interval, sch.aging_increment)

/-- The input fields of a table cell, which the engine never writes. -/
def static_fields (p : Process) : Int × Int × Int × Int :=
  (p.pid, p.arrival_time, p.burst_time, p.base_priority)

/-- The fields of a table cell that the dispatch phase never writes. -/
def dispatch_fields (p : Process) : Int × Int × Int × Int × Int × Int × Int :=
  (p.pid, p.arrival_time, p.burst_time, p.base_priority, p.effective_priority,
    p.remaining_time, p.finish_time)

/-- The fields of a table cell that the execution of a tick never writes. -/
def execute_fields (p : Process) : Int × Int × Int × Int × Int × Int × Int × Int × Bool :=
  (p.pid, p.arrival_time, p.burst_time, p.base_priority, p.effective_priority,
    p.start_time, p.last_ready_time, p.waiting_time_accum, p.started)

/-- The exclusive states of the specification in a state of an engine on `n` processes: the
running index is a table index that is not in the ready queue, no index is twice in the ready
queue, and a process that is complete or has not arrived is neither running nor queued. -/
def exclusive (n : Nat) (s : Scheduler) : Prop :=
  (s.current ≠ -1 → 0 ≤ s.current ∧ s.current.toNat < n ∧ s.current.toNat ∉ s.rq) ∧
  s.rq.Nodup ∧
  ∀ i < n,
    ((getP s.procs i).remaining_time = 0 ∨ s.time < (getP s.procs i).arrival_time) →
      s.current ≠ (i : Int) ∧ i ∉ s.rq

/-- The number of ticks among the first `T` ticks of the run from `s0` in which process `i` was
current during the execute phase. -/
def cpu_ticks (s0 : Scheduler) : Nat → Nat → Nat
  | 0, _ => 0
  | T + 1, i =>
    cpu_ticks s0 T i + (if (schedule_tick (run_ticks T s0)).current = (i : Int) then 1 else 0)

/-- The number of aging applications that process `i` has received in the ready queue during
the first `T` ticks of the run from `s0`: the ticks at which aging was due and `i` was in the
queue when `maybe_age_waiting` ran. -/
def boosts (s0 : Scheduler) : Nat → Nat → Nat
  | 0, _ => 0
  | T + 1, i =>
    boosts s0 T i +
      (if aging_due (run_ticks T s0) = true ∧ i ∈ (admit_arrivals (run_ticks T s0)).rq
        then 1 else 0)

/-- The number of ticks `t` with `lo ≤ t ≤ hi` at which aging is applied with the interval
`interval` (`t > 0` and `t % interval = 0`). -/
def aging_ticks_between (interval lo hi : Int) : Nat :=
  ((List.range (hi.toNat + 1)).filter fun t =>
    decide (lo ≤ (t : Int) ∧ 0 < (t : Int) ∧ Int.tmod (t : Int) interval = 0)).length

end PrioritySched

namespace PrioritySched

/-! ## The comparator -/

theorem compare_proc_pos_iff (procs : List Process) (i j : Nat) :
    compare_proc procs i j > 0 ↔ lex_before (getP procs i) (getP procs j) := by
  unfold compare_proc lex_before
  simp only []
  split_ifs <;> omega

theorem compare_proc_trans (procs : List Process) (i j k : Nat)
    (h1 : compare_proc procs i j > 0) (h2 : compare_proc procs j k > 0) :
    compare_proc procs i k > 0 := by
  rw [compare_proc_pos_iff] at *
  unfold lex_before at *
  omega

theorem compare_proc_irrefl (procs : List Process) (i : Nat) :
    ¬ compare_proc procs i i > 0 := by
  rw [compare_proc_pos_iff]
  unfold lex_before
  omega

/-- If `a` does not beat `b` and `b` does not beat `c`, then `a` does not beat `c`. -/
theorem compare_proc_not_trans (procs : List Process) (a b c : Nat)
    (h1 : ¬ compare_proc procs a b > 0) (h2 : ¬ compare_proc procs b c > 0) :
    ¬ compare_proc procs a c > 0 := by
  rw [compare_proc_pos_iff] at *
  unfold lex_before at *
  omega

/-- If `a` beats `b` and `c` does not beat `b`, then `a` beats `c`. -/
theorem compare_proc_pos_of_pos_of_not (procs : List Process) (a b c : Nat)
    (h1 : compare_proc procs a b > 0) (h2 : ¬ compare_proc procs c b > 0) :
    compare_proc procs a c > 0 := by
  rw [compare_proc_pos_iff] at *
  unfold lex_before at *
  omega

/-- If `a` beats `b` then `b` does not beat `a`. -/
theorem compare_proc_asymm (procs : List Process) (a b : Nat)
    (h1 : compare_proc procs a b > 0) : ¬ compare_proc procs b a > 0 := by
  rw [compare_proc_pos_iff] at *
  unfold lex_before at *
  omega

/-- Of two distinct indices of a table with pairwise distinct pids, exactly one beats the
other. -/
theorem compare_proc_total (procs : List Process) (hd : distinct_pids procs)
    (i j : Nat) (hi : i < procs.length) (hj : j < procs.length) (hij : i ≠ j) :
    (compare_proc procs i j > 0 ∧ ¬ compare_proc procs j i > 0) ∨
      (¬ compare_proc procs i j > 0 ∧ compare_proc procs j i > 0) := by
  have hp := hd i hi j hj hij
  simp only [compare_proc_pos_iff]
  unfold lex_before
  omega

/-- C9. On a table with pairwise distinct pids `compare_proc(i, j) > 0` is a strict total
order on the indices of the table: of two distinct indices exactly one beats the other, the
relation is transitive, and it is the lexicographic order "higher effective priority, then
earlier arrival, then smaller pid". -/
theorem compare_proc_strict_total_order (procs : List Process) (hd : distinct_pids procs) :
    (∀ i < procs.length, ∀ j < procs.length, i ≠ j →
      ((compare_proc procs i j > 0 ∧ ¬ compare_proc procs j i > 0) ∨
        (¬ compare_proc procs i j > 0 ∧ compare_proc procs j i > 0))) ∧
    (∀ i j k, compare_proc procs i j > 0 → compare_proc procs j k > 0 →
      compare_proc procs i k > 0) ∧
    (∀ i j, compare_proc procs i j > 0 ↔ lex_before (getP procs i) (getP procs j)) := by
  refine ⟨?_, fun i j k => compare_proc_trans procs i j k, compare_proc_pos_iff procs⟩
  intro i hi j hj hij
  exact compare_proc_total procs hd i j hi hj hij

theorem sample_distinct_pids : distinct_pids sample := by
  unfold distinct_pids
  decide

theorem compare_proc_strict_total_order_witness :
    distinct_pids sample ∧
    ((∀ i < sample.length, ∀ j < sample.length, i ≠ j →
      ((compare_proc sample i j > 0 ∧ ¬ compare_proc sample j i > 0) ∨
        (¬ compare_proc sample i j > 0 ∧ compare_proc sample j i > 0))) ∧
    (∀ i j k, compare_proc sample i j > 0 → compare_proc sample j k > 0 →
      compare_proc sample i k > 0) ∧
    (∀ i j, compare_proc sample i j > 0 ↔ lex_before (getP sample i) (getP sample j))) :=
  ⟨sample_distinct_pids, compare_proc_strict_total_order sample sample_distinct_pids⟩

end PrioritySched
namespace PrioritySched

/-! ## The loops and what the phases leave alone -/

theorem forLoop_induction {σ : Type} (P : Nat → σ → Prop) (n : Nat) (body : Nat → σ → σ)
    (s : σ) (h0 : P 0 s) (hstep : ∀ i < n, ∀ t, P i t → P (i + 1) (body i t)) :
    P n (forLoop n body s) := by
  induction n with
  | zero => exact h0
  | succ m ih =>
    exact hstep m (Nat.lt_succ_self m) _
      (ih fun i hi t ht => hstep i (Nat.lt_succ_of_lt hi) t ht)

theorem admit_body_frame (i : Nat) (s : Scheduler) : frame (admit_body i s) = frame s := by
  unfold admit_body frame
  simp only []
  split_ifs <;> rfl

theorem admit_arrivals_frame (s : Scheduler) : frame (admit_arrivals s) = frame s := by
  unfold admit_arrivals
  exact forLoop_induction (fun _ t => frame t = frame s) _ _ _ rfl
    (fun i _ t ht => (admit_body_frame i t).trans ht)

theorem admit_body_current (i : Nat) (s : Scheduler) :
    (admit_body i s).current = s.current := by
  unfold admit_body
  simp only []
  split_ifs <;> rfl

theorem admit_arrivals_current (s : Scheduler) : (admit_arrivals s).current = s.current := by
  unfold admit_arrivals
  exact forLoop_induction (fun _ t => t.current = s.current) _ _ _ rfl
    (fun i _ t ht => (admit_body_current i t).trans ht)

theorem maybe_age_waiting_frame (s : Scheduler) : frame (maybe_age_waiting s) = frame s := by
  unfold maybe_age_waiting frame
  split_ifs <;> rfl

theorem maybe_age_waiting_current (s : Scheduler) :
    (maybe_age_waiting s).current = s.current := by
  unfold maybe_age_waiting
  split_ifs <;> rfl

theorem dispatch_if_needed_frame (s : Scheduler) : frame (dispatch_if_needed s) = frame s := by
  unfold dispatch_if_needed dispatch_top frame
  simp only []
  split_ifs <;> rfl

theorem schedule_tick_frame (s : Scheduler) : frame (schedule_tick s) = frame s := by
  unfold schedule_tick
  rw [dispatch_if_needed_frame, maybe_age_waiting_frame, admit_arrivals_frame]

theorem execute_tick_time (s : Scheduler) : (execute_tick s).time = s.time + 1 := by
  unfold execute_tick
  simp only []
  split_ifs <;> rfl

theorem frame_time {s t : Scheduler} (h : frame s = frame t) : s.time = t.time := by
  unfold frame at h
  simp only [Prod.mk.injEq] at h
  exact h.2.2.2.2.2.1

theorem tick_time (s : Scheduler) : (tick s).time = s.time + 1 := by
  unfold tick
  rw [execute_tick_time, frame_time (schedule_tick_frame s)]

/-! ## The tick loop: more fuel does not change the result -/

theorem run_loop_succ (fuel : Nat) (s r : Scheduler) (h : run_loop fuel s = some r) :
    run_loop (fuel + 1) s = some r := by
  induction fuel generalizing s with
  | zero =>
    unfold run_loop at h ⊢
    split_ifs at h ⊢ with hc
    exact h
  | succ n ih =>
    rw [run_loop] at h ⊢
    split_ifs at h ⊢ with hc
    · exact ih _ h
    · exact h

theorem run_loop_mono (fuel k : Nat) (s r : Scheduler) (h : run_loop fuel s = some r) :
    run_loop (fuel + k) s = some r := by
  induction k with
  | zero => exact h
  | succ m ih => exact run_loop_succ _ _ _ ih

theorem run_loop_det (f1 f2 : Nat) (s r1 r2 : Scheduler) (h1 : run_loop f1 s = some r1)
    (h2 : run_loop f2 s = some r2) : r1 = r2 := by
  have a := run_loop_mono f1 f2 s r1 h1
  have b := run_loop_mono f2 f1 s r2 h2
  rw [Nat.add_comm] at b
  rw [a] at b
  exact Option.some.inj b

theorem scheduler_run_det (f1 f2 : Nat) (s r1 r2 : Scheduler)
    (h1 : scheduler_run f1 s = some r1) (h2 : scheduler_run f2 s = some r2) : r1 = r2 := by
  unfold scheduler_run at h1 h2
  cases e1 : run_loop f1 s with
  | none => rw [e1] at h1; cases h1
  | some a =>
    cases e2 : run_loop f2 s with
    | none => rw [e2] at h2; cases h2
    | some b =>
      rw [e1] at h1
      rw [e2] at h2
      have := run_loop_det f1 f2 s a b e1 e2
      subst this
      simp only [Option.map_some'] at h1 h2
      rw [← Option.some.inj h1, ← Option.some.inj h2]

/-- Whatever the fuel, a finished run reports the figures of any other finished run. -/
theorem report_det (f1 f2 : Nat) (s : Scheduler) (l1 l2 : List (Int × Int × Int × Int × Int))
    (h1 : (scheduler_run f1 s).map report = some l1)
    (h2 : (scheduler_run f2 s).map report = some l2) : l1 = l2 := by
  cases e1 : scheduler_run f1 s with
  | none => rw [e1] at h1; cases h1
  | some a =>
    cases e2 : scheduler_run f2 s with
    | none => rw [e2] at h2; cases h2
    | some b =>
      have := scheduler_run_det f1 f2 s a b e1 e2
      subst this
      rw [e1] at h1
      rw [e2] at h2
      rw [h1] at h2
      exact Option.some.inj h2

end PrioritySched

namespace PrioritySched

/-! ## Scenarios S1 and S3 -/

/-- C2 (as amended). Scenario S1, preemptive with aging off (`main.c` then passes the default
aging parameters 5 and 1): the run ends after 22 ticks and the summary reports, as
`(pid, start, finish, wait, turnaround)`, P1 `(0, 16, 9, 16)`, P2 `(2, 7, 1, 5)`,
P3 `(4, 5, 0, 1)`, P4 `(7, 11, 2, 6)` and P5 `(16, 22, 10, 16)`: after P4, the CPU goes to P1
(priority 2) before P5 (priority 1). -/
theorem s1_report :
    (scheduler_run 22 (scheduler_init sample 5 true false 5 1)).map report =
      some [(1, 0, 16, 9, 16), (2, 2, 7, 1, 5), (3, 4, 5, 0, 1), (4, 7, 11, 2, 6),
        (5, 16, 22, 10, 16)] := by
  decide

/-- C2 (counterexample). No run of scenario S1 reports the figures of the specification
(P1 finishing at 20 after waiting 13, P5 starting at 11 after waiting 5). -/
theorem s1_spec_figures_fail :
    ¬ ∃ fuel, (scheduler_run fuel (scheduler_init sample 5 true false 5 1)).map report =
      some [(1, 0, 20, 13, 20), (2, 2, 7, 1, 5), (3, 4, 5, 0, 1), (4, 7, 11, 2, 6),
        (5, 11, 22, 5, 16)] := by
  rintro ⟨fuel, h⟩
  have h22 : (scheduler_run 22 (scheduler_init sample 5 true false 5 1)).map report =
      some [(1, 0, 16, 9, 16), (2, 2, 7, 1, 5), (3, 4, 5, 0, 1), (4, 7, 11, 2, 6),
        (5, 16, 22, 10, 16)] := by decide
  have := report_det _ _ _ _ _ h h22
  revert this
  decide

/-- C7 (as amended). Scenario S3 with `aging_interval = 3`, `aging_increment = 2`: at tick 6
the second boost brings the effective priority of P2 to 5, equal to that of P1, and P1 keeps
the CPU (it runs at every tick from 0 to 8); at tick 9 the third boost brings P2 to 7 and P2
preempts P1, which has one tick left.  The run reports P1 `start = 0, finish = 13` and
P2 `start = 9, finish = 12`. -/
theorem s3_increment_two :
    (getP (maybe_age_waiting (admit_arrivals
        (run_ticks 6 (scheduler_init s3_procs 2 true true 3 2)))).procs 1).effective_priority = 5 ∧
    (getP (maybe_age_waiting (admit_arrivals
        (run_ticks 6 (scheduler_init s3_procs 2 true true 3 2)))).procs 0).effective_priority = 5 ∧
    (run_trace 9 (scheduler_init s3_procs 2 true true 3 2)).map Prod.snd =
      List.replicate 9 (some 1) ∧
    (getP (maybe_age_waiting (admit_arrivals
        (run_ticks 9 (scheduler_init s3_procs 2 true true 3 2)))).procs 1).effective_priority = 7 ∧
    (run_ticks 9 (scheduler_init s3_procs 2 true true 3 2)).current = 0 ∧
    (schedule_tick (run_ticks 9 (scheduler_init s3_procs 2 true true 3 2))).current = 1 ∧
    (scheduler_run 13 (scheduler_init s3_procs 2 true true 3 2)).map report =
      some [(1, 0, 13, 3, 13), (2, 9, 12, 9, 12)] := by
  refine ⟨by decide, by decide, by decide, by decide, by decide, by decide, ?_⟩
  decide

/-- C7 (counterexample). In scenario S3 with `aging_interval = 3`, `aging_increment = 2` no run
ends with `P1.finish_time = 10` and `P2.start_time = 10`. -/
theorem s3_increment_two_spec_fails :
    ¬ ∃ fuel s, scheduler_run fuel (scheduler_init s3_procs 2 true true 3 2) = some s ∧
      (getP s.procs 0).finish_time = 10 ∧ (getP s.procs 1).start_time = 10 := by
  rintro ⟨fuel, s, h, h1, -⟩
  have h13 : ∃ r, scheduler_run 13 (scheduler_init s3_procs 2 true true 3 2) = some r ∧
      (getP r.procs 0).finish_time = 13 := by decide
  obtain ⟨r, hr, hr1⟩ := h13
  have := scheduler_run_det _ _ _ _ _ h hr
  subst this
  omega

/-- C8 (as amended). Scenario S3 with `aging_interval = 3`, `aging_increment = 3`: at tick 3
the first boost brings the effective priority of P2 to 4, still below the 5 of P1, and P1
keeps the CPU; at tick 6 the second boost brings P2 to 7 and P2 preempts P1
(`P2.start_time = 6`).  P2 finishes at 9, earlier than the 13 at which it finishes without
aging. -/
theorem s3_increment_three :
    (getP (maybe_age_waiting (admit_arrivals
        (run_ticks 3 (scheduler_init s3_procs 2 true true 3 3)))).procs 1).effective_priority = 4 ∧
    (getP (maybe_age_waiting (admit_arrivals
        (run_ticks 3 (scheduler_init s3_procs 2 true true 3 3)))).procs 0).effective_priority = 5 ∧
    (schedule_tick (run_ticks 3 (scheduler_init s3_procs 2 true true 3 3))).current = 0 ∧
    (getP (maybe_age_waiting (admit_arrivals
        (run_ticks 6 (scheduler_init s3_procs 2 true true 3 3)))).procs 1).effective_priority = 7 ∧
    (run_ticks 6 (scheduler_init s3_procs 2 true true 3 3)).current = 0 ∧
    (schedule_tick (run_ticks 6 (scheduler_init s3_procs 2 true true 3 3))).current = 1 ∧
    (scheduler_run 13 (scheduler_init s3_procs 2 true true 3 3)).map report =
      some [(1, 0, 13, 3, 13), (2, 6, 9, 6, 9)] ∧
    (scheduler_run 13 (scheduler_init s3_procs 2 true false 3 3)).map report =
      some [(1, 0, 10, 0, 10), (2, 10, 13, 10, 13)] := by
  refine ⟨by decide, by decide, by decide, by decide, by decide, by decide, by decide, ?_⟩
  decide

/-- C8 (counterexample). In scenario S3 with `aging_interval = 3`, `aging_increment = 3` the
effective priority of P2 does not exceed that of P1 at tick 3, and no run ends with
`P2.start_time = 3`. -/
theorem s3_increment_three_spec_fails :
    ¬ ((getP (maybe_age_waiting (admit_arrivals
          (run_ticks 3 (scheduler_init s3_procs 2 true true 3 3)))).procs 1).effective_priority >
        (getP (maybe_age_waiting (admit_arrivals
          (run_ticks 3 (scheduler_init s3_procs 2 true true 3 3)))).procs 0).effective_priority) ∧
    ¬ ∃ fuel s, scheduler_run fuel (scheduler_init s3_procs 2 true true 3 3) = some s ∧
      (getP s.procs 1).start_time = 3 := by
  refine ⟨by decide, ?_⟩
  rintro ⟨fuel, s, h, h1⟩
  have h13 : ∃ r, scheduler_run 13 (scheduler_init s3_procs 2 true true 3 3) = some r ∧
      (getP r.procs 1).start_time = 6 := by decide
  obtain ⟨r, hr, hr1⟩ := h13
  have := scheduler_run_det _ _ _ _ _ h hr
  subst this
  omega

end PrioritySched

namespace PrioritySched

/-! ## Configurations that the specification calls erroneous -/

theorem maybe_age_waiting_off (s : Scheduler)
    (h : s.aging_enabled = false ∨ s.aging_interval ≤ 0) : maybe_age_waiting s = s := by
  unfold maybe_age_waiting
  rcases h with h | h
  · simp [h]
  · simp [h]

/-- C4 (as amended). `scheduler_init` validates nothing and has no error result: it
initialises an engine for every input.  With `nprocs ≤ 0` the run executes no tick and changes
no field.  With `0 < nprocs` the tick loop is entered, whatever the bursts, the arrivals and
the aging parameters, and each tick advances the clock; with aging enabled and
`aging_interval ≤ 0`, `maybe_age_waiting` returns at its guard, so that aging is silently
off. -/
theorem scheduler_init_validates_nothing (procs : List Process) (nprocs : Int)
    (preemptive aging_enabled : Bool) (aging_interval aging_increment : Int) (fuel : Nat) :
    (nprocs ≤ 0 →
      scheduler_run fuel
          (scheduler_init procs nprocs preemptive aging_enabled aging_interval aging_increment) =
        some (scheduler_init procs nprocs preemptive aging_enabled aging_interval
          aging_increment)) ∧
    (0 < nprocs →
      run_loop (fuel + 1)
          (scheduler_init procs nprocs preemptive aging_enabled aging_interval aging_increment) =
        run_loop fuel (tick
          (scheduler_init procs nprocs preemptive aging_enabled aging_interval
            aging_increment))) ∧
    (∀ s : Scheduler, (tick s).time = s.time + 1) ∧
    (∀ s : Scheduler, s.aging_enabled = true → s.aging_interval ≤ 0 →
      maybe_age_waiting s = s) := by
  refine ⟨?_, ?_, tick_time, fun s _ h => maybe_age_waiting_off s (Or.inr h)⟩
  · intro h
    have h0 : nprocs.toNat = 0 := Int.toNat_eq_zero.mpr h
    have hn : ¬ (0 : Int) < nprocs := not_lt.mpr h
    cases fuel <;> simp [scheduler_run, run_loop, scheduler_init, h0, hn, forLoop, rq_free]
  · intro h
    simp [run_loop, scheduler_init, h]

theorem scheduler_init_validates_nothing_witness :
    scheduler_run 3 (scheduler_init sample 0 true true 0 1) =
        some (scheduler_init sample 0 true true 0 1) ∧
    run_loop (3 + 1) (scheduler_init [mkProc 1 (-2) 0 1] 1 true true 0 1) =
        run_loop 3 (tick (scheduler_init [mkProc 1 (-2) 0 1] 1 true true 0 1)) :=
  ⟨(scheduler_init_validates_nothing sample 0 true true 0 1 3).1 (by decide),
    (scheduler_init_validates_nothing [mkProc 1 (-2) 0 1] 1 true true 0 1 3).2.1 (by decide)⟩

/-- C4 (counterexample). With aging enabled and `aging_interval = 0` the engine is not
refused: on the one-process table `(pid 1, arrival 0, burst 1, priority 0)` the run executes
a tick and writes the accounting fields (`start_time = 0`, `finish_time = 1`); and on a table
with `burst_time = 0` and a negative arrival the first tick is executed as well. -/
theorem bad_configuration_runs :
    (∃ s, scheduler_run 1 (scheduler_init [mkProc 1 0 1 0] 1 true true 0 1) = some s ∧
      s.time = 1 ∧ s.completed = 1 ∧ (getP s.procs 0).start_time = 0 ∧
      (getP s.procs 0).finish_time = 1 ∧
      s ≠ scheduler_init [mkProc 1 0 1 0] 1 true true 0 1) ∧
    (run_ticks 1 (scheduler_init [mkProc 1 0 0 0, mkProc 2 (-1) 1 0] 2 true false 5 1)).time = 1 ∧
    (getP (run_ticks 1 (scheduler_init [mkProc 1 0 0 0, mkProc 2 (-1) 1 0] 2 true false 5 1)).procs
      0).remaining_time = -1 := by
  refine ⟨by decide, by decide, by decide⟩

end PrioritySched

namespace PrioritySched

/-! ## The ready queue: contents -/

theorem getD_set_nat (l : List Nat) (i j a d : Nat) :
    (l.set i a).getD j d = if i = j ∧ i < l.length then a else l.getD j d := by
  simp only [List.getD_eq_getElem?_getD, List.getElem?_set]
  by_cases hij : i = j
  · subst hij
    by_cases hi : i < l.length
    · simp [hi]
    · simp [hi, List.getElem?_eq_none (Nat.le_of_not_lt hi)]
  · simp [hij]

theorem heap_swap_length (data : List Nat) (i j : Nat) :
    (heap_swap data i j).length = data.length := by
  simp [heap_swap]

theorem heap_swap_getD (data : List Nat) (i j k : Nat) (hi : i < data.length)
    (hj : j < data.length) :
    (heap_swap data i j).getD k 0 =
      if k = j then data.getD i 0 else if k = i then data.getD j 0 else data.getD k 0 := by
  unfold heap_swap
  rw [getD_set_nat, getD_set_nat]
  simp only [List.length_set]
  by_cases h1 : j = k
  · subst h1
    simp [hj]
  · have h1' : ¬ k = j := fun h => h1 h.symm
    by_cases h2 : i = k
    · subst h2
      simp [h1, h1', hi]
    · have h2' : ¬ k = i := fun h => h2 h.symm
      simp [h1, h2, h1', h2']

theorem count_getElem_pos (l : List Nat) (i : Nat) (h : i < l.length) (b : Nat)
    (hb : l[i] = b) : 0 < l.count b := by
  rw [List.count_pos_iff]
  rw [← hb]
  exact List.getElem_mem h

theorem heap_swap_perm (data : List Nat) (i j : Nat) (hi : i < data.length)
    (hj : j < data.length) : (heap_swap data i j).Perm data := by
  rw [List.perm_iff_count]
  intro b
  unfold heap_swap
  rw [List.getD_eq_getElem _ _ hi, List.getD_eq_getElem _ _ hj]
  have hj' : j < (data.set i data[j]).length := by simpa using hj
  rw [List.count_set _ _ _ _ hj', List.count_set _ _ _ _ hi]
  have e : (data.set i data[j])[j] = data[j] := by
    rw [List.getElem_set]
    split_ifs with h
    · rfl
    · rfl
  rw [e]
  have p1 := count_getElem_pos data i hi b
  by_cases h1 : data[i] = b <;> by_cases h2 : data[j] = b <;> simp [h1, h2] <;> omega

theorem sift_largest_cases (procs : List Process) (data : List Nat) (idx : Nat) :
    sift_largest procs data idx = idx ∨
      ((sift_largest procs data idx = 2 * idx + 1 ∨ sift_largest procs data idx = 2 * idx + 2) ∧
        sift_largest procs data idx < data.length) := by
  unfold sift_largest
  simp only []
  split_ifs with h1 h2 h2
  · exact Or.inr ⟨Or.inr rfl, h2.1⟩
  · exact Or.inr ⟨Or.inl rfl, h1.1⟩
  · exact Or.inr ⟨Or.inr rfl, h2.1⟩
  · exact Or.inl rfl

theorem sift_down_loop_perm (procs : List Process) (fuel : Nat) (data : List Nat) (idx : Nat) :
    (sift_down_loop procs fuel data idx).Perm data := by
  induction fuel generalizing data idx with
  | zero => exact List.Perm.refl _
  | succ n ih =>
    rw [sift_down_loop]
    split_ifs with h
    · rcases sift_largest_cases procs data idx with h0 | ⟨hc, hlt⟩
      · exact absurd h0 h
      · have hidx : idx < data.length := by omega
        exact (ih _ _).trans (heap_swap_perm data idx _ hidx hlt)
    · exact List.Perm.refl _

theorem sift_down_perm (procs : List Process) (data : List Nat) (idx : Nat) :
    (sift_down procs data idx).Perm data :=
  sift_down_loop_perm procs _ data idx

theorem sift_up_loop_perm (procs : List Process) (fuel : Nat) (data : List Nat) (idx : Nat)
    (hidx : idx < data.length) : (sift_up_loop procs fuel data idx).Perm data := by
  induction fuel generalizing data idx with
  | zero => exact List.Perm.refl _
  | succ n ih =>
    rw [sift_up_loop]
    simp only []
    split_ifs with h1 h2
    · have hp : (idx - 1) / 2 < data.length := by omega
      have hp' : (idx - 1) / 2 < (heap_swap data idx ((idx - 1) / 2)).length := by
        rw [heap_swap_length]; exact hp
      exact (ih _ _ hp').trans (heap_swap_perm data idx _ hidx hp)
    · exact List.Perm.refl _
    · exact List.Perm.refl _

theorem rq_push_perm (procs : List Process) (rq : ReadyQueue) (i : Nat) :
    (rq_push procs rq i).Perm (i :: rq) := by
  unfold rq_push sift_up
  simp only []
  refine (sift_up_loop_perm procs _ _ _ (by simp)).trans ?_
  exact List.perm_append_singleton i rq

theorem reheapify_loop_perm (procs : List Process) (n : Nat) (data : List Nat) :
    (reheapify_loop procs n data).Perm data := by
  induction n generalizing data with
  | zero => exact List.Perm.refl _
  | succ m ih =>
    rw [reheapify_loop]
    exact (ih _).trans (sift_down_perm procs data m)

theorem rq_reheapify_perm (procs : List Process) (rq : ReadyQueue) :
    (rq_reheapify procs rq).Perm rq :=
  reheapify_loop_perm procs _ rq

/-- The cells left by `rq_pop` before `sift_down`, with the old root in front, are a
permutation of the queue. -/
theorem pop_cells_perm (rq : List Nat) (h : rq ≠ []) :
    (rq.getD 0 0 :: (rq.set 0 (rq.getD (rq.length - 1) 0)).take (rq.length - 1)).Perm rq := by
  cases rq with
  | nil => exact absurd rfl h
  | cons a tl =>
    cases htl : tl with
    | nil => simp
    | cons b tl2 =>
      have hne : tl ≠ [] := by rw [htl]; simp
      have hlast : (a :: tl).getD ((a :: tl).length - 1) 0 = tl.getLast hne := by
        rw [List.getD_eq_getElem _ _ (by simp)]
        rw [List.getLast_eq_getElem]
        simp only [List.length_cons, Nat.add_sub_cancel]
        rw [List.getElem_cons]
        have : ¬ tl.length = 0 := by rw [htl]; simp
        simp [this]
      rw [← htl, hlast]
      simp only [List.set_cons_zero, List.length_cons, Nat.add_sub_cancel, List.getD_cons_zero]
      have e : (tl.getLast hne :: tl).take tl.length = tl.getLast hne :: tl.dropLast := by
        rw [List.dropLast_eq_take]
        cases hl : tl.length with
        | zero => rw [htl] at hl; simp at hl
        | succ m => simp
      rw [e]
      refine List.Perm.cons a ?_
      have hperm := (List.perm_append_singleton (tl.getLast hne) tl.dropLast).symm
      rw [List.dropLast_append_getLast hne] at hperm
      exact hperm

theorem rq_pop_empty (procs : List Process) : rq_pop procs [] = (-1, []) := rfl

theorem rq_pop_perm (procs : List Process) (rq : ReadyQueue) (h : rq ≠ []) :
    (rq_pop procs rq).1 = ((rq.getD 0 0 : Nat) : Int) ∧
      (rq.getD 0 0 :: (rq_pop procs rq).2).Perm rq := by
  have hl : ¬ rq.length = 0 := by
    intro h0
    exact h (List.length_eq_zero.mp h0)
  unfold rq_pop
  simp only [hl, if_false]
  refine ⟨trivial, ?_⟩
  exact (List.Perm.cons _ (sift_down_perm procs _ 0)).trans (pop_cells_perm rq h)

end PrioritySched

namespace PrioritySched

/-! ## The ready queue: heap order -/

theorem sift_largest_eq (procs : List Process) (data : List Nat) (idx : Nat)
    (h : sift_largest procs data idx = idx) :
    (2 * idx + 1 < data.length →
      ¬ compare_proc procs (data.getD (2 * idx + 1) 0) (data.getD idx 0) > 0) ∧
    (2 * idx + 2 < data.length →
      ¬ compare_proc procs (data.getD (2 * idx + 2) 0) (data.getD idx 0) > 0) := by
  unfold sift_largest at h
  simp only [] at h
  split_ifs at h with h1 h2 h2
  · omega
  · omega
  · omega
  · constructor
    · intro hl hc
      exact h1 ⟨hl, hc⟩
    · intro hr hc
      exact h2 ⟨hr, hc⟩

theorem sift_largest_ne (procs : List Process) (data : List Nat) (idx : Nat)
    (h : sift_largest procs data idx ≠ idx) :
    compare_proc procs (data.getD (sift_largest procs data idx) 0) (data.getD idx 0) > 0 ∧
    (2 * idx + 1 < data.length →
      ¬ compare_proc procs (data.getD (2 * idx + 1) 0)
        (data.getD (sift_largest procs data idx) 0) > 0) ∧
    (2 * idx + 2 < data.length →
      ¬ compare_proc procs (data.getD (2 * idx + 2) 0)
        (data.getD (sift_largest procs data idx) 0) > 0) := by
  unfold sift_largest at h ⊢
  simp only [] at h ⊢
  split_ifs at h ⊢ with h1 h2 h2
  · refine ⟨compare_proc_trans _ _ _ _ h2.2 h1.2, ?_, ?_⟩
    · intro _
      exact compare_proc_asymm _ _ _ h2.2
    · intro _
      exact compare_proc_irrefl _ _
  · refine ⟨h1.2, ?_, ?_⟩
    · intro _
      exact compare_proc_irrefl _ _
    · intro hr hc
      exact h2 ⟨hr, hc⟩
  · refine ⟨h2.2, ?_, ?_⟩
    · intro hl hc
      have := compare_proc_trans _ _ _ _ hc h2.2
      exact h1 ⟨hl, this⟩
    · intro _
      exact compare_proc_irrefl _ _
  · exact absurd rfl h

theorem sift_down_loop_heap (procs : List Process) (fuel : Nat) (data : List Nat) (idx : Nat)
    (hfuel : data.length - idx ≤ fuel) (hex : heap_except procs data idx)
    (hup : 0 < idx → ∀ k < data.length, (k = 2 * idx + 1 ∨ k = 2 * idx + 2) →
      ¬ compare_proc procs (data.getD k 0) (data.getD ((idx - 1) / 2) 0) > 0) :
    is_heap procs (sift_down_loop procs fuel data idx) := by
  induction fuel generalizing data idx with
  | zero =>
    rw [sift_down_loop]
    intro k hk hk0
    exact hex k hk hk0 (by omega)
  | succ n ih =>
    rw [sift_down_loop]
    split_ifs with h
    · rcases sift_largest_cases procs data idx with h0 | ⟨hc, hlt⟩
      · exact absurd h0 h
      · obtain ⟨hbeat, hleft, hright⟩ := sift_largest_ne procs data idx h
        generalize sift_largest procs data idx = l at h hc hlt hbeat hleft hright
        have hidx : idx < data.length := by omega
        have hchild : ∀ k < data.length, (k = 2 * idx + 1 ∨ k = 2 * idx + 2) →
            ¬ compare_proc procs (data.getD k 0) (data.getD l 0) > 0 := by
          intro k hk hk2
          rcases hk2 with e | e
          · subst e; exact hleft hk
          · subst e; exact hright hk
        apply ih
        · rw [heap_swap_length]; omega
        · intro k hk hk0 hpar
          rw [heap_swap_length] at hk
          rw [heap_swap_getD _ _ _ _ hidx hlt, heap_swap_getD _ _ _ _ hidx hlt]
          by_cases hkl : k = l
          · have hp : (k - 1) / 2 = idx := by omega
            rw [hp]
            simp only [hkl, if_true, h.symm, if_false]
            exact compare_proc_asymm _ _ _ hbeat
          · by_cases hki : k = idx
            · subst hki
              have hp1 : ¬ (k - 1) / 2 = l := hpar
              have hp2 : ¬ (k - 1) / 2 = k := by omega
              simp only [hkl, if_true, if_false, hp1, hp2]
              exact hup hk0 l hlt hc
            · have hp1 : ¬ (k - 1) / 2 = l := hpar
              simp only [hkl, hki, if_false, hp1]
              by_cases hpi : (k - 1) / 2 = idx
              · simp only [hpi, if_true]
                exact hchild k hk (by omega)
              · simp only [hpi, if_false]
                exact hex k hk hk0 hpi
        · intro hl0 k hk hk2
          rw [heap_swap_length] at hk
          rw [heap_swap_getD _ _ _ _ hidx hlt, heap_swap_getD _ _ _ _ hidx hlt]
          have hp : (l - 1) / 2 = idx := by omega
          have e1 : ¬ k = l := by omega
          have e2 : ¬ k = idx := by omega
          have e3 : ¬ idx = l := fun e => h e.symm
          rw [hp]
          simp only [e1, e2, e3, if_true, if_false]
          have := hex k hk (by omega) (by omega)
          have hp' : (k - 1) / 2 = l := by omega
          rw [hp'] at this
          exact this
    · have h0 : sift_largest procs data idx = idx := not_not.mp h
      obtain ⟨hleft, hright⟩ := sift_largest_eq procs data idx h0
      intro k hk hk0
      by_cases hpar : (k - 1) / 2 = idx
      · rw [hpar]
        have : k = 2 * idx + 1 ∨ k = 2 * idx + 2 := by omega
        rcases this with e | e
        · subst e; exact hleft hk
        · subst e; exact hright hk
      · exact hex k hk hk0 hpar

theorem heap_root_max (procs : List Process) (data : List Nat) (h : is_heap procs data)
    (k : Nat) (hk : k < data.length) :
    ¬ compare_proc procs (data.getD k 0) (data.getD 0 0) > 0 := by
  induction k using Nat.strong_induction_on with
  | _ k ih =>
    by_cases hk0 : k = 0
    · subst hk0
      exact compare_proc_irrefl _ _
    · have h1 := h k hk (by omega)
      have h2 := ih ((k - 1) / 2) (by omega) (by omega)
      exact compare_proc_not_trans _ _ _ _ h1 h2

theorem mem_getD (l : List Nat) (x : Nat) (h : x ∈ l) : ∃ k < l.length, l.getD k 0 = x := by
  obtain ⟨k, hk, e⟩ := List.getElem_of_mem h
  exact ⟨k, hk, by rw [List.getD_eq_getElem _ _ hk]; exact e⟩

theorem pop_cells_getD (rq : List Nat) (a k : Nat) (hk0 : 0 < k) (hk : k < rq.length - 1) :
    ((rq.set 0 a).take (rq.length - 1)).getD k 0 = rq.getD k 0 := by
  have h1 : ¬ 0 = k := by omega
  have h2 : k < rq.length := by omega
  simp [List.getD_eq_getElem?_getD, List.getElem?_take, hk, List.getElem?_set, h1,
    List.getElem?_eq_getElem h2]

theorem rq_pop_heap (procs : List Process) (rq : ReadyQueue) (h : is_heap procs rq) :
    is_heap procs (rq_pop procs rq).2 := by
  unfold rq_pop
  split_ifs with h0
  · exact h
  · simp only []
    unfold sift_down
    apply sift_down_loop_heap
    · exact le_refl _
    · intro k hk hk0 hpar
      have hlen : ((rq.set 0 (rq.getD (rq.length - 1) 0)).take (rq.length - 1)).length
          = rq.length - 1 := by
        simp
      rw [hlen] at hk
      rw [pop_cells_getD _ _ _ hk0 hk, pop_cells_getD _ _ _ (by omega) (by omega)]
      exact h k (by omega) hk0
    · intro h00
      exact absurd h00 (lt_irrefl 0)

end PrioritySched

namespace PrioritySched

/-! ## The fuel of the sift loops is enough -/

/-- Beyond `size - idx` units, more fuel does not change the result of the loop of
`sift_down`: the loop has reached its `break`. -/
theorem sift_down_loop_fuel (procs : List Process) (fuel : Nat) (data : List Nat) (idx : Nat)
    (h : data.length - idx ≤ fuel) :
    sift_down_loop procs (fuel + 1) data idx = sift_down_loop procs fuel data idx := by
  induction fuel generalizing data idx with
  | zero =>
    rw [sift_down_loop, sift_down_loop]
    rcases sift_largest_cases procs data idx with h0 | ⟨hc, hlt⟩
    · simp [h0]
    · omega
  | succ n ih =>
    rw [sift_down_loop]
    conv_rhs => rw [sift_down_loop]
    split_ifs with hl
    · rcases sift_largest_cases procs data idx with h0 | ⟨hc, hlt⟩
      · exact absurd h0 hl
      · apply ih
        rw [heap_swap_length]
        omega
    · rfl

/-- Beyond `idx` units, more fuel does not change the result of the loop of `sift_up`. -/
theorem sift_up_loop_fuel (procs : List Process) (fuel : Nat) (data : List Nat) (idx : Nat)
    (h : idx ≤ fuel) :
    sift_up_loop procs (fuel + 1) data idx = sift_up_loop procs fuel data idx := by
  induction fuel generalizing data idx with
  | zero =>
    have : idx = 0 := by omega
    subst this
    rw [sift_up_loop, sift_up_loop]
    simp
  | succ n ih =>
    rw [sift_up_loop]
    conv_rhs => rw [sift_up_loop]
    simp only []
    split_ifs with h1 h2
    · apply ih
      omega
    · rfl
    · rfl

/-! ## `rq_pop` -/

/-- C10. On a queue that satisfies the max-heap property under `compare_proc`, `rq_pop`
returns `-1` exactly when the queue is empty, and then leaves it as it is; on a non-empty
queue it returns an index `top` of the queue that no index of the queue beats (and that beats
every other index of the queue when the pids are pairwise distinct), and it leaves a queue
whose contents are the old contents minus one occurrence of `top` and which satisfies the heap
property again. -/
theorem rq_pop_spec (procs : List Process) (rq : ReadyQueue) (hheap : is_heap procs rq) :
    ((rq_pop procs rq).1 = -1 ↔ rq = []) ∧
    (rq = [] → (rq_pop procs rq).2 = rq) ∧
    (rq ≠ [] → ∃ top : Nat, (rq_pop procs rq).1 = (top : Int) ∧ top ∈ rq ∧
      (∀ x ∈ rq, ¬ compare_proc procs x top > 0) ∧
      (distinct_pids procs → (∀ x ∈ rq, x < procs.length) →
        ∀ x ∈ rq, x ≠ top → compare_proc procs top x > 0) ∧
      ((rq_pop procs rq).2).Perm (rq.erase top) ∧
      is_heap procs (rq_pop procs rq).2) := by
  have hne : rq ≠ [] → ∃ top : Nat, (rq_pop procs rq).1 = (top : Int) ∧ top ∈ rq ∧
      (∀ x ∈ rq, ¬ compare_proc procs x top > 0) ∧
      (distinct_pids procs → (∀ x ∈ rq, x < procs.length) →
        ∀ x ∈ rq, x ≠ top → compare_proc procs top x > 0) ∧
      ((rq_pop procs rq).2).Perm (rq.erase top) ∧
      is_heap procs (rq_pop procs rq).2 := by
    intro h
    obtain ⟨h1, h2⟩ := rq_pop_perm procs rq h
    have hmem : rq.getD 0 0 ∈ rq := (List.cons_perm_iff_perm_erase.mp h2).1
    have hmax : ∀ x ∈ rq, ¬ compare_proc procs x (rq.getD 0 0) > 0 := by
      intro x hx
      obtain ⟨k, hk, e⟩ := mem_getD rq x hx
      rw [← e]
      exact heap_root_max procs rq hheap k hk
    refine ⟨rq.getD 0 0, h1, hmem, hmax, ?_, (List.cons_perm_iff_perm_erase.mp h2).2,
      rq_pop_heap procs rq hheap⟩
    intro hd hr x hx hxt
    rcases compare_proc_total procs hd x _ (hr x hx) (hr _ hmem) hxt with hc | hc
    · exact absurd hc.1 (hmax x hx)
    · exact hc.2
  refine ⟨?_, ?_, hne⟩
  · constructor
    · intro h
      by_contra hn
      obtain ⟨top, ht, -⟩ := hne hn
      rw [ht] at h
      omega
    · intro h
      subst h
      rfl
  · intro h
    subst h
    rfl

theorem rq_pop_spec_witness :
    is_heap (scheduler_init sample 5 true false 5 1).procs [2, 1, 0, 3, 4] ∧
    (((rq_pop (scheduler_init sample 5 true false 5 1).procs [2, 1, 0, 3, 4]).1 = -1 ↔
      [2, 1, 0, 3, 4] = ([] : List Nat)) ∧
    ([2, 1, 0, 3, 4] = ([] : List Nat) →
      (rq_pop (scheduler_init sample 5 true false 5 1).procs [2, 1, 0, 3, 4]).2 =
        [2, 1, 0, 3, 4]) ∧
    ([2, 1, 0, 3, 4] ≠ ([] : List Nat) → ∃ top : Nat,
      (rq_pop (scheduler_init sample 5 true false 5 1).procs [2, 1, 0, 3, 4]).1 = (top : Int) ∧
      top ∈ [2, 1, 0, 3, 4] ∧
      (∀ x ∈ [2, 1, 0, 3, 4],
        ¬ compare_proc (scheduler_init sample 5 true false 5 1).procs x top > 0) ∧
      (distinct_pids (scheduler_init sample 5 true false 5 1).procs →
        (∀ x ∈ [2, 1, 0, 3, 4], x < (scheduler_init sample 5 true false 5 1).procs.length) →
        ∀ x ∈ [2, 1, 0, 3, 4], x ≠ top →
          compare_proc (scheduler_init sample 5 true false 5 1).procs top x > 0) ∧
      ((rq_pop (scheduler_init sample 5 true false 5 1).procs [2, 1, 0, 3, 4]).2).Perm
        (List.erase [2, 1, 0, 3, 4] top) ∧
      is_heap (scheduler_init sample 5 true false 5 1).procs
        (rq_pop (scheduler_init sample 5 true false 5 1).procs [2, 1, 0, 3, 4]).2)) ∧
    (rq_pop (scheduler_init sample 5 true false 5 1).procs [2, 1, 0, 3, 4]).1 = 2 ∧
    (rq_pop (scheduler_init sample 5 true false 5 1).procs [2, 1, 0, 3, 4]).2 = [1, 3, 0, 4] ∧
    (rq_pop (scheduler_init sample 5 true false 5 1).procs []).1 = -1 :=
  ⟨by unfold is_heap; decide,
    rq_pop_spec (scheduler_init sample 5 true false 5 1).procs [2, 1, 0, 3, 4]
      (by unfold is_heap; decide),
    by decide, by decide, by decide⟩

end PrioritySched

namespace PrioritySched

/-! ## Table cells -/

theorem getP_set (procs : List Process) (i j : Nat) (p : Process) :
    getP (procs.set i p) j = if i = j ∧ i < procs.length then p else getP procs j := by
  unfold getP
  simp only [List.getD_eq_getElem?_getD, List.getElem?_set]
  by_cases hij : i = j
  · subst hij
    by_cases hi : i < procs.length
    · simp [hi]
    · simp [hi, List.getElem?_eq_none (Nat.le_of_not_lt hi)]
  · simp [hij]

theorem getP_set_self (procs : List Process) (i : Nat) (p : Process) (h : i < procs.length) :
    getP (procs.set i p) i = p := by
  rw [getP_set]
  simp [h]

theorem getP_set_ne (procs : List Process) (i j : Nat) (p : Process) (h : i ≠ j) :
    getP (procs.set i p) j = getP procs j := by
  rw [getP_set]
  simp [h]

theorem getP_eq_getElem (procs : List Process) (i : Nat) (h : i < procs.length) :
    getP procs i = procs[i] := by
  unfold getP
  exact List.getD_eq_getElem _ _ h

theorem rems_set (procs : List Process) (i : Nat) (p : Process) :
    rems (procs.set i p) = (rems procs).set i p.remaining_time := by
  unfold rems
  rw [List.map_set]

theorem rems_set_same (procs : List Process) (i : Nat) (p : Process)
    (h : p.remaining_time = (getP procs i).remaining_time) :
    rems (procs.set i p) = rems procs := by
  rw [rems_set]
  by_cases hi : i < procs.length
  · rw [h, getP_eq_getElem _ _ hi]
    unfold rems
    apply List.ext_getElem
    · simp
    · intro n h1 h2
      rw [List.getElem_set]
      split_ifs with e
      · subst e; simp
      · rfl
  · exact List.set_eq_of_length_le (by unfold rems; simp; omega)

theorem rems_length (procs : List Process) : (rems procs).length = procs.length := by
  unfold rems
  simp

theorem rems_getElem (procs : List Process) (i : Nat) (h : i < (rems procs).length) :
    (rems procs)[i] = (getP procs i).remaining_time := by
  have h' : i < procs.length := by rw [rems_length] at h; exact h
  rw [getP_eq_getElem _ _ h']
  unfold rems
  simp

theorem sum_set_int (l : List Int) (i : Nat) (v : Int) (h : i < l.length) :
    (l.set i v).sum = l.sum - l[i] + v := by
  induction l generalizing i with
  | nil => simp at h
  | cons a tl ih =>
    cases i with
    | zero => simp; omega
    | succ j =>
      simp only [List.length_cons, Nat.add_lt_add_iff_right] at h
      simp only [List.set_cons_succ, List.sum_cons, List.getElem_cons_succ]
      rw [ih j h]
      omega

end PrioritySched

namespace PrioritySched

/-! ## The invariant of the engine: admission -/

theorem proc_ok_congr {pre : Bool} {t : Int} {a q r a' q' r' : Prop} {p0 p : Process}
    (h : proc_ok pre t a q r p0 p) (ha : a ↔ a') (hq : q ↔ q') (hr : r ↔ r') :
    proc_ok pre t a' q' r' p0 p := by
  have e1 := propext ha
  have e2 := propext hq
  have e3 := propext hr
  subst e1 e2 e3
  exact h

theorem admitted_succ_of_ne (a t : Int) (i k : Nat) (h : i ≠ k) :
    admitted a t i (k + 1) ↔ admitted a t i k := by
  unfold admitted
  constructor
  · rintro (h1 | ⟨h1, h2⟩)
    · exact Or.inl h1
    · exact Or.inr ⟨h1, by omega⟩
  · rintro (h1 | ⟨h1, h2⟩)
    · exact Or.inl h1
    · exact Or.inr ⟨h1, by omega⟩

theorem admitted_succ_of_arrival_ne (a t : Int) (i k : Nat) (h : a ≠ t) :
    admitted a t i (k + 1) ↔ admitted a t i k := by
  unfold admitted
  constructor
  · rintro (h1 | ⟨h1, -⟩)
    · exact Or.inl h1
    · exact absurd h1 h
  · rintro (h1 | ⟨h1, -⟩)
    · exact Or.inl h1
    · exact absurd h1 h

theorem admit_body_inv (ps0 : List Process) (hv : valid_table ps0) (k : Nat)
    (hk : k < ps0.length) (s : Scheduler) (h : sched_inv ps0 k s) :
    sched_inv ps0 (k + 1) (admit_body k s) := by
  unfold sched_inv at h
  unfold admit_body
  simp only []
  split_ifs with harr
  · have hpk := h.procs_ok k hk
    have hklen : k < s.procs.length := by rw [h.len]; exact hk
    have hnadm : ¬ admitted (getP s.procs k).arrival_time s.time k k := by
      unfold admitted
      omega
    have hnotq : k ∉ s.rq := fun hq => hnadm (hpk.when_queued hq).1
    have hns : (getP s.procs k).started = false := by
      cases hs : (getP s.procs k).started with
      | false => rfl
      | true => exact absurd (hpk.when_started hs).1 hnadm
    have hnotcur : ¬ s.current = (k : Int) := by
      intro hc
      have := (hpk.when_running hc).2.1
      rw [hns] at this
      cases this
    have hperm := rq_push_perm
      (s.procs.set k { getP s.procs k with
        effective_priority := (getP s.procs k).base_priority, last_ready_time := s.time })
      s.rq k
    have hburst := (hv k hk).1
    show core_inv ps0 s.preemptive (k + 1) s.time _ _ s.current
    refine ⟨?_, ?_, ?_, ?_, ?_⟩
    · rw [List.length_set]; exact h.len
    · rcases h.cur_ok with hc | ⟨hc0, hc1, hc2⟩
      · exact Or.inl hc
      · refine Or.inr ⟨hc0, hc1, ?_⟩
        intro hmem
        rw [hperm.mem_iff, List.mem_cons] at hmem
        rcases hmem with e | e
        · apply hnotcur
          rw [← e]
          exact (Int.toNat_of_nonneg hc0).symm
        · exact hc2 e
    · rw [hperm.nodup_iff, List.nodup_cons]
      exact ⟨hnotq, h.rq_nodup⟩
    · intro i hi
      rw [hperm.mem_iff, List.mem_cons] at hi
      rcases hi with e | e
      · rw [e]; exact hk
      · exact h.rq_lt i e
    · intro i hi
      by_cases hik : i = k
      · subst hik
        rw [getP_set_self _ _ _ hklen]
        have hq : i ∈ rq_push
            (s.procs.set i { getP s.procs i with
              effective_priority := (getP s.procs i).base_priority,
              last_ready_time := s.time }) s.rq i := by
          rw [hperm.mem_iff]; exact List.mem_cons_self _ _
        have hu := hpk.when_unstarted hns
        have hb := hpk.burst_eq
        refine ⟨hpk.arrival_eq, hpk.burst_eq, hpk.rem_nonneg, hpk.rem_le, hpk.when_unstarted,
          ?_, ?_, ?_, ?_, ?_⟩
        · intro hs
          simp only [] at hs
          rw [hns] at hs
          cases hs
        · intro _
          simp only []
          refine ⟨Or.inr ⟨harr, Nat.lt_succ_self i⟩, ?_, ?_, le_refl _, ?_, fun _ => hns⟩
          · omega
          · omega
          · omega
        · intro hc
          exact absurd hc hnotcur
        · intro hnq
          exact absurd hq hnq
        · intro h0
          simp only [] at h0
          omega
      · rw [getP_set_ne _ _ _ _ (fun e => hik e.symm)]
        refine proc_ok_congr (h.procs_ok i hi) (admitted_succ_of_ne _ _ _ _ hik).symm ?_ Iff.rfl
        rw [hperm.mem_iff, List.mem_cons]
        constructor
        · exact Or.inr
        · rintro (e | e)
          · exact absurd e hik
          · exact e
  · show core_inv ps0 s.preemptive (k + 1) s.time s.procs s.rq s.current
    refine ⟨h.len, h.cur_ok, h.rq_nodup, h.rq_lt, ?_⟩
    intro i hi
    by_cases hik : i = k
    · subst hik
      exact proc_ok_congr (h.procs_ok i hi)
        (admitted_succ_of_arrival_ne _ _ _ _ harr).symm Iff.rfl Iff.rfl
    · exact proc_ok_congr (h.procs_ok i hi) (admitted_succ_of_ne _ _ _ _ hik).symm
        Iff.rfl Iff.rfl

theorem admit_body_rems (k : Nat) (s : Scheduler) :
    rems (admit_body k s).procs = rems s.procs := by
  unfold admit_body
  simp only []
  split_ifs with harr
  · exact rems_set_same _ _ _ rfl
  · rfl

theorem admit_arrivals_rems (s : Scheduler) : rems (admit_arrivals s).procs = rems s.procs := by
  unfold admit_arrivals
  exact forLoop_induction (fun _ t => rems t.procs = rems s.procs) _ _ _ rfl
    (fun i _ t ht => (admit_body_rems i t).trans ht)

theorem admit_arrivals_inv (ps0 : List Process) (hv : valid_table ps0) (s : Scheduler)
    (hn : s.nprocs = (ps0.length : Int)) (h : sched_inv ps0 0 s) :
    sched_inv ps0 ps0.length (admit_arrivals s) := by
  unfold admit_arrivals
  rw [hn, Int.toNat_ofNat]
  exact forLoop_induction (fun i t => sched_inv ps0 i t) _ _ _ h
    (fun i hi t ht => admit_body_inv ps0 hv i hi t ht)

end PrioritySched

namespace PrioritySched

/-! ## The invariant of the engine: aging -/

theorem rems_eq_of_getP (l l' : List Process) (hlen : l'.length = l.length)
    (h : ∀ j, (getP l' j).remaining_time = (getP l j).remaining_time) : rems l' = rems l := by
  apply List.ext_getElem
  · rw [rems_length, rems_length, hlen]
  · intro n h1 h2
    rw [rems_getElem, rems_getElem]
    exact h n

/-- The loop of `maybe_age_waiting` writes no field but `effective_priority`. -/
theorem age_loop_spec (rq : List Nat) (inc : Int) (procs : List Process) (n : Nat) :
    (forLoop n (fun i procs =>
        let idx := rq.getD i 0
        let p := getP procs idx
        procs.set idx { p with effective_priority := p.effective_priority + inc })
      procs).length = procs.length ∧
    ∀ j, ∃ e, getP (forLoop n (fun i procs =>
        let idx := rq.getD i 0
        let p := getP procs idx
        procs.set idx { p with effective_priority := p.effective_priority + inc })
      procs) j = { getP procs j with effective_priority := e } := by
  refine forLoop_induction
    (fun _ t => t.length = procs.length ∧
      ∀ j, ∃ e, getP t j = { getP procs j with effective_priority := e }) _ _ _ ?_ ?_
  · exact ⟨rfl, fun j => ⟨(getP procs j).effective_priority, rfl⟩⟩
  · rintro i - t ⟨hl, ht⟩
    refine ⟨by simp only [List.length_set]; exact hl, ?_⟩
    intro j
    simp only []
    rw [getP_set]
    split_ifs with hc
    · obtain ⟨e, he⟩ := ht j
      rw [hc.1, he]
      exact ⟨_, rfl⟩
    · exact ht j

theorem proc_ok_eff {pre : Bool} {t : Int} {a q r : Prop} {p0 p : Process}
    (h : proc_ok pre t a q r p0 p) (e : Int) :
    proc_ok pre t a q r p0 { p with effective_priority := e } :=
  ⟨h.arrival_eq, h.burst_eq, h.rem_nonneg, h.rem_le, h.when_unstarted, h.when_started,
    h.when_queued, h.when_running, h.when_idle, h.when_done⟩

theorem maybe_age_waiting_inv (ps0 : List Process) (k : Nat) (s : Scheduler)
    (h : sched_inv ps0 k s) : sched_inv ps0 k (maybe_age_waiting s) := by
  unfold maybe_age_waiting
  split_ifs with h1 h2
  · exact h
  · unfold sched_inv at h ⊢
    simp only []
    obtain ⟨hl, hp⟩ := age_loop_spec s.rq s.aging_increment s.procs s.rq.length
    have hperm := rq_reheapify_perm
      (forLoop s.rq.length (fun i procs =>
        let idx := s.rq.getD i 0
        let p := getP procs idx
        procs.set idx { p with effective_priority := p.effective_priority + s.aging_increment })
      s.procs) s.rq
    refine ⟨hl.trans h.len, ?_, ?_, ?_, ?_⟩
    · rcases h.cur_ok with hc | ⟨hc0, hc1, hc2⟩
      · exact Or.inl hc
      · exact Or.inr ⟨hc0, hc1, fun hm => hc2 (hperm.mem_iff.mp hm)⟩
    · exact hperm.nodup_iff.mpr h.rq_nodup
    · intro i hi
      exact h.rq_lt i (hperm.mem_iff.mp hi)
    · intro i hi
      obtain ⟨e, he⟩ := hp i
      rw [he]
      exact proc_ok_congr (proc_ok_eff (h.procs_ok i hi) e) Iff.rfl hperm.mem_iff.symm Iff.rfl
  · exact h

theorem maybe_age_waiting_rems (s : Scheduler) :
    rems (maybe_age_waiting s).procs = rems s.procs := by
  unfold maybe_age_waiting
  split_ifs with h1 h2
  · rfl
  · simp only []
    obtain ⟨hl, hp⟩ := age_loop_spec s.rq s.aging_increment s.procs s.rq.length
    apply rems_eq_of_getP _ _ hl
    intro j
    obtain ⟨e, he⟩ := hp j
    rw [he]
  · rfl

end PrioritySched

namespace PrioritySched

/-! ## The invariant of the engine: dispatch -/

theorem rq_is_empty_iff (rq : ReadyQueue) : rq_is_empty rq = true ↔ rq = [] := by
  unfold rq_is_empty
  simp

theorem dispatch_top_current (s : Scheduler) (hne : s.rq ≠ []) :
    (dispatch_top s).current = ((s.rq.getD 0 0 : Nat) : Int) := by
  unfold dispatch_top
  simp only []
  exact (rq_pop_perm s.procs s.rq hne).1

theorem dispatch_top_inv (ps0 : List Process) (k : Nat) (s : Scheduler)
    (h : core_inv ps0 s.preemptive k s.time s.procs s.rq (-1)) (hne : s.rq ≠ []) :
    sched_inv ps0 k (dispatch_top s) := by
  obtain ⟨h1, h2⟩ := rq_pop_perm s.procs s.rq hne
  have hmem : s.rq.getD 0 0 ∈ s.rq := (List.cons_perm_iff_perm_erase.mp h2).1
  have hnd : (s.rq.getD 0 0 :: (rq_pop s.procs s.rq).2).Nodup := h2.nodup_iff.mpr h.rq_nodup
  have hlt : s.rq.getD 0 0 < ps0.length := h.rq_lt _ hmem
  have hlen : s.rq.getD 0 0 < s.procs.length := by rw [h.len]; exact hlt
  have hpt := h.procs_ok _ hlt
  have hq := hpt.when_queued hmem
  unfold sched_inv dispatch_top
  simp only [h1, Int.toNat_ofNat]
  generalize s.rq.getD 0 0 = top at *
  generalize (rq_pop s.procs s.rq).2 = rest at *
  rw [List.nodup_cons] at hnd
  refine ⟨by rw [List.length_set]; exact h.len, Or.inr ⟨Int.ofNat_nonneg _, by simpa using hlt,
    by simpa using hnd.1⟩, hnd.2, ?_, ?_⟩
  · intro i hi
    exact h.rq_lt i (h2.mem_iff.mp (List.mem_cons_of_mem _ hi))
  · intro i hi
    by_cases hit : i = top
    · subst hit
      rw [getP_set_self _ _ _ hlen]
      cases hs : (getP s.procs i).started with
      | false =>
        have hu := hpt.when_unstarted hs
        have hadm := hq.1
        simp only [hs, Bool.not_false, if_true]
        refine ⟨hpt.arrival_eq, hpt.burst_eq, hpt.rem_nonneg, hpt.rem_le, ?_, ?_, ?_, ?_, ?_, ?_⟩
        · intro hc
          cases hc
        · intro _
          refine ⟨hadm, ?_, ?_⟩
          · unfold admitted at hadm
            simp only []
            omega
          · simp only []
            omega
        · intro hin
          exact absurd hin hnd.1
        · intro _
          refine ⟨hq.2.1, rfl, ?_, ?_⟩
          · simp only []
            omega
          · intro _
            simp only []
            omega
        · intro _ hnr
          exact (hnr (by first | rfl | trivial)).elim
        · intro h0
          simp only [] at h0
          omega
      | true =>
        have hst := hpt.when_started hs
        simp only [hs, Bool.not_true, Bool.false_eq_true, if_false]
        refine ⟨hpt.arrival_eq, hpt.burst_eq, hpt.rem_nonneg, hpt.rem_le, ?_, ?_, ?_, ?_, ?_, ?_⟩
        · intro hc
          simp at hc
        · intro _
          exact hst
        · intro hin
          exact absurd hin hnd.1
        · intro _
          refine ⟨hq.2.1, rfl, ?_, ?_⟩
          · simp only []
            omega
          · intro hpre
            have := hq.2.2.2.2.2 hpre
            rw [hs] at this
            cases this
        · intro _ hnr
          exact (hnr (by first | rfl | trivial)).elim
        · intro h0
          simp only [] at h0
          omega
    · rw [getP_set_ne _ _ _ _ (fun e => hit e.symm)]
      refine proc_ok_congr (h.procs_ok i hi) Iff.rfl ?_ ?_
      · rw [← h2.mem_iff, List.mem_cons]
        constructor
        · rintro (e | e)
          · exact absurd e hit
          · exact e
        · exact Or.inr
      · constructor
        · intro e
          omega
        · intro e
          exact absurd (Int.ofNat_inj.mp e).symm hit

theorem dispatch_if_needed_inv (ps0 : List Process) (k : Nat) (s : Scheduler)
    (h : sched_inv ps0 k s) : sched_inv ps0 k (dispatch_if_needed s) := by
  unfold dispatch_if_needed
  simp only []
  split_ifs with h1 h2 h3 h4 h5
  · apply dispatch_top_inv
    · unfold sched_inv at h
      rw [h1] at h
      exact h
    · intro he
      rw [(rq_is_empty_iff s.rq).mpr he] at h2
      simp at h2
  · exact h
  · exact h
  · unfold sched_inv at h
    rcases h.cur_ok with hc | ⟨hc0, hc1, hc2⟩
    · exact absurd hc h1
    · have hcur : s.current = ((s.current.toNat : Nat) : Int) := (Int.toNat_of_nonneg hc0).symm
      generalize s.current.toNat = c at *
      have hpc := h.procs_ok c hc1
      have hrun := hpc.when_running hcur
      have hst := hpc.when_started hrun.2.1
      have hpre : s.preemptive = true := by
        cases hp : s.preemptive with
        | false => rw [hp] at h3; simp at h3
        | true => rfl
      have hclen : c < s.procs.length := by rw [h.len]; exact hc1
      have hperm := rq_push_perm
        (s.procs.set c { getP s.procs c with last_ready_time := s.time }) s.rq c
      apply dispatch_top_inv
      · simp only []
        refine ⟨by rw [List.length_set]; exact h.len, Or.inl rfl, ?_, ?_, ?_⟩
        · rw [hperm.nodup_iff, List.nodup_cons]
          exact ⟨hc2, h.rq_nodup⟩
        · intro i hi
          rw [hperm.mem_iff, List.mem_cons] at hi
          rcases hi with e | e
          · rw [e]; exact hc1
          · exact h.rq_lt i e
        · intro i hi
          by_cases hic : i = c
          · subst hic
            rw [getP_set_self _ _ _ hclen]
            refine ⟨hpc.arrival_eq, hpc.burst_eq, hpc.rem_nonneg, hpc.rem_le, hpc.when_unstarted,
              hpc.when_started, ?_, ?_, ?_, ?_⟩
            · intro _
              have hadm := hst.1
              refine ⟨hadm, hrun.1, ?_, le_refl _, ?_, ?_⟩
              · unfold admitted at hadm
                simp only []
                omega
              · simp only []
                omega
              · intro hp
                rw [hpre] at hp
                cases hp
            · intro e
              omega
            · intro hnq
              exfalso
              apply hnq
              rw [hperm.mem_iff]
              exact List.mem_cons_self _ _
            · intro h0
              simp only [] at h0
              omega
          · rw [getP_set_ne _ _ _ _ (fun e => hic e.symm)]
            refine proc_ok_congr (h.procs_ok i hi) Iff.rfl ?_ ?_
            · rw [hperm.mem_iff, List.mem_cons]
              constructor
              · exact Or.inr
              · rintro (e | e)
                · exact absurd e hic
                · exact e
            · constructor
              · intro e
                rw [hcur] at e
                exact absurd (Int.ofNat_inj.mp e).symm hic
              · intro e
                omega
      · simp only []
        intro he
        have := hperm.length_eq
        rw [he] at this
        simp at this
  · exact h
  · exact h

theorem dispatch_top_rems (s : Scheduler) : rems (dispatch_top s).procs = rems s.procs := by
  unfold dispatch_top
  simp only []
  apply rems_set_same
  split_ifs <;> rfl

theorem dispatch_if_needed_rems (s : Scheduler) :
    rems (dispatch_if_needed s).procs = rems s.procs := by
  unfold dispatch_if_needed
  simp only []
  split_ifs
  · exact dispatch_top_rems s
  · rfl
  · rfl
  · rw [dispatch_top_rems]
    exact rems_set_same _ _ _ rfl
  · rfl
  · rfl

/-- After the dispatch phase the CPU is idle only if the ready queue is empty. -/
theorem dispatch_if_needed_idle (s : Scheduler) (h : (dispatch_if_needed s).current = -1) :
    (dispatch_if_needed s).rq = [] := by
  unfold dispatch_if_needed at h ⊢
  simp only [] at h ⊢
  split_ifs at h ⊢ with h1 h2 h3 h4 h5
  · have hne : s.rq ≠ [] := by
      intro he
      rw [(rq_is_empty_iff s.rq).mpr he] at h2
      simp at h2
    rw [dispatch_top_current s hne] at h
    omega
  · by_contra hne
    rw [← rq_is_empty_iff] at hne
    simp [hne] at h2
  · exact absurd h h1
  · have hperm := rq_push_perm
      (s.procs.set s.current.toNat { getP s.procs s.current.toNat with
        last_ready_time := s.time }) s.rq s.current.toNat
    rw [dispatch_top_current] at h
    · omega
    · simp only []
      intro he
      have := hperm.length_eq
      rw [he] at this
      simp at this
  · exact absurd h h1
  · exact absurd h h1

end PrioritySched

namespace PrioritySched

/-! ## The invariant of the engine: execution of the tick -/

theorem proc_ok_tick {pre : Bool} {t : Int} {a a' q r r' : Prop} {p0 p : Process}
    (h : proc_ok pre t a q r p0 p) (hr : ¬ r) (hr' : ¬ r') (ha : a ↔ a') :
    proc_ok pre (t + 1) a' q r' p0 p := by
  refine ⟨h.arrival_eq, h.burst_eq, h.rem_nonneg, h.rem_le, h.when_unstarted, ?_, ?_, ?_, ?_, ?_⟩
  · intro hs
    obtain ⟨h1, h2, h3⟩ := h.when_started hs
    exact ⟨ha.mp h1, h2, by omega⟩
  · intro hq
    obtain ⟨h1, h2, h3, h4, h5, h6⟩ := h.when_queued hq
    exact ⟨ha.mp h1, h2, h3, by omega, h5, h6⟩
  · intro hrr
    exact absurd hrr hr'
  · intro hnq _ hadm
    exact h.when_idle hnq hr (ha.mpr hadm)
  · intro h0
    obtain ⟨h1, h2, h3, h4, h5⟩ := h.when_done h0
    exact ⟨h1, h2, by omega, h4, h5⟩

theorem admitted_next (a t : Int) (i n : Nat) (hi : i < n) :
    admitted a t i n ↔ admitted a (t + 1) i 0 := by
  unfold admitted
  constructor
  · rintro (h | ⟨h, -⟩)
    · exact Or.inl (by omega)
    · exact Or.inl (by omega)
  · rintro (h | ⟨-, h⟩)
    · by_cases e : a = t
      · exact Or.inr ⟨e, hi⟩
      · exact Or.inl (by omega)
    · omega

theorem execute_tick_inv (ps0 : List Process) (s : Scheduler)
    (h : sched_inv ps0 ps0.length s) : sched_inv ps0 0 (execute_tick s) := by
  unfold sched_inv at h ⊢
  unfold execute_tick
  simp only []
  split_ifs with h1 h2
  · rcases h.cur_ok with hc | ⟨hc0, hc1, hc2⟩
    · exact absurd hc h1
    · have hcur : s.current = ((s.current.toNat : Nat) : Int) := (Int.toNat_of_nonneg hc0).symm
      generalize s.current.toNat = c at *
      have hpc := h.procs_ok c hc1
      have hrun := hpc.when_running hcur
      have hst := hpc.when_started hrun.2.1
      have hclen : c < s.procs.length := by rw [h.len]; exact hc1
      simp only [] at h2 ⊢
      refine ⟨by rw [List.length_set]; exact h.len, Or.inl rfl, h.rq_nodup, h.rq_lt, ?_⟩
      intro i hi
      by_cases hic : i = c
      · subst hic
        rw [getP_set_self _ _ _ hclen]
        refine ⟨hpc.arrival_eq, hpc.burst_eq, ?_, ?_, ?_, ?_, ?_, ?_, ?_, ?_⟩
        · simp only []
          omega
        · simp only []
          have := hpc.rem_le
          omega
        · intro hs
          simp only [] at hs
          rw [hrun.2.1] at hs
          cases hs
        · intro _
          simp only []
          exact ⟨(admitted_next _ _ _ _ hi).mp hst.1, hst.2.1, by omega⟩
        · intro hq
          exact absurd hq hc2
        · intro e
          omega
        · intro _ _ _
          exact h2
        · intro _
          simp only []
          refine ⟨hrun.2.1, by omega, le_refl _, by omega, ?_⟩
          intro hp
          have := hrun.2.2.2 hp
          omega
      · rw [getP_set_ne _ _ _ _ (fun e => hic e.symm)]
        refine proc_ok_tick (h.procs_ok i hi) ?_ ?_ (admitted_next _ _ _ _ hi)
        · intro e
          rw [hcur] at e
          exact hic (Int.ofNat_inj.mp e).symm
        · intro e
          omega
  · rcases h.cur_ok with hc | ⟨hc0, hc1, hc2⟩
    · exact absurd hc h1
    · have hcur : s.current = ((s.current.toNat : Nat) : Int) := (Int.toNat_of_nonneg hc0).symm
      have hcop := h.cur_ok
      generalize s.current.toNat = c at *
      have hpc := h.procs_ok c hc1
      have hrun := hpc.when_running hcur
      have hst := hpc.when_started hrun.2.1
      have hclen : c < s.procs.length := by rw [h.len]; exact hc1
      simp only [] at h2 ⊢
      refine ⟨by rw [List.length_set]; exact h.len, ?_, h.rq_nodup, h.rq_lt, ?_⟩
      · rw [hcur]
        exact Or.inr ⟨Int.ofNat_nonneg _, by simpa using hc1, by simpa using hc2⟩
      intro i hi
      by_cases hic : i = c
      · subst hic
        rw [getP_set_self _ _ _ hclen]
        refine ⟨hpc.arrival_eq, hpc.burst_eq, ?_, ?_, ?_, ?_, ?_, ?_, ?_, ?_⟩
        · simp only []
          omega
        · simp only []
          have := hpc.rem_le
          omega
        · intro hs
          simp only [] at hs
          rw [hrun.2.1] at hs
          cases hs
        · intro _
          simp only []
          exact ⟨(admitted_next _ _ _ _ hi).mp hst.1, hst.2.1, by omega⟩
        · intro hq
          exact absurd hq hc2
        · intro _
          simp only []
          refine ⟨by omega, hrun.2.1, by omega, ?_⟩
          intro hp
          have := hrun.2.2.2 hp
          omega
        · intro _ hnr
          exact absurd hcur hnr
        · intro h0
          simp only [] at h0
          omega
      · rw [getP_set_ne _ _ _ _ (fun e => hic e.symm)]
        refine proc_ok_tick (h.procs_ok i hi) ?_ ?_ (admitted_next _ _ _ _ hi)
        · intro e
          rw [hcur] at e
          exact hic (Int.ofNat_inj.mp e).symm
        · intro e
          rw [hcur] at e
          exact hic (Int.ofNat_inj.mp e).symm
  · have hc : s.current = -1 := not_not.mp h1
    refine ⟨h.len, h.cur_ok, h.rq_nodup, h.rq_lt, ?_⟩
    intro i hi
    refine proc_ok_tick (h.procs_ok i hi) ?_ ?_ (admitted_next _ _ _ _ hi)
    · intro e
      omega
    · intro e
      omega

end PrioritySched

namespace PrioritySched

/-! ## The counters -/

theorem max_arrival_nonneg (ps : List Process) : 0 ≤ max_arrival ps := by
  unfold max_arrival
  induction ps with
  | nil => simp
  | cons a tl ih =>
    simp only [List.foldr_cons]
    exact le_max_of_le_right ih

theorem arrival_le_max_arrival (ps : List Process) (i : Nat) (hi : i < ps.length) :
    (getP ps i).arrival_time ≤ max_arrival ps := by
  unfold max_arrival
  induction ps generalizing i with
  | nil => simp at hi
  | cons a tl ih =>
    simp only [List.foldr_cons]
    cases i with
    | zero => exact le_max_left _ _
    | succ j =>
      have hj : j < tl.length := by simpa using hi
      have e : getP (a :: tl) (j + 1) = getP tl j := by simp [getP]
      rw [e]
      exact le_max_of_le_right (ih j hj)

theorem count_inv_of_frame (ps0 : List Process) (s t : Scheduler) (h : count_inv ps0 s)
    (hf : frame t = frame s) (hr : rems t.procs = rems s.procs) : count_inv ps0 t := by
  unfold frame at hf
  simp only [Prod.mk.injEq] at hf
  obtain ⟨f1, -, -, -, -, f6, f7⟩ := hf
  refine ⟨?_, ?_, ?_, ?_⟩
  · rw [f1]; exact h.nprocs_eq
  · rw [f7, hr]; exact h.completed_eq
  · rw [hr]; exact h.sum_le
  · rw [f6, hr]; exact h.bound

theorem schedule_tick_rems (s : Scheduler) : rems (schedule_tick s).procs = rems s.procs := by
  unfold schedule_tick
  rw [dispatch_if_needed_rems, maybe_age_waiting_rems, admit_arrivals_rems]

theorem frame_nprocs {s t : Scheduler} (h : frame s = frame t) : s.nprocs = t.nprocs := by
  unfold frame at h
  simp only [Prod.mk.injEq] at h
  exact h.1

theorem frame_completed {s t : Scheduler} (h : frame s = frame t) :
    s.completed = t.completed := by
  unfold frame at h
  simp only [Prod.mk.injEq] at h
  exact h.2.2.2.2.2.2

theorem frame_preemptive {s t : Scheduler} (h : frame s = frame t) :
    s.preemptive = t.preemptive := by
  unfold frame at h
  simp only [Prod.mk.injEq] at h
  exact h.2.1

theorem schedule_tick_inv (ps0 : List Process) (hv : valid_table ps0) (s : Scheduler)
    (hn : s.nprocs = (ps0.length : Int)) (h : sched_inv ps0 0 s) :
    sched_inv ps0 ps0.length (schedule_tick s) := by
  unfold schedule_tick
  exact dispatch_if_needed_inv _ _ _
    (maybe_age_waiting_inv _ _ _ (admit_arrivals_inv ps0 hv s hn h))

theorem schedule_tick_idle (s : Scheduler) (h : (schedule_tick s).current = -1) :
    (schedule_tick s).rq = [] :=
  dispatch_if_needed_idle _ h

/-- While the loop runs, some process still has work to do. -/
theorem exists_rem_ne_zero (ps0 : List Process) (s : Scheduler) (hl : s.procs.length = ps0.length)
    (hc : count_inv ps0 s) (hlt : s.completed < s.nprocs) :
    ∃ j < ps0.length, (getP s.procs j).remaining_time ≠ 0 := by
  by_contra hcon
  push_neg at hcon
  have hall : ∀ a ∈ rems s.procs, decide (a = 0) = true := by
    intro a ha
    obtain ⟨j, hj, e⟩ := List.getElem_of_mem ha
    rw [rems_getElem] at e
    rw [rems_length, hl] at hj
    rw [← e, hcon j hj]
    rfl
  have := List.countP_eq_length.mpr hall
  have h1 := hc.completed_eq
  have h2 := hc.nprocs_eq
  rw [this, rems_length, hl] at h1
  omega

theorem rems_nonneg (ps0 : List Process) (k : Nat) (s : Scheduler) (h : sched_inv ps0 k s) :
    ∀ a ∈ rems s.procs, 0 ≤ a := by
  intro a ha
  obtain ⟨j, hj, e⟩ := List.getElem_of_mem ha
  rw [rems_getElem] at e
  rw [rems_length, h.len] at hj
  rw [← e]
  exact (h.procs_ok j hj).rem_nonneg

theorem execute_tick_count (ps0 : List Process) (s : Scheduler)
    (h : sched_inv ps0 ps0.length s) (hc : count_inv ps0 s)
    (hidle : s.current = -1 → s.rq = []) (hlt : s.completed < s.nprocs) :
    count_inv ps0 (execute_tick s) := by
  unfold sched_inv at h
  unfold execute_tick
  simp only []
  split_ifs with h1 h2
  · rcases h.cur_ok with hcu | ⟨hc0, hc1, hc2⟩
    · exact absurd hcu h1
    · have hcur : s.current = ((s.current.toNat : Nat) : Int) := (Int.toNat_of_nonneg hc0).symm
      generalize s.current.toNat = c at *
      have hrun := (h.procs_ok c hc1).when_running hcur
      have hclen : c < (rems s.procs).length := by rw [rems_length, h.len]; exact hc1
      have hget := rems_getElem s.procs c hclen
      refine ⟨hc.nprocs_eq, ?_, ?_, ?_⟩
      · simp only [rems_set]
        rw [List.countP_set _ _ _ _ hclen, hget]
        have e1 : decide ((getP s.procs c).remaining_time = 0) = false := by
          simp only [decide_eq_false_iff_not]
          omega
        have e2 : decide ((getP s.procs c).remaining_time - 1 = 0) = true := by
          simp only [decide_eq_true_eq]
          exact h2
        simp only [e1, e2, if_true]
        have := hc.completed_eq
        simp
        omega
      · simp only [rems_set]
        rw [sum_set_int _ _ _ hclen, hget]
        have := hc.sum_le
        omega
      · simp only [rems_set]
        rw [sum_set_int _ _ _ hclen, hget]
        have := hc.bound
        omega
  · rcases h.cur_ok with hcu | ⟨hc0, hc1, hc2⟩
    · exact absurd hcu h1
    · have hcur : s.current = ((s.current.toNat : Nat) : Int) := (Int.toNat_of_nonneg hc0).symm
      generalize s.current.toNat = c at *
      have hrun := (h.procs_ok c hc1).when_running hcur
      have hclen : c < (rems s.procs).length := by rw [rems_length, h.len]; exact hc1
      have hget := rems_getElem s.procs c hclen
      refine ⟨hc.nprocs_eq, ?_, ?_, ?_⟩
      · simp only [rems_set]
        rw [List.countP_set _ _ _ _ hclen, hget]
        have e1 : decide ((getP s.procs c).remaining_time = 0) = false := by
          simp only [decide_eq_false_iff_not]
          omega
        have e2 : decide ((getP s.procs c).remaining_time - 1 = 0) = false := by
          simp only [decide_eq_false_iff_not]
          exact h2
        simp only [e1, e2]
        have := hc.completed_eq
        simp
        omega
      · simp only [rems_set]
        rw [sum_set_int _ _ _ hclen, hget]
        have := hc.sum_le
        omega
      · simp only [rems_set]
        rw [sum_set_int _ _ _ hclen, hget]
        have := hc.bound
        omega
  · have hcu : s.current = -1 := not_not.mp h1
    obtain ⟨j, hj, hne⟩ := exists_rem_ne_zero ps0 s h.len hc hlt
    have hpj := h.procs_ok j hj
    have hrq := hidle hcu
    have hnadm : ¬ admitted (getP s.procs j).arrival_time s.time j ps0.length := by
      intro hadm
      apply hne
      refine hpj.when_idle ?_ ?_ hadm
      · rw [hrq]; simp
      · rw [hcu]; omega
    have harr := arrival_le_max_arrival ps0 j hj
    rw [← hpj.arrival_eq] at harr
    have hgt : s.time < (getP s.procs j).arrival_time := by
      unfold admitted at hnadm
      push_neg at hnadm
      by_contra hle
      have e : (getP s.procs j).arrival_time = s.time := by omega
      exact absurd hj (not_lt.mpr (hnadm.2 e))
    refine ⟨hc.nprocs_eq, hc.completed_eq, hc.sum_le, ?_⟩
    have := hc.sum_le
    simp only []
    omega

theorem tick_inv (ps0 : List Process) (hv : valid_table ps0) (s : Scheduler)
    (h : sched_inv ps0 0 s) (hc : count_inv ps0 s) (hlt : s.completed < s.nprocs) :
    sched_inv ps0 0 (tick s) ∧ count_inv ps0 (tick s) := by
  have hf := schedule_tick_frame s
  have h1 := schedule_tick_inv ps0 hv s hc.nprocs_eq h
  have hc1 := count_inv_of_frame ps0 s (schedule_tick s) hc hf (schedule_tick_rems s)
  unfold tick
  refine ⟨execute_tick_inv ps0 _ h1, execute_tick_count ps0 _ h1 hc1 (schedule_tick_idle s) ?_⟩
  rw [frame_completed hf, frame_nprocs hf]
  exact hlt

end PrioritySched

namespace PrioritySched

/-! ## Initialisation and the whole run -/

theorem init_loop_spec (ps : List Process) (n : Nat) :
    (forLoop n (fun i ps => ps.set i (init_proc (getP ps i))) ps).length = ps.length ∧
    ∀ j, getP (forLoop n (fun i ps => ps.set i (init_proc (getP ps i))) ps) j =
      if j < n ∧ j < ps.length then init_proc (getP ps j) else getP ps j := by
  refine forLoop_induction
    (fun i t => t.length = ps.length ∧
      ∀ j, getP t j = if j < i ∧ j < ps.length then init_proc (getP ps j) else getP ps j)
    _ _ _ ?_ ?_
  · refine ⟨rfl, fun j => ?_⟩
    simp
  · rintro i - t ⟨hl, ht⟩
    refine ⟨by simp only [List.length_set]; exact hl, ?_⟩
    intro j
    rw [getP_set, hl]
    by_cases hij : i = j
    · subst hij
      by_cases hi : i < ps.length
      · have e := ht i
        simp only [lt_irrefl, false_and, if_false] at e
        rw [e]
        simp [hi]
      · rw [ht i]
        simp [hi]
    · rw [ht j]
      have e : (j < i + 1) ↔ (j < i) := by omega
      simp only [hij, false_and, if_false, e]

theorem init_procs_getP (ps : List Process) (pre ag : Bool) (iv inc : Int) (j : Nat)
    (hj : j < ps.length) :
    getP (scheduler_init ps ps.length pre ag iv inc).procs j = init_proc (getP ps j) := by
  unfold scheduler_init
  simp only [Int.toNat_ofNat]
  rw [(init_loop_spec ps ps.length).2 j]
  simp [hj]

theorem init_procs_length (ps : List Process) (pre ag : Bool) (iv inc : Int) :
    (scheduler_init ps ps.length pre ag iv inc).procs.length = ps.length := by
  unfold scheduler_init
  simp only [Int.toNat_ofNat]
  exact (init_loop_spec ps ps.length).1

theorem init_sched_inv (ps : List Process) (hv : valid_table ps) (pre ag : Bool) (iv inc : Int) :
    sched_inv ps 0 (scheduler_init ps ps.length pre ag iv inc) := by
  unfold sched_inv
  refine ⟨init_procs_length ps pre ag iv inc, Or.inl rfl, List.nodup_nil, ?_, ?_⟩
  · intro i hi
    exact absurd hi (List.not_mem_nil i)
  · intro i hi
    rw [init_procs_getP ps pre ag iv inc i hi]
    obtain ⟨hb, ha⟩ := hv i hi
    have hnadm : ¬ admitted (init_proc (getP ps i)).arrival_time
        (scheduler_init ps ps.length pre ag iv inc).time i 0 := by
      unfold admitted
      show ¬ ((getP ps i).arrival_time < 0 ∨ ((getP ps i).arrival_time = 0 ∧ i < 0))
      omega
    refine ⟨rfl, rfl, ?_, ?_, ?_, ?_, ?_, ?_, ?_, ?_⟩
    · show 0 ≤ (getP ps i).burst_time
      omega
    · exact le_refl _
    · intro _
      exact ⟨rfl, rfl⟩
    · intro hs
      cases hs
    · intro hq
      exact absurd hq (List.not_mem_nil i)
    · intro e
      have e' : (-1 : Int) = (i : Int) := e
      omega
    · intro _ _ hadm
      exact absurd hadm hnadm
    · intro h0
      have h0' : (getP ps i).burst_time = 0 := h0
      omega

theorem init_rems (ps : List Process) (pre ag : Bool) (iv inc : Int) :
    rems (scheduler_init ps ps.length pre ag iv inc).procs = ps.map fun p => p.burst_time := by
  apply List.ext_getElem
  · rw [rems_length, init_procs_length]
    simp
  · intro n h1 h2
    have hn : n < ps.length := by simpa using h2
    rw [rems_getElem, init_procs_getP ps pre ag iv inc n hn, getP_eq_getElem _ _ hn]
    simp [init_proc]

theorem init_count_inv (ps : List Process) (hv : valid_table ps) (pre ag : Bool) (iv inc : Int) :
    count_inv ps (scheduler_init ps ps.length pre ag iv inc) := by
  have hr := init_rems ps pre ag iv inc
  refine ⟨rfl, ?_, ?_, ?_⟩
  · have hz : (rems (scheduler_init ps ps.length pre ag iv inc).procs).countP
        (fun r => decide (r = 0)) = 0 := by
      rw [List.countP_eq_zero]
      intro a ha
      obtain ⟨j, hj, e⟩ := List.getElem_of_mem ha
      rw [rems_getElem] at e
      rw [rems_length, init_procs_length] at hj
      rw [init_procs_getP ps pre ag iv inc j hj] at e
      have hb := (hv j hj).1
      have e' : (getP ps j).burst_time = a := e
      simp only [decide_eq_true_eq]
      omega
    rw [hz]
    rfl
  · rw [hr]
    exact le_refl _
  · rw [hr]
    have := max_arrival_nonneg ps
    show (0 : Int) + _ ≤ _
    unfold total_burst
    omega

theorem tick_preemptive (s : Scheduler) : (tick s).preemptive = s.preemptive := by
  have h := frame_preemptive (schedule_tick_frame s)
  unfold tick execute_tick
  simp only []
  split_ifs <;> exact h

theorem run_loop_terminates (ps0 : List Process) (hv : valid_table ps0) (m : Nat) :
    ∀ s : Scheduler, sched_inv ps0 0 s → count_inv ps0 s →
      (max_arrival ps0 + total_burst ps0 - s.time).toNat ≤ m →
      ∃ r, run_loop m s = some r ∧ sched_inv ps0 0 r ∧ count_inv ps0 r ∧
        ¬ r.completed < r.nprocs ∧ r.preemptive = s.preemptive := by
  induction m with
  | zero =>
    intro s h hc hm
    by_cases hlt : s.completed < s.nprocs
    · exfalso
      obtain ⟨j, hj, hne⟩ := exists_rem_ne_zero ps0 s h.len hc hlt
      have hjl : j < (rems s.procs).length := by rw [rems_length, h.len]; exact hj
      have hmem : (rems s.procs)[j] ∈ rems s.procs := List.getElem_mem hjl
      have hle := List.single_le_sum (rems_nonneg ps0 0 s h) _ hmem
      rw [rems_getElem] at hle
      have hnn := (h.procs_ok j hj).rem_nonneg
      have hb := hc.bound
      omega
    · exact ⟨s, by simp [run_loop, hlt], h, hc, hlt, rfl⟩
  | succ n ih =>
    intro s h hc hm
    by_cases hlt : s.completed < s.nprocs
    · obtain ⟨h', hc'⟩ := tick_inv ps0 hv s h hc hlt
      have ht := tick_time s
      obtain ⟨r, hr, h1, h2, h3, h4⟩ := ih (tick s) h' hc' (by rw [ht]; omega)
      refine ⟨r, ?_, h1, h2, h3, h4.trans (tick_preemptive s)⟩
      rw [run_loop]
      simp [hlt, hr]
    · exact ⟨s, by simp [run_loop, hlt], h, hc, hlt, rfl⟩

theorem final_ok_of_inv (ps : List Process) (hv : valid_table ps) (r : Scheduler)
    (h : sched_inv ps 0 r) (hc : count_inv ps r) (hdone : ¬ r.completed < r.nprocs) :
    final_ok ps r.preemptive r := by
  have hcount : (rems r.procs).countP (fun x => decide (x = 0)) = (rems r.procs).length := by
    have h1 := hc.completed_eq
    have h2 := hc.nprocs_eq
    have h3 := List.countP_le_length (fun x : Int => decide (x = 0)) (l := rems r.procs)
    have h4 : (rems r.procs).length = ps.length := by rw [rems_length, h.len]
    omega
  have hall := List.countP_eq_length.mp hcount
  have hzero : ∀ i < ps.length, (getP r.procs i).remaining_time = 0 := by
    intro i hi
    have hil : i < (rems r.procs).length := by rw [rems_length, h.len]; exact hi
    have := hall _ (List.getElem_mem hil)
    rw [rems_getElem] at this
    simpa using this
  refine ⟨?_, ?_, ?_⟩
  · have h1 := hc.completed_eq
    have h2 := hc.nprocs_eq
    have h4 : (rems r.procs).length = ps.length := by rw [rems_length, h.len]
    omega
  · have := List.sum_nonneg (rems_nonneg ps 0 r h)
    have := hc.bound
    omega
  · intro i hi
    have hp := h.procs_ok i hi
    have h0 := hzero i hi
    obtain ⟨d1, d2, d3, d4, d5⟩ := hp.when_done h0
    obtain ⟨s1, s2, s3⟩ := hp.when_started d1
    have hb := (hv i hi).1
    have e1 := hp.arrival_eq
    have e2 := hp.burst_eq
    refine ⟨e1, e2, h0, d2, s2, ?_, ?_, d5⟩
    · omega
    · omega

theorem run_loop_final (ps : List Process) (hv : valid_table ps) (pre ag : Bool) (iv inc : Int) :
    ∃ fuel r, run_loop fuel (scheduler_init ps ps.length pre ag iv inc) = some r ∧
      final_ok ps pre r := by
  obtain ⟨r, hr, h1, h2, h3, h4⟩ := run_loop_terminates ps hv _ _
    (init_sched_inv ps hv pre ag iv inc) (init_count_inv ps hv pre ag iv inc) (le_refl _)
  refine ⟨_, r, hr, ?_⟩
  have := final_ok_of_inv ps hv r h1 h2 h3
  rw [h4] at this
  exact this

theorem scheduler_run_eq (fuel : Nat) (s f : Scheduler) (h : scheduler_run fuel s = some f) :
    ∃ r, run_loop fuel s = some r ∧ f.procs = r.procs ∧ f.time = r.time ∧
      f.completed = r.completed ∧ f.nprocs = r.nprocs := by
  unfold scheduler_run at h
  cases e : run_loop fuel s with
  | none => rw [e] at h; cases h
  | some r =>
    rw [e] at h
    simp only [Option.map_some', Option.some.injEq] at h
    subst h
    exact ⟨r, rfl, rfl, rfl, rfl, rfl⟩

/-- On a valid table the run finishes, and every finished run ends in a state with the
facts `final_ok`. -/
theorem scheduler_run_final (ps : List Process) (hv : valid_table ps) (pre ag : Bool)
    (iv inc : Int) :
    (∃ fuel, (scheduler_run fuel (scheduler_init ps ps.length pre ag iv inc)).isSome = true) ∧
    ∀ fuel f, scheduler_run fuel (scheduler_init ps ps.length pre ag iv inc) = some f →
      final_ok ps pre f := by
  obtain ⟨fuel0, r0, hr0, hok⟩ := run_loop_final ps hv pre ag iv inc
  constructor
  · refine ⟨fuel0, ?_⟩
    unfold scheduler_run
    rw [hr0]
    rfl
  · intro fuel f hf
    obtain ⟨r, hr, e1, e2, e3, e4⟩ := scheduler_run_eq fuel _ f hf
    have := run_loop_det _ _ _ _ _ hr hr0
    subst this
    unfold final_ok at hok ⊢
    rw [e1, e2, e3, e4]
    exact hok

end PrioritySched

namespace PrioritySched

/-! ## The properties of the run -/

theorem sample_valid : valid_table sample := by
  unfold valid_table
  decide

/-- C1. On every table with positive bursts and non-negative arrivals (distinct pids are not
needed), in every configuration, `scheduler_run` finishes, and when it has finished every
process satisfies `waiting_time_accum = finish_time - arrival_time - burst_time`, that is
waiting = turnaround - burst, with the arrival and the burst of its input row. -/
theorem waiting_accounting (procs : List Process) (hv : valid_table procs)
    (preemptive aging_enabled : Bool) (aging_interval aging_increment : Int) :
    (∃ fuel, (scheduler_run fuel (scheduler_init procs procs.length preemptive aging_enabled
      aging_interval aging_increment)).isSome = true) ∧
    ∀ fuel final, scheduler_run fuel (scheduler_init procs procs.length preemptive aging_enabled
        aging_interval aging_increment) = some final →
      ∀ i < procs.length,
        (getP final.procs i).arrival_time = (getP procs i).arrival_time ∧
        (getP final.procs i).burst_time = (getP procs i).burst_time ∧
        (getP final.procs i).waiting_time_accum =
          (getP final.procs i).finish_time - (getP final.procs i).arrival_time -
            (getP final.procs i).burst_time := by
  obtain ⟨h1, h2⟩ := scheduler_run_final procs hv preemptive aging_enabled aging_interval
    aging_increment
  refine ⟨h1, ?_⟩
  intro fuel final hf i hi
  obtain ⟨a, b, -, d, -⟩ := (h2 fuel final hf).2.2 i hi
  exact ⟨a, b, d⟩

theorem waiting_accounting_witness :
    valid_table sample ∧
    ((∃ fuel, (scheduler_run fuel (scheduler_init sample sample.length true true
      3 2)).isSome = true) ∧
    ∀ fuel final, scheduler_run fuel (scheduler_init sample sample.length true true
        3 2) = some final →
      ∀ i < sample.length,
        (getP final.procs i).arrival_time = (getP sample i).arrival_time ∧
        (getP final.procs i).burst_time = (getP sample i).burst_time ∧
        (getP final.procs i).waiting_time_accum =
          (getP final.procs i).finish_time - (getP final.procs i).arrival_time -
            (getP final.procs i).burst_time) :=
  ⟨sample_valid, waiting_accounting sample sample_valid true true 3 2⟩

/-- C6. On every table with positive bursts and non-negative arrivals, in every configuration,
`scheduler_run` finishes, and when it has finished every process satisfies
`arrival_time ≤ start_time < finish_time` and `finish_time - start_time ≥ burst_time`. -/
theorem finish_after_start (procs : List Process) (hv : valid_table procs)
    (preemptive aging_enabled : Bool) (aging_interval aging_increment : Int) :
    (∃ fuel, (scheduler_run fuel (scheduler_init procs procs.length preemptive aging_enabled
      aging_interval aging_increment)).isSome = true) ∧
    ∀ fuel final, scheduler_run fuel (scheduler_init procs procs.length preemptive aging_enabled
        aging_interval aging_increment) = some final →
      ∀ i < procs.length,
        (getP final.procs i).arrival_time = (getP procs i).arrival_time ∧
        (getP final.procs i).burst_time = (getP procs i).burst_time ∧
        (getP final.procs i).arrival_time ≤ (getP final.procs i).start_time ∧
        (getP final.procs i).start_time < (getP final.procs i).finish_time ∧
        (getP final.procs i).finish_time - (getP final.procs i).start_time ≥
          (getP final.procs i).burst_time := by
  obtain ⟨h1, h2⟩ := scheduler_run_final procs hv preemptive aging_enabled aging_interval
    aging_increment
  refine ⟨h1, ?_⟩
  intro fuel final hf i hi
  obtain ⟨a, b, -, -, e, f, g, -⟩ := (h2 fuel final hf).2.2 i hi
  exact ⟨a, b, e, f, g⟩

theorem finish_after_start_witness :
    valid_table sample ∧
    ((∃ fuel, (scheduler_run fuel (scheduler_init sample sample.length true true
      3 2)).isSome = true) ∧
    ∀ fuel final, scheduler_run fuel (scheduler_init sample sample.length true true
        3 2) = some final →
      ∀ i < sample.length,
        (getP final.procs i).arrival_time = (getP sample i).arrival_time ∧
        (getP final.procs i).burst_time = (getP sample i).burst_time ∧
        (getP final.procs i).arrival_time ≤ (getP final.procs i).start_time ∧
        (getP final.procs i).start_time < (getP final.procs i).finish_time ∧
        (getP final.procs i).finish_time - (getP final.procs i).start_time ≥
          (getP final.procs i).burst_time) :=
  ⟨sample_valid, finish_after_start sample sample_valid true true 3 2⟩

/-! ## Termination and the bound on the clock -/

theorem run_ticks_time (T : Nat) (s : Scheduler) : (run_ticks T s).time = s.time + T := by
  induction T generalizing s with
  | zero => simp [run_ticks]
  | succ n ih =>
    rw [run_ticks, ih, tick_time]
    push_cast
    omega

/-- A finished loop has executed a number `T` of ticks, none of them after the loop
condition failed. -/
theorem run_loop_ticks (fuel : Nat) (s r : Scheduler) (h : run_loop fuel s = some r) :
    ∃ T, r = run_ticks T s ∧ run_loop T s = some r ∧
      ∀ j < T, (run_ticks j s).completed < (run_ticks j s).nprocs := by
  induction fuel generalizing s with
  | zero =>
    rw [run_loop] at h
    split_ifs at h with hlt
    refine ⟨0, (Option.some.inj h).symm, ?_, ?_⟩
    · rw [run_loop]
      simp [hlt, h]
    · intro j hj
      omega
  | succ n ih =>
    rw [run_loop] at h
    split_ifs at h with hlt
    · obtain ⟨T, h1, h2, h3⟩ := ih _ h
      refine ⟨T + 1, h1, ?_, ?_⟩
      · rw [run_loop]
        simp [hlt, h2]
      · intro j hj
        cases j with
        | zero => exact hlt
        | succ j' => exact h3 j' (by omega)
    · refine ⟨0, (Option.some.inj h).symm, ?_, ?_⟩
      · rw [run_loop]
        simp [hlt, h]
      · intro j hj
        omega

theorem valid_table_tail (a : Process) (tl : List Process) (h : valid_table (a :: tl)) :
    valid_table tl := by
  intro i hi
  have := h (i + 1) (by simpa using hi)
  simpa [getP] using this

/-- On a non-empty table without negative arrival, `max_arrival` is the arrival time of some
process. -/
theorem max_arrival_attained (ps : List Process) (hv : valid_table ps) (hne : 0 < ps.length) :
    ∃ i < ps.length, (getP ps i).arrival_time = max_arrival ps := by
  induction ps with
  | nil => simp at hne
  | cons a tl ih =>
    have ha : 0 ≤ a.arrival_time := by
      have := (hv 0 (by simp)).2
      simpa [getP] using this
    have hm : max_arrival (a :: tl) = max a.arrival_time (max_arrival tl) := rfl
    by_cases hle : max_arrival tl ≤ a.arrival_time
    · refine ⟨0, by simp, ?_⟩
      rw [hm, max_eq_left hle]
      simp [getP]
    · have hlt : a.arrival_time < max_arrival tl := not_le.mp hle
      have htl : 0 < tl.length := by
        cases tl with
        | nil =>
          have : max_arrival ([] : List Process) = 0 := rfl
          omega
        | cons b tl' => simp
      obtain ⟨j, hj, e⟩ := ih (valid_table_tail a tl hv) htl
      refine ⟨j + 1, by simpa using hj, ?_⟩
      rw [hm, max_eq_right (le_of_lt hlt), ← e]
      simp [getP]

/-- C3. On every table with positive bursts and non-negative arrivals, in every configuration,
the tick loop of `scheduler_run` terminates: it executes some number `T` of ticks, the loop
condition `completed < nprocs` holding before each of them, and exits with
`completed = nprocs` and `time = T`, where `T ≤ max_arrival + total_burst`.  Here
`total_burst` is the sum of the bursts and `max_arrival` bounds every arrival time and, when
the table is not empty, is the arrival time of one of the processes. -/
theorem tick_loop_terminates (procs : List Process) (hv : valid_table procs)
    (preemptive aging_enabled : Bool) (aging_interval aging_increment : Int) :
    (∃ T : Nat,
      run_loop T (scheduler_init procs procs.length preemptive aging_enabled aging_interval
          aging_increment) =
        some (run_ticks T (scheduler_init procs procs.length preemptive aging_enabled
          aging_interval aging_increment)) ∧
      (∀ j < T,
        (run_ticks j (scheduler_init procs procs.length preemptive aging_enabled aging_interval
            aging_increment)).completed <
          (run_ticks j (scheduler_init procs procs.length preemptive aging_enabled
            aging_interval aging_increment)).nprocs) ∧
      (run_ticks T (scheduler_init procs procs.length preemptive aging_enabled aging_interval
          aging_increment)).completed =
        (run_ticks T (scheduler_init procs procs.length preemptive aging_enabled aging_interval
          aging_increment)).nprocs ∧
      (run_ticks T (scheduler_init procs procs.length preemptive aging_enabled aging_interval
          aging_increment)).time = (T : Int) ∧
      (T : Int) ≤ max_arrival procs + total_burst procs) ∧
    (∀ i < procs.length, (getP procs i).arrival_time ≤ max_arrival procs) ∧
    (0 < procs.length → ∃ i < procs.length, (getP procs i).arrival_time = max_arrival procs) := by
  refine ⟨?_, arrival_le_max_arrival procs, max_arrival_attained procs hv⟩
  obtain ⟨fuel, r, hr, hok⟩ := run_loop_final procs hv preemptive aging_enabled aging_interval
    aging_increment
  obtain ⟨T, h1, h2, h3⟩ := run_loop_ticks fuel _ r hr
  have ht := run_ticks_time T (scheduler_init procs procs.length preemptive aging_enabled
    aging_interval aging_increment)
  have h0 : (scheduler_init procs procs.length preemptive aging_enabled
    aging_interval aging_increment).time = 0 := rfl
  rw [h0, zero_add] at ht
  subst h1
  refine ⟨T, h2, h3, hok.1, ht, ?_⟩
  rw [← ht]
  exact hok.2.1

theorem tick_loop_terminates_witness :
    valid_table sample ∧
    ((∃ T : Nat,
      run_loop T (scheduler_init sample sample.length true true 3 2) =
        some (run_ticks T (scheduler_init sample sample.length true true 3 2)) ∧
      (∀ j < T,
        (run_ticks j (scheduler_init sample sample.length true true 3 2)).completed <
          (run_ticks j (scheduler_init sample sample.length true true 3 2)).nprocs) ∧
      (run_ticks T (scheduler_init sample sample.length true true 3 2)).completed =
        (run_ticks T (scheduler_init sample sample.length true true 3 2)).nprocs ∧
      (run_ticks T (scheduler_init sample sample.length true true 3 2)).time = (T : Int) ∧
      (T : Int) ≤ max_arrival sample + total_burst sample) ∧
    (∀ i < sample.length, (getP sample i).arrival_time ≤ max_arrival sample) ∧
    (0 < sample.length → ∃ i < sample.length, (getP sample i).arrival_time = max_arrival sample)) :=
  ⟨sample_valid, tick_loop_terminates sample sample_valid true true 3 2⟩

end PrioritySched

namespace PrioritySched

/-! ## Non-preemptive mode -/

theorem admit_body_length (i : Nat) (s : Scheduler) :
    (admit_body i s).procs.length = s.procs.length := by
  unfold admit_body
  simp only []
  split_ifs
  · simp
  · rfl

theorem admit_arrivals_length (s : Scheduler) :
    (admit_arrivals s).procs.length = s.procs.length := by
  unfold admit_arrivals
  exact forLoop_induction (fun _ t => t.procs.length = s.procs.length) _ _ _ rfl
    (fun i _ t ht => (admit_body_length i t).trans ht)

theorem maybe_age_waiting_length (s : Scheduler) :
    (maybe_age_waiting s).procs.length = s.procs.length := by
  unfold maybe_age_waiting
  split_ifs
  · rfl
  · exact (age_loop_spec s.rq s.aging_increment s.procs s.rq.length).1
  · rfl

theorem dispatch_if_needed_length (s : Scheduler) :
    (dispatch_if_needed s).procs.length = s.procs.length := by
  unfold dispatch_if_needed dispatch_top
  simp only []
  split_ifs <;> simp

theorem schedule_tick_length (s : Scheduler) :
    (schedule_tick s).procs.length = s.procs.length := by
  unfold schedule_tick
  rw [dispatch_if_needed_length, maybe_age_waiting_length, admit_arrivals_length]

theorem execute_tick_length (s : Scheduler) :
    (execute_tick s).procs.length = s.procs.length := by
  unfold execute_tick
  simp only []
  split_ifs <;> simp

theorem tick_length (s : Scheduler) : (tick s).procs.length = s.procs.length := by
  unfold tick
  rw [execute_tick_length, schedule_tick_length]

theorem run_ticks_succ (k : Nat) (s : Scheduler) :
    run_ticks (k + 1) s = tick (run_ticks k s) := by
  induction k generalizing s with
  | zero => rfl
  | succ n ih =>
    rw [run_ticks, ih (tick s)]
    rfl

theorem run_ticks_length (k : Nat) (s : Scheduler) :
    (run_ticks k s).procs.length = s.procs.length := by
  induction k with
  | zero => rfl
  | succ n ih => rw [run_ticks_succ, tick_length, ih]

theorem run_ticks_preemptive (k : Nat) (s : Scheduler) :
    (run_ticks k s).preemptive = s.preemptive := by
  induction k with
  | zero => rfl
  | succ n ih => rw [run_ticks_succ, tick_preemptive, ih]

theorem getP_rem_of_rems (l l' : List Process) (h : rems l' = rems l) (c : Nat)
    (hc : c < l.length) : (getP l' c).remaining_time = (getP l c).remaining_time := by
  have h1 : c < (rems l).length := by rw [rems_length]; exact hc
  have h2 : c < (rems l').length := by rw [h]; exact h1
  rw [← rems_getElem l c h1, ← rems_getElem l' c h2]
  simp only [h]

/-- In non-preemptive mode the phases before the execution of a tick leave a running process
on the CPU and write no remaining time. -/
theorem schedule_tick_keeps_current (s : Scheduler) (hp : s.preemptive = false)
    (hc : s.current ≠ -1) :
    (schedule_tick s).current = s.current ∧ rems (schedule_tick s).procs = rems s.procs := by
  refine ⟨?_, schedule_tick_rems s⟩
  have h1 : (maybe_age_waiting (admit_arrivals s)).current = s.current := by
    rw [maybe_age_waiting_current, admit_arrivals_current]
  have h2 : (maybe_age_waiting (admit_arrivals s)).preemptive = false := by
    rw [frame_preemptive (maybe_age_waiting_frame _), frame_preemptive (admit_arrivals_frame _)]
    exact hp
  have hc' : ¬ (maybe_age_waiting (admit_arrivals s)).current = -1 := by
    rw [h1]
    exact hc
  unfold schedule_tick dispatch_if_needed
  simp only [hc', h2, if_false, Bool.not_false, if_true]
  exact h1

/-- The execution of a tick takes one unit from the remaining time of the running process and
releases the CPU exactly when nothing remains. -/
theorem execute_tick_current (s : Scheduler) (hc : s.current ≠ -1)
    (hl : s.current.toNat < s.procs.length) :
    (getP (execute_tick s).procs s.current.toNat).remaining_time =
      (getP s.procs s.current.toNat).remaining_time - 1 ∧
    ((getP (execute_tick s).procs s.current.toNat).remaining_time ≠ 0 →
      (execute_tick s).current = s.current) ∧
    ((getP (execute_tick s).procs s.current.toNat).remaining_time = 0 →
      (execute_tick s).current = -1) := by
  unfold execute_tick
  simp only []
  split_ifs with h1
  · simp only [getP_set_self _ _ _ hl]
    refine ⟨trivial, ?_, ?_⟩
    · intro h
      exact absurd h1 h
    · intro _
      trivial
  · simp only [getP_set_self _ _ _ hl]
    refine ⟨trivial, ?_, ?_⟩
    · intro _
      trivial
    · intro h
      exact absurd h h1

/-- In non-preemptive mode, a process `c` that holds the CPU at some tick with `R` units of
remaining time holds it at each of the `R` ticks from that one on, its remaining time going
down by one per tick. -/
theorem nonpreemptive_holds_cpu (s : Scheduler) (hp : s.preemptive = false) (c : Nat)
    (hcur : (schedule_tick s).current = (c : Int)) (hl : c < s.procs.length) (j : Nat)
    (hj : (j : Int) < (getP (schedule_tick s).procs c).remaining_time) :
    (schedule_tick (run_ticks j s)).current = (c : Int) ∧
    (getP (schedule_tick (run_ticks j s)).procs c).remaining_time =
      (getP (schedule_tick s).procs c).remaining_time - (j : Int) := by
  induction j with
  | zero =>
    refine ⟨hcur, ?_⟩
    simp [run_ticks]
  | succ n ih =>
    obtain ⟨i1, i2⟩ := ih (by push_cast at hj; omega)
    have hne : (schedule_tick (run_ticks n s)).current ≠ -1 := by
      rw [i1]
      omega
    have hlen : (schedule_tick (run_ticks n s)).current.toNat
        < (schedule_tick (run_ticks n s)).procs.length := by
      rw [i1, schedule_tick_length, run_ticks_length]
      simpa using hl
    obtain ⟨e1, e2, -⟩ := execute_tick_current _ hne hlen
    rw [i1, Int.toNat_ofNat] at e1 e2
    have hnz :
        (getP (execute_tick (schedule_tick (run_ticks n s))).procs c).remaining_time ≠ 0 := by
      rw [e1, i2]
      push_cast at hj
      omega
    have hc1 : (run_ticks (n + 1) s).current = (c : Int) := by
      rw [run_ticks_succ]
      exact e2 hnz
    have hp1 : (run_ticks (n + 1) s).preemptive = false := by
      rw [run_ticks_preemptive]
      exact hp
    obtain ⟨k1, k2⟩ := schedule_tick_keeps_current _ hp1 (by rw [hc1]; omega)
    refine ⟨k1.trans hc1, ?_⟩
    rw [getP_rem_of_rems _ _ k2 c (by rw [run_ticks_length]; exact hl)]
    rw [run_ticks_succ]
    show (getP (execute_tick (schedule_tick (run_ticks n s))).procs c).remaining_time = _
    rw [e1, i2]
    push_cast
    omega

/-- In non-preemptive mode, a process `c` that holds the CPU at some tick with `j + 1` units
of remaining time has no remaining time, and has released the CPU, after `j + 1` ticks. -/
theorem nonpreemptive_completes (s : Scheduler) (hp : s.preemptive = false) (c : Nat)
    (hcur : (schedule_tick s).current = (c : Int)) (hl : c < s.procs.length) (j : Nat)
    (hj : (getP (schedule_tick s).procs c).remaining_time = (j : Int) + 1) :
    (run_ticks (j + 1) s).current = -1 ∧
    (getP (run_ticks (j + 1) s).procs c).remaining_time = 0 := by
  obtain ⟨i1, i2⟩ := nonpreemptive_holds_cpu s hp c hcur hl j (by omega)
  have hne : (schedule_tick (run_ticks j s)).current ≠ -1 := by
    rw [i1]
    omega
  have hlen : (schedule_tick (run_ticks j s)).current.toNat
      < (schedule_tick (run_ticks j s)).procs.length := by
    rw [i1, schedule_tick_length, run_ticks_length]
    simpa using hl
  obtain ⟨e1, -, e3⟩ := execute_tick_current _ hne hlen
  rw [i1, Int.toNat_ofNat] at e1 e3
  have hz : (getP (execute_tick (schedule_tick (run_ticks j s))).procs c).remaining_time = 0 := by
    rw [e1, i2]
    omega
  rw [run_ticks_succ]
  exact ⟨e3 hz, hz⟩

/-- C5. Non-preemptive stability.  With `preemptive = false`, in any state in which a process
is current, the admission, aging and dispatch phases of a tick leave it current and write no
remaining time; a process that holds the CPU at some tick with `R` units of remaining time
holds it at each of the `R` ticks from that one on, its remaining time going down by one per
tick, and after these ticks it has no remaining time and has released the CPU.  Hence, on
every table with positive bursts and non-negative arrivals and with any aging configuration,
the run finishes and every process ends with `finish_time - start_time = burst_time` and
`waiting_time_accum = start_time - arrival_time`.  On the S2 workload P1 runs ticks 0..6 and
finishes at 7, and the others then run in the order P3, P2, P4, P5. -/
theorem nonpreemptive_stability (procs : List Process) (hv : valid_table procs)
    (aging_enabled : Bool) (aging_interval aging_increment : Int) :
    (∀ s : Scheduler, s.preemptive = false → s.current ≠ -1 →
      (schedule_tick s).current = s.current ∧ rems (schedule_tick s).procs = rems s.procs) ∧
    (∀ (s : Scheduler) (c j : Nat), s.preemptive = false →
      (schedule_tick s).current = (c : Int) → c < s.procs.length →
      (j : Int) < (getP (schedule_tick s).procs c).remaining_time →
      (schedule_tick (run_ticks j s)).current = (c : Int) ∧
      (getP (schedule_tick (run_ticks j s)).procs c).remaining_time =
        (getP (schedule_tick s).procs c).remaining_time - (j : Int)) ∧
    (∀ (s : Scheduler) (c j : Nat), s.preemptive = false →
      (schedule_tick s).current = (c : Int) → c < s.procs.length →
      (getP (schedule_tick s).procs c).remaining_time = (j : Int) + 1 →
      (run_ticks (j + 1) s).current = -1 ∧
      (getP (run_ticks (j + 1) s).procs c).remaining_time = 0) ∧
    (∃ fuel, (scheduler_run fuel (scheduler_init procs procs.length false aging_enabled
      aging_interval aging_increment)).isSome = true) ∧
    (∀ fuel final, scheduler_run fuel (scheduler_init procs procs.length false aging_enabled
        aging_interval aging_increment) = some final →
      ∀ i < procs.length,
        (getP final.procs i).arrival_time = (getP procs i).arrival_time ∧
        (getP final.procs i).burst_time = (getP procs i).burst_time ∧
        (getP final.procs i).finish_time - (getP final.procs i).start_time =
          (getP final.procs i).burst_time ∧
        (getP final.procs i).waiting_time_accum =
          (getP final.procs i).start_time - (getP final.procs i).arrival_time) ∧
    (run_trace 22 (scheduler_init sample 5 false false 5 1)).map Prod.snd =
      List.replicate 7 (some 1) ++ [some 3] ++ List.replicate 4 (some 2) ++
        List.replicate 4 (some 4) ++ List.replicate 6 (some 5) ∧
    (scheduler_run 22 (scheduler_init sample 5 false false 5 1)).map report =
      some [(1, 0, 7, 0, 7), (2, 8, 12, 6, 10), (3, 7, 8, 3, 4), (4, 12, 16, 7, 11),
        (5, 16, 22, 10, 16)] := by
  obtain ⟨h1, h2⟩ := scheduler_run_final procs hv false aging_enabled aging_interval
    aging_increment
  refine ⟨schedule_tick_keeps_current,
    fun s c j hp hc hl hj => nonpreemptive_holds_cpu s hp c hc hl j hj,
    fun s c j hp hc hl hj => nonpreemptive_completes s hp c hc hl j hj,
    h1, ?_, by decide, by decide⟩
  intro fuel final hf i hi
  obtain ⟨a, b, -, -, -, -, -, g⟩ := (h2 fuel final hf).2.2 i hi
  exact ⟨a, b, (g rfl).1, (g rfl).2⟩

theorem nonpreemptive_stability_witness :
    valid_table sample ∧
    ((∀ s : Scheduler, s.preemptive = false → s.current ≠ -1 →
      (schedule_tick s).current = s.current ∧ rems (schedule_tick s).procs = rems s.procs) ∧
    (∀ (s : Scheduler) (c j : Nat), s.preemptive = false →
      (schedule_tick s).current = (c : Int) → c < s.procs.length →
      (j : Int) < (getP (schedule_tick s).procs c).remaining_time →
      (schedule_tick (run_ticks j s)).current = (c : Int) ∧
      (getP (schedule_tick (run_ticks j s)).procs c).remaining_time =
        (getP (schedule_tick s).procs c).remaining_time - (j : Int)) ∧
    (∀ (s : Scheduler) (c j : Nat), s.preemptive = false →
      (schedule_tick s).current = (c : Int) → c < s.procs.length →
      (getP (schedule_tick s).procs c).remaining_time = (j : Int) + 1 →
      (run_ticks (j + 1) s).current = -1 ∧
      (getP (run_ticks (j + 1) s).procs c).remaining_time = 0) ∧
    (∃ fuel, (scheduler_run fuel (scheduler_init sample sample.length false true
      3 2)).isSome = true) ∧
    (∀ fuel final, scheduler_run fuel (scheduler_init sample sample.length false true
        3 2) = some final →
      ∀ i < sample.length,
        (getP final.procs i).arrival_time = (getP sample i).arrival_time ∧
        (getP final.procs i).burst_time = (getP sample i).burst_time ∧
        (getP final.procs i).finish_time - (getP final.procs i).start_time =
          (getP final.procs i).burst_time ∧
        (getP final.procs i).waiting_time_accum =
          (getP final.procs i).start_time - (getP final.procs i).arrival_time) ∧
    (run_trace 22 (scheduler_init sample 5 false false 5 1)).map Prod.snd =
      List.replicate 7 (some 1) ++ [some 3] ++ List.replicate 4 (some 2) ++
        List.replicate 4 (some 4) ++ List.replicate 6 (some 5) ∧
    (scheduler_run 22 (scheduler_init sample 5 false false 5 1)).map report =
      some [(1, 0, 7, 0, 7), (2, 8, 12, 6, 10), (3, 7, 8, 3, 4), (4, 12, 16, 7, 11),
        (5, 16, 22, 10, 16)]) ∧
    ((run_ticks (6 + 1) (scheduler_init sample 5 false true 3 2)).current = -1 ∧
      (getP (run_ticks (6 + 1) (scheduler_init sample 5 false true 3 2)).procs 0).remaining_time
        = 0) :=
  ⟨sample_valid, nonpreemptive_stability sample sample_valid true 3 2,
    (nonpreemptive_stability sample sample_valid true 3 2).2.2.1
      (scheduler_init sample 5 false true 3 2) 0 6 (by decide) (by decide) (by decide)
      (by decide)⟩

end PrioritySched

namespace PrioritySched

/-! ## `rq_push` -/

theorem sift_up_loop_heap (procs : List Process) (fuel : Nat) (data : List Nat) (idx : Nat)
    (hidx : idx < data.length) (hfuel : idx ≤ fuel)
    (h1 : ∀ k < data.length, 0 < k → k ≠ idx →
      ¬ compare_proc procs (data.getD k 0) (data.getD ((k - 1) / 2) 0) > 0)
    (h2 : ∀ k < data.length, 0 < k → (k - 1) / 2 = idx → 0 < idx →
      ¬ compare_proc procs (data.getD k 0) (data.getD ((idx - 1) / 2) 0) > 0) :
    is_heap procs (sift_up_loop procs fuel data idx) := by
  induction fuel generalizing data idx with
  | zero =>
    rw [sift_up_loop]
    intro k hk hk0
    exact h1 k hk hk0 (by omega)
  | succ n ih =>
    rw [sift_up_loop]
    simp only []
    split_ifs with hpos hcmp
    · have hp : (idx - 1) / 2 < data.length := by omega
      have hpi : ¬ (idx - 1) / 2 = idx := by omega
      have hip : ¬ idx = (idx - 1) / 2 := by omega
      apply ih
      · rw [heap_swap_length]; exact hp
      · omega
      · intro k hk hk0 hkp
        rw [heap_swap_length] at hk
        rw [heap_swap_getD _ _ _ _ hidx hp, heap_swap_getD _ _ _ _ hidx hp]
        by_cases hki : k = idx
        · subst hki
          simp only [hpi, hip, if_false, if_true]
          exact compare_proc_asymm _ _ _ hcmp
        · simp only [hkp, hki, if_false]
          by_cases hq1 : (k - 1) / 2 = (idx - 1) / 2
          · simp only [hq1, if_true]
            intro hc
            have := h1 k hk hk0 hki
            rw [hq1] at this
            exact this (compare_proc_trans _ _ _ _ hc hcmp)
          · by_cases hq2 : (k - 1) / 2 = idx
            · simp only [hq1, hq2, if_false, if_true, hpi, hip]
              exact h2 k hk hk0 hq2 hpos
            · simp only [hq1, hq2, if_false]
              exact h1 k hk hk0 hki
      · intro k hk hk0 hkp hp0
        rw [heap_swap_length] at hk
        rw [heap_swap_getD _ _ _ _ hidx hp, heap_swap_getD _ _ _ _ hidx hp]
        have e1 : ¬ ((idx - 1) / 2 - 1) / 2 = (idx - 1) / 2 := by omega
        have e2 : ¬ ((idx - 1) / 2 - 1) / 2 = idx := by omega
        have e3 : ¬ k = (idx - 1) / 2 := by omega
        have hpar := h1 ((idx - 1) / 2) hp hp0 hpi
        simp only [e1, e2, e3, if_false]
        by_cases hki : k = idx
        · simp only [hki, if_true]
          exact hpar
        · simp only [hki, if_false]
          have := h1 k hk hk0 hki
          rw [hkp] at this
          exact compare_proc_not_trans _ _ _ _ this hpar
    · intro k hk hk0
      by_cases hki : k = idx
      · subst hki
        exact hcmp
      · exact h1 k hk hk0 hki
    · intro k hk hk0
      exact h1 k hk hk0 (by omega)

theorem rq_push_heap (procs : List Process) (rq : ReadyQueue) (i : Nat)
    (h : is_heap procs rq) : is_heap procs (rq_push procs rq i) := by
  unfold rq_push sift_up
  simp only []
  apply sift_up_loop_heap
  · simp
  · exact le_refl _
  · intro k hk hk0 hne
    simp only [List.length_append, List.length_singleton, Nat.add_sub_cancel] at hk hne
    have hk' : k < rq.length := by omega
    rw [List.getD_append _ _ _ _ hk', List.getD_append _ _ _ _ (by omega)]
    exact h k hk' hk0
  · intro k hk hk0 hpar
    simp only [List.length_append, List.length_singleton, Nat.add_sub_cancel] at hk hpar
    omega

theorem rq_peek_nonempty (rq : ReadyQueue) (h : rq ≠ []) :
    rq_peek rq = ((rq.getD 0 0 : Nat) : Int) := by
  unfold rq_peek
  have : rq.length ≠ 0 := fun e => h (List.length_eq_zero.mp e)
  simp [this]

/-- On a heap `rq_peek` returns an index of the queue that no index of the queue beats, and
that beats every other index of the queue when the pids are pairwise distinct. -/
theorem rq_peek_max (procs : List Process) (rq : ReadyQueue) (h : is_heap procs rq)
    (hne : rq ≠ []) :
    ∃ top : Nat, rq_peek rq = (top : Int) ∧ top ∈ rq ∧
      (∀ x ∈ rq, ¬ compare_proc procs x top > 0) ∧
      (distinct_pids procs → (∀ x ∈ rq, x < procs.length) →
        ∀ x ∈ rq, x ≠ top → compare_proc procs top x > 0) := by
  have hlen : 0 < rq.length := List.length_pos.mpr hne
  have hmem : rq.getD 0 0 ∈ rq := by
    rw [List.getD_eq_getElem _ _ hlen]
    exact List.getElem_mem hlen
  have hmax : ∀ x ∈ rq, ¬ compare_proc procs x (rq.getD 0 0) > 0 := by
    intro x hx
    obtain ⟨k, hk, e⟩ := mem_getD rq x hx
    rw [← e]
    exact heap_root_max procs rq h k hk
  refine ⟨rq.getD 0 0, rq_peek_nonempty rq hne, hmem, hmax, ?_⟩
  intro hd hr x hx hxt
  rcases compare_proc_total procs hd x _ (hr x hx) (hr _ hmem) hxt with hc | hc
  · exact absurd hc.1 (hmax x hx)
  · exact hc.2

theorem rq_push_ne_nil (procs : List Process) (rq : ReadyQueue) (i : Nat) :
    rq_push procs rq i ≠ [] := by
  intro he
  have := (rq_push_perm procs rq i).length_eq
  rw [he] at this
  simp at this

/-- C11. On a queue that satisfies the max-heap property under `compare_proc`, after
`rq_push(i)` the queue contents are the old contents plus `i`, the heap property still holds,
and `rq_peek` returns an index of the new contents that no index of the new contents beats
(and that beats every other one when the pids are pairwise distinct).  Neither the absence of
`i` from the queue nor the distinctness of the pids is needed for the first three facts. -/
theorem rq_push_spec (procs : List Process) (rq : ReadyQueue) (i : Nat)
    (hheap : is_heap procs rq) :
    (rq_push procs rq i).Perm (i :: rq) ∧
    is_heap procs (rq_push procs rq i) ∧
    ∃ top : Nat, rq_peek (rq_push procs rq i) = (top : Int) ∧ top ∈ i :: rq ∧
      (∀ x ∈ i :: rq, ¬ compare_proc procs x top > 0) ∧
      (distinct_pids procs → (∀ x ∈ i :: rq, x < procs.length) →
        ∀ x ∈ i :: rq, x ≠ top → compare_proc procs top x > 0) := by
  have hperm := rq_push_perm procs rq i
  have hh := rq_push_heap procs rq i hheap
  refine ⟨hperm, hh, ?_⟩
  obtain ⟨top, h1, h2, h3, h4⟩ := rq_peek_max procs _ hh (rq_push_ne_nil procs rq i)
  refine ⟨top, h1, hperm.mem_iff.mp h2, ?_, ?_⟩
  · intro x hx
    exact h3 x (hperm.mem_iff.mpr hx)
  · intro hd hr x hx hxt
    exact h4 hd (fun y hy => hr y (hperm.mem_iff.mp hy)) x (hperm.mem_iff.mpr hx) hxt

theorem rq_push_spec_witness :
    is_heap (scheduler_init sample 5 true false 5 1).procs [1, 0, 3] ∧
    ((rq_push (scheduler_init sample 5 true false 5 1).procs [1, 0, 3] 2).Perm (2 :: [1, 0, 3]) ∧
    is_heap (scheduler_init sample 5 true false 5 1).procs
      (rq_push (scheduler_init sample 5 true false 5 1).procs [1, 0, 3] 2) ∧
    ∃ top : Nat,
      rq_peek (rq_push (scheduler_init sample 5 true false 5 1).procs [1, 0, 3] 2) = (top : Int) ∧
      top ∈ 2 :: [1, 0, 3] ∧
      (∀ x ∈ 2 :: [1, 0, 3],
        ¬ compare_proc (scheduler_init sample 5 true false 5 1).procs x top > 0) ∧
      (distinct_pids (scheduler_init sample 5 true false 5 1).procs →
        (∀ x ∈ 2 :: [1, 0, 3], x < (scheduler_init sample 5 true false 5 1).procs.length) →
        ∀ x ∈ 2 :: [1, 0, 3], x ≠ top →
          compare_proc (scheduler_init sample 5 true false 5 1).procs top x > 0)) ∧
    rq_push (scheduler_init sample 5 true false 5 1).procs [1, 0, 3] 2 = [2, 1, 3, 0] ∧
    rq_peek (rq_push (scheduler_init sample 5 true false 5 1).procs [1, 0, 3] 2) = 2 :=
  ⟨by unfold is_heap; decide,
    rq_push_spec (scheduler_init sample 5 true false 5 1).procs [1, 0, 3] 2
      (by unfold is_heap; decide),
    by decide, by decide⟩

end PrioritySched

namespace PrioritySched

/-! ## `rq_reheapify` -/

theorem sift_down_loop_heap_from (procs : List Process) (lo fuel : Nat) (data : List Nat)
    (idx : Nat) (hfuel : data.length - idx ≤ fuel) (hlo : lo ≤ idx)
    (hex : ∀ k < data.length, 0 < k → lo ≤ (k - 1) / 2 → (k - 1) / 2 ≠ idx →
      ¬ compare_proc procs (data.getD k 0) (data.getD ((k - 1) / 2) 0) > 0)
    (hup : 0 < idx → lo ≤ (idx - 1) / 2 → ∀ k < data.length,
      (k = 2 * idx + 1 ∨ k = 2 * idx + 2) →
      ¬ compare_proc procs (data.getD k 0) (data.getD ((idx - 1) / 2) 0) > 0) :
    heap_from procs (sift_down_loop procs fuel data idx) lo := by
  induction fuel generalizing data idx with
  | zero =>
    rw [sift_down_loop]
    intro k hk hk0 hkl
    exact hex k hk hk0 hkl (by omega)
  | succ n ih =>
    rw [sift_down_loop]
    split_ifs with h
    · rcases sift_largest_cases procs data idx with h0 | ⟨hc, hlt⟩
      · exact absurd h0 h
      · obtain ⟨hbeat, hleft, hright⟩ := sift_largest_ne procs data idx h
        generalize sift_largest procs data idx = l at h hc hlt hbeat hleft hright
        have hidx : idx < data.length := by omega
        have hchild : ∀ k < data.length, (k = 2 * idx + 1 ∨ k = 2 * idx + 2) →
            ¬ compare_proc procs (data.getD k 0) (data.getD l 0) > 0 := by
          intro k hk hk2
          rcases hk2 with e | e
          · subst e; exact hleft hk
          · subst e; exact hright hk
        apply ih
        · rw [heap_swap_length]; omega
        · omega
        · intro k hk hk0 hkl hpar
          rw [heap_swap_length] at hk
          rw [heap_swap_getD _ _ _ _ hidx hlt, heap_swap_getD _ _ _ _ hidx hlt]
          by_cases hkl' : k = l
          · have hp : (k - 1) / 2 = idx := by omega
            rw [hp]
            simp only [hkl', if_true, h.symm, if_false]
            exact compare_proc_asymm _ _ _ hbeat
          · by_cases hki : k = idx
            · subst hki
              have hp1 : ¬ (k - 1) / 2 = l := hpar
              have hp2 : ¬ (k - 1) / 2 = k := by omega
              simp only [hkl', if_true, if_false, hp1, hp2]
              exact hup hk0 hkl l hlt hc
            · have hp1 : ¬ (k - 1) / 2 = l := hpar
              simp only [hkl', hki, if_false, hp1]
              by_cases hpi : (k - 1) / 2 = idx
              · simp only [hpi, if_true]
                exact hchild k hk (by omega)
              · simp only [hpi, if_false]
                exact hex k hk hk0 hkl hpi
        · intro hl0 _ k hk hk2
          rw [heap_swap_length] at hk
          rw [heap_swap_getD _ _ _ _ hidx hlt, heap_swap_getD _ _ _ _ hidx hlt]
          have hp : (l - 1) / 2 = idx := by omega
          have e1 : ¬ k = l := by omega
          have e2 : ¬ k = idx := by omega
          have e3 : ¬ idx = l := fun e => h e.symm
          rw [hp]
          simp only [e1, e2, e3, if_true, if_false]
          have := hex k hk (by omega) (by omega) (by omega)
          have hp' : (k - 1) / 2 = l := by omega
          rw [hp'] at this
          exact this
    · have h0 : sift_largest procs data idx = idx := not_not.mp h
      obtain ⟨hleft, hright⟩ := sift_largest_eq procs data idx h0
      intro k hk hk0 hkl
      by_cases hpar : (k - 1) / 2 = idx
      · rw [hpar]
        have : k = 2 * idx + 1 ∨ k = 2 * idx + 2 := by omega
        rcases this with e | e
        · subst e; exact hleft hk
        · subst e; exact hright hk
      · exact hex k hk hk0 hkl hpar

theorem sift_down_length (procs : List Process) (data : List Nat) (idx : Nat) :
    (sift_down procs data idx).length = data.length :=
  (sift_down_perm procs data idx).length_eq

theorem reheapify_loop_heap (procs : List Process) (n : Nat) (data : List Nat)
    (h : heap_from procs data n) : heap_from procs (reheapify_loop procs n data) 0 := by
  induction n generalizing data with
  | zero => exact h
  | succ m ih =>
    rw [reheapify_loop]
    apply ih
    unfold sift_down
    apply sift_down_loop_heap_from
    · exact le_refl _
    · exact le_refl _
    · intro k hk hk0 hkl hne
      exact h k hk hk0 (by omega)
    · intro h0 hlo
      omega

theorem rq_reheapify_heap (procs : List Process) (rq : ReadyQueue) :
    is_heap procs (rq_reheapify procs rq) := by
  have h : heap_from procs (rq_reheapify procs rq) 0 := by
    unfold rq_reheapify
    apply reheapify_loop_heap
    intro k hk hk0 hkl
    omega
  intro k hk hk0
  exact h k hk hk0 (Nat.zero_le _)

/-- C12. Whatever the order of the cells and whatever the effective priorities, after
`rq_reheapify` the cells are a permutation of the original contents, with the same size, and
satisfy the max-heap property under `compare_proc`; on a non-empty queue `rq_peek` then returns
an index of the queue that no index of the queue beats (and that beats every other one when
the pids are pairwise distinct). -/
theorem rq_reheapify_spec (procs : List Process) (rq : ReadyQueue) :
    (rq_reheapify procs rq).Perm rq ∧
    (rq_reheapify procs rq).length = rq.length ∧
    is_heap procs (rq_reheapify procs rq) ∧
    (rq ≠ [] → ∃ top : Nat, rq_peek (rq_reheapify procs rq) = (top : Int) ∧ top ∈ rq ∧
      (∀ x ∈ rq, ¬ compare_proc procs x top > 0) ∧
      (distinct_pids procs → (∀ x ∈ rq, x < procs.length) →
        ∀ x ∈ rq, x ≠ top → compare_proc procs top x > 0)) := by
  have hperm := rq_reheapify_perm procs rq
  have hh := rq_reheapify_heap procs rq
  refine ⟨hperm, hperm.length_eq, hh, ?_⟩
  intro hne
  have hne' : rq_reheapify procs rq ≠ [] := by
    intro he
    have := hperm.length_eq
    rw [he] at this
    exact hne (List.length_eq_zero.mp this.symm)
  obtain ⟨top, h1, h2, h3, h4⟩ := rq_peek_max procs _ hh hne'
  refine ⟨top, h1, hperm.mem_iff.mp h2, ?_, ?_⟩
  · intro x hx
    exact h3 x (hperm.mem_iff.mpr hx)
  · intro hd hr x hx hxt
    exact h4 hd (fun y hy => hr y (hperm.mem_iff.mp hy)) x (hperm.mem_iff.mpr hx) hxt

theorem rq_reheapify_spec_witness :
    ¬ is_heap (scheduler_init sample 5 true false 5 1).procs [4, 3, 0, 1, 2] ∧
    rq_reheapify (scheduler_init sample 5 true false 5 1).procs [4, 3, 0, 1, 2] =
      [2, 1, 0, 4, 3] ∧
    ∃ top : Nat,
      rq_peek (rq_reheapify (scheduler_init sample 5 true false 5 1).procs [4, 3, 0, 1, 2]) =
        (top : Int) ∧
      top ∈ [4, 3, 0, 1, 2] ∧
      (∀ x ∈ [4, 3, 0, 1, 2],
        ¬ compare_proc (scheduler_init sample 5 true false 5 1).procs x top > 0) ∧
      (distinct_pids (scheduler_init sample 5 true false 5 1).procs →
        (∀ x ∈ [4, 3, 0, 1, 2], x < (scheduler_init sample 5 true false 5 1).procs.length) →
        ∀ x ∈ [4, 3, 0, 1, 2], x ≠ top →
          compare_proc (scheduler_init sample 5 true false 5 1).procs top x > 0) :=
  ⟨by unfold is_heap; decide, by decide,
    (rq_reheapify_spec (scheduler_init sample 5 true false 5 1).procs [4, 3, 0, 1, 2]).2.2.2
      (by decide)⟩

end PrioritySched

namespace PrioritySched

/-! ## Aging and the heap -/

theorem compare_proc_shift (procs procs' : List Process) (d : Int) (i j : Nat)
    (hi : key_shift d (getP procs i) (getP procs' i))
    (hj : key_shift d (getP procs j) (getP procs' j)) :
    compare_proc procs' i j = compare_proc procs i j := by
  obtain ⟨a1, a2, a3⟩ := hi
  obtain ⟨b1, b2, b3⟩ := hj
  unfold compare_proc
  simp only [a1, a2, a3, b1, b2, b3]
  split_ifs <;> first | rfl | omega

theorem getD_mem (l : List Nat) (k : Nat) (hk : k < l.length) : l.getD k 0 ∈ l := by
  rw [List.getD_eq_getElem _ _ hk]
  exact List.getElem_mem hk

theorem is_heap_shift (procs procs' : List Process) (d : Int) (data : List Nat)
    (hs : ∀ i ∈ data, key_shift d (getP procs i) (getP procs' i))
    (h : is_heap procs data) : is_heap procs' data := by
  intro k hk hk0
  rw [compare_proc_shift procs procs' d _ _ (hs _ (getD_mem data k hk))
    (hs _ (getD_mem data _ (by omega)))]
  exact h k hk hk0

theorem sift_largest_of_heap (procs : List Process) (data : List Nat) (idx : Nat)
    (h : is_heap procs data) : sift_largest procs data idx = idx := by
  have h1 : ¬ (2 * idx + 1 < data.length ∧
      compare_proc procs (data.getD (2 * idx + 1) 0) (data.getD idx 0) > 0) := by
    rintro ⟨a, b⟩
    have := h (2 * idx + 1) a (by omega)
    have e : (2 * idx + 1 - 1) / 2 = idx := by omega
    rw [e] at this
    exact this b
  have h2 : ¬ (2 * idx + 2 < data.length ∧
      compare_proc procs (data.getD (2 * idx + 2) 0) (data.getD idx 0) > 0) := by
    rintro ⟨a, b⟩
    have := h (2 * idx + 2) a (by omega)
    have e : (2 * idx + 2 - 1) / 2 = idx := by omega
    rw [e] at this
    exact this b
  unfold sift_largest
  simp only [h1, h2, if_false]

/-- On a heap `sift_down` exchanges nothing. -/
theorem sift_down_of_heap (procs : List Process) (data : List Nat) (idx : Nat)
    (h : is_heap procs data) : sift_down procs data idx = data := by
  unfold sift_down
  cases data.length - idx with
  | zero => rfl
  | succ n =>
    rw [sift_down_loop]
    simp [sift_largest_of_heap procs data idx h]

/-- On a heap `rq_reheapify` exchanges nothing. -/
theorem rq_reheapify_of_heap (procs : List Process) (rq : ReadyQueue) (h : is_heap procs rq) :
    rq_reheapify procs rq = rq := by
  unfold rq_reheapify
  generalize rq.length / 2 = n
  induction n with
  | zero => rfl
  | succ m ih =>
    rw [reheapify_loop, sift_down_of_heap procs rq m h]
    exact ih

theorem age_procs_length (rq : ReadyQueue) (inc : Int) (procs : List Process) :
    (age_procs rq inc procs).length = procs.length :=
  (age_loop_spec rq inc procs rq.length).1

theorem mem_take_succ (l : List Nat) (n : Nat) (hn : n < l.length) (x : Nat) :
    x ∈ l.take (n + 1) ↔ x ∈ l.take n ∨ x = l.getD n 0 := by
  rw [List.take_succ, List.getElem?_eq_getElem hn, List.getD_eq_getElem _ _ hn]
  simp only [Option.toList, List.mem_append, List.mem_singleton]

theorem not_mem_take_of_nodup (l : List Nat) (n : Nat) (hn : n < l.length) (hnd : l.Nodup) :
    l.getD n 0 ∉ l.take n := by
  intro hm
  rw [List.getD_eq_getElem _ _ hn] at hm
  obtain ⟨m, hm1, e⟩ := List.getElem_of_mem hm
  have hm2 : m < n := by
    have := hm1
    simp only [List.length_take] at this
    omega
  rw [List.getElem_take] at e
  have := (hnd.getElem_inj_iff).mp e
  omega

/-- With no index twice in the queue and every index of the queue in the table, the loop of
`maybe_age_waiting`, after `n` rounds, has added the increment once to the cells of the first
`n` indices of the queue and has written nothing else. -/
theorem age_loop_exact (rq : ReadyQueue) (inc : Int) (procs : List Process) (hnd : rq.Nodup)
    (hlt : ∀ i ∈ rq, i < procs.length) (n : Nat) (hn : n ≤ rq.length) (j : Nat) :
    getP (forLoop n (fun i procs =>
        let idx := rq.getD i 0
        let p := getP procs idx
        procs.set idx { p with effective_priority := p.effective_priority + inc })
      procs) j =
      if j ∈ rq.take n then
        { getP procs j with effective_priority := (getP procs j).effective_priority + inc }
      else getP procs j := by
  induction n with
  | zero => simp [forLoop]
  | succ m ih =>
    have hm : m < rq.length := hn
    have ihm := ih (Nat.le_of_lt hm)
    rw [forLoop]
    simp only []
    rw [getP_set, (age_loop_spec rq inc procs m).1]
    have hidx : rq.getD m 0 < procs.length := hlt _ (getD_mem rq m hm)
    have hnot := not_mem_take_of_nodup rq m hm hnd
    by_cases hj : rq.getD m 0 = j
    · have hmem : j ∈ rq.take (m + 1) := by
        rw [mem_take_succ rq m hm]
        exact Or.inr hj.symm
      have hidx' : j < procs.length := by rw [← hj]; exact hidx
      have ih' := ih (Nat.le_of_lt hm)
      rw [hj] at hnot ⊢
      simp only [hidx', and_self, if_true, hmem]
      have e : getP (forLoop m (fun i procs =>
          let idx := rq.getD i 0
          let p := getP procs idx
          procs.set idx { p with effective_priority := p.effective_priority + inc })
        procs) j = getP procs j := by
        rw [ihm]
        simp [hnot]
      simp only [] at e
      rw [e]
    · have hiff : j ∈ rq.take (m + 1) ↔ j ∈ rq.take m := by
        rw [mem_take_succ rq m hm]
        constructor
        · rintro (h | h)
          · exact h
          · exact absurd h.symm hj
        · exact Or.inl
      simp only [hj, false_and, if_false]
      rw [ihm]
      simp only [hiff]

theorem age_procs_getP (rq : ReadyQueue) (inc : Int) (procs : List Process) (hnd : rq.Nodup)
    (hlt : ∀ i ∈ rq, i < procs.length) (j : Nat) :
    getP (age_procs rq inc procs) j =
      if j ∈ rq then
        { getP procs j with effective_priority := (getP procs j).effective_priority + inc }
      else getP procs j := by
  unfold age_procs
  rw [age_loop_exact rq inc procs hnd hlt rq.length (le_refl _) j, List.take_length]

theorem maybe_age_waiting_eq (s : Scheduler) :
    maybe_age_waiting s =
      if aging_due s = true then
        { s with
          procs := age_procs s.rq s.aging_increment s.procs
          rq := rq_reheapify (age_procs s.rq s.aging_increment s.procs) s.rq }
      else s := by
  unfold maybe_age_waiting aging_due age_procs
  cases h1 : s.aging_enabled <;> by_cases h2 : 0 < s.aging_interval <;>
    by_cases h3 : s.time > 0 ∧ Int.tmod s.time s.aging_interval = 0 <;>
    simp [h2, h3, not_le.mpr, not_lt.mp]

end PrioritySched

namespace PrioritySched

/-! ## The reheapification inside aging -/

theorem maybe_age_waiting_no_reheapify_eq (s : Scheduler) :
    maybe_age_waiting_no_reheapify s =
      if aging_due s = true then
        { s with procs := age_procs s.rq s.aging_increment s.procs }
      else s := by
  unfold maybe_age_waiting_no_reheapify aging_due
  cases h1 : s.aging_enabled <;> by_cases h2 : 0 < s.aging_interval <;>
    by_cases h3 : s.time > 0 ∧ Int.tmod s.time s.aging_interval = 0 <;>
    simp [h2, h3, not_le.mpr, not_lt.mp]

theorem age_procs_key_shift (rq : ReadyQueue) (inc : Int) (procs : List Process)
    (hnd : rq.Nodup) (hlt : ∀ i ∈ rq, i < procs.length) (i : Nat) (hi : i ∈ rq) :
    key_shift inc (getP procs i) (getP (age_procs rq inc procs) i) := by
  rw [age_procs_getP rq inc procs hnd hlt i]
  simp only [hi, if_true]
  exact ⟨rfl, rfl, rfl⟩

/-- C20. With unbounded integers, on a queue that satisfies the max-heap property under
`compare_proc`, holds no index twice and holds indices of the table, `maybe_age_waiting`
yields the same state as the variant that only adds the increment and never calls
`rq_reheapify`: when aging is due it adds `aging_increment` once to every queued process and
to no other, the comparator gives the same result on any two queued processes as before, and
`rq_reheapify` leaves the cells as they are. -/
theorem aging_reheapify_noop (s : Scheduler) (hheap : is_heap s.procs s.rq)
    (hnd : s.rq.Nodup) (hlt : ∀ i ∈ s.rq, i < s.procs.length) :
    maybe_age_waiting s = maybe_age_waiting_no_reheapify s ∧
    (aging_due s = true → ∀ j,
      getP (maybe_age_waiting s).procs j =
        if j ∈ s.rq then
          { getP s.procs j with
            effective_priority := (getP s.procs j).effective_priority + s.aging_increment }
        else getP s.procs j) ∧
    (∀ i ∈ s.rq, ∀ j ∈ s.rq,
      compare_proc (maybe_age_waiting s).procs i j = compare_proc s.procs i j) ∧
    rq_reheapify (maybe_age_waiting s).procs s.rq = s.rq ∧
    (maybe_age_waiting s).rq = s.rq := by
  have hshift := age_procs_key_shift s.rq s.aging_increment s.procs hnd hlt
  have hh : is_heap (age_procs s.rq s.aging_increment s.procs) s.rq :=
    is_heap_shift _ _ _ _ hshift hheap
  have hre := rq_reheapify_of_heap _ _ hh
  rw [maybe_age_waiting_eq, maybe_age_waiting_no_reheapify_eq]
  by_cases hdue : aging_due s = true
  · simp only [hdue, if_true]
    refine ⟨by rw [hre], ?_, ?_, hre, hre⟩
    · intro _ j
      exact age_procs_getP s.rq s.aging_increment s.procs hnd hlt j
    · intro i hi j hj
      exact compare_proc_shift _ _ _ _ _ (hshift i hi) (hshift j hj)
  · have hf : aging_due s = false := by simpa using hdue
    simp only [hf, Bool.false_eq_true, if_false]
    refine ⟨trivial, ?_, ?_, rq_reheapify_of_heap _ _ hheap, trivial⟩
    · intro h
      exact absurd h (by simp)
    · intro i _ j _
      trivial

theorem aging_reheapify_noop_witness :
    is_heap (admit_arrivals (run_ticks 6 (scheduler_init sample 5 true true 3 1))).procs
      (admit_arrivals (run_ticks 6 (scheduler_init sample 5 true true 3 1))).rq ∧
    (admit_arrivals (run_ticks 6 (scheduler_init sample 5 true true 3 1))).rq = [0, 3, 4] ∧
    aging_due (admit_arrivals (run_ticks 6 (scheduler_init sample 5 true true 3 1))) = true ∧
    maybe_age_waiting (admit_arrivals (run_ticks 6 (scheduler_init sample 5 true true 3 1))) =
      maybe_age_waiting_no_reheapify
        (admit_arrivals (run_ticks 6 (scheduler_init sample 5 true true 3 1))) :=
  ⟨by unfold is_heap; decide, by decide, by decide,
    (aging_reheapify_noop
      (admit_arrivals (run_ticks 6 (scheduler_init sample 5 true true 3 1)))
      (by unfold is_heap; decide) (by decide) (by decide)).1⟩

end PrioritySched

namespace PrioritySched

/-! ## Reachable states -/

theorem frame_config {s t : Scheduler} (h : frame s = frame t) : config s = config t := by
  unfold frame at h
  unfold config
  simp only [Prod.mk.injEq] at h ⊢
  exact ⟨h.1, h.2.1, h.2.2.1, h.2.2.2.1, h.2.2.2.2.1⟩

theorem execute_tick_config (s : Scheduler) : config (execute_tick s) = config s := by
  unfold execute_tick config
  simp only []
  split_ifs <;> rfl

theorem tick_config (s : Scheduler) : config (tick s) = config s := by
  unfold tick
  rw [execute_tick_config, frame_config (schedule_tick_frame s)]

theorem run_ticks_config (T : Nat) (s : Scheduler) : config (run_ticks T s) = config s := by
  induction T with
  | zero => rfl
  | succ n ih => rw [run_ticks_succ, tick_config, ih]

theorem config_nprocs {s t : Scheduler} (h : config s = config t) : s.nprocs = t.nprocs := by
  unfold config at h
  simp only [Prod.mk.injEq] at h
  exact h.1

theorem config_aging {s t : Scheduler} (h : config s = config t) :
    s.aging_enabled = t.aging_enabled ∧ s.aging_interval = t.aging_interval ∧
      s.aging_increment = t.aging_increment := by
  unfold config at h
  simp only [Prod.mk.injEq] at h
  exact ⟨h.2.2.1, h.2.2.2.1, h.2.2.2.2⟩

theorem config_preemptive {s t : Scheduler} (h : config s = config t) :
    s.preemptive = t.preemptive := by
  unfold config at h
  simp only [Prod.mk.injEq] at h
  exact h.2.1

/-- A write of a cell that keeps the value of `f` on that cell keeps it on every cell. -/
theorem getP_set_field {α : Type} (f : Process → α) (procs : List Process) (c : Nat)
    (p : Process) (h : f p = f (getP procs c)) (j : Nat) :
    f (getP (procs.set c p) j) = f (getP procs j) := by
  rw [getP_set]
  split_ifs with hc
  · rw [h, hc.1]
  · rfl

theorem admit_body_static (i : Nat) (s : Scheduler) (j : Nat) :
    static_fields (getP (admit_body i s).procs j) = static_fields (getP s.procs j) := by
  unfold admit_body
  dsimp only
  split_ifs
  · refine getP_set_field static_fields _ _ _ ?_ j
    rfl
  · rfl

theorem admit_arrivals_static (s : Scheduler) (j : Nat) :
    static_fields (getP (admit_arrivals s).procs j) = static_fields (getP s.procs j) := by
  unfold admit_arrivals
  exact forLoop_induction
    (fun _ t => static_fields (getP t.procs j) = static_fields (getP s.procs j)) _ _ _ rfl
    (fun i _ t ht => (admit_body_static i t j).trans ht)

theorem maybe_age_waiting_static (s : Scheduler) (j : Nat) :
    static_fields (getP (maybe_age_waiting s).procs j) = static_fields (getP s.procs j) := by
  unfold maybe_age_waiting
  split_ifs
  · rfl
  · dsimp only
    obtain ⟨e, he⟩ := (age_loop_spec s.rq s.aging_increment s.procs s.rq.length).2 j
    rw [he]
    rfl
  · rfl

/-- The block that gives the CPU to the top of the queue writes no field but `started`,
`start_time` and `waiting_time_accum`. -/
theorem dispatch_top_keeps (s : Scheduler) (j : Nat) :
    dispatch_fields (getP (dispatch_top s).procs j) = dispatch_fields (getP s.procs j) ∧
    (getP (dispatch_top s).procs j).last_ready_time = (getP s.procs j).last_ready_time := by
  unfold dispatch_top
  dsimp only
  constructor
  · refine getP_set_field dispatch_fields _ _ _ ?_ j
    split_ifs <;> rfl
  · refine getP_set_field (fun p => p.last_ready_time) _ _ _ ?_ j
    split_ifs <;> rfl

/-- The dispatch phase writes no field but `started`, `start_time`, `waiting_time_accum` and
`last_ready_time`. -/
theorem dispatch_if_needed_keeps (s : Scheduler) (j : Nat) :
    dispatch_fields (getP (dispatch_if_needed s).procs j) = dispatch_fields (getP s.procs j) := by
  unfold dispatch_if_needed
  dsimp only
  split_ifs
  · exact (dispatch_top_keeps s j).1
  · rfl
  · rfl
  · rw [(dispatch_top_keeps _ j).1]
    dsimp only
    refine getP_set_field dispatch_fields _ _ _ ?_ j
    rfl
  · rfl
  · rfl

/-- The execution of a tick writes no field but `remaining_time` and `finish_time`. -/
theorem execute_tick_keeps (s : Scheduler) (j : Nat) :
    execute_fields (getP (execute_tick s).procs j) = execute_fields (getP s.procs j) := by
  unfold execute_tick
  dsimp only
  split_ifs
  · refine getP_set_field execute_fields _ _ _ ?_ j
    rfl
  · refine getP_set_field execute_fields _ _ _ ?_ j
    rfl
  · rfl

theorem static_of_dispatch_fields {p q : Process} (h : dispatch_fields p = dispatch_fields q) :
    static_fields p = static_fields q ∧ p.effective_priority = q.effective_priority ∧
      p.remaining_time = q.remaining_time := by
  unfold dispatch_fields at h
  unfold static_fields
  simp only [Prod.mk.injEq] at h ⊢
  exact ⟨⟨h.1, h.2.1, h.2.2.1, h.2.2.2.1⟩, h.2.2.2.2.1, h.2.2.2.2.2.1⟩

theorem static_of_execute_fields {p q : Process} (h : execute_fields p = execute_fields q) :
    static_fields p = static_fields q ∧ p.effective_priority = q.effective_priority := by
  unfold execute_fields at h
  unfold static_fields
  simp only [Prod.mk.injEq] at h ⊢
  exact ⟨⟨h.1, h.2.1, h.2.2.1, h.2.2.2.1⟩, h.2.2.2.2.1⟩

theorem tick_static (s : Scheduler) (j : Nat) :
    static_fields (getP (tick s).procs j) = static_fields (getP s.procs j) := by
  unfold tick schedule_tick
  rw [(static_of_execute_fields (execute_tick_keeps _ j)).1,
    (static_of_dispatch_fields (dispatch_if_needed_keeps _ j)).1,
    maybe_age_waiting_static, admit_arrivals_static]

theorem run_ticks_static (T : Nat) (s : Scheduler) (j : Nat) :
    static_fields (getP (run_ticks T s).procs j) = static_fields (getP s.procs j) := by
  induction T with
  | zero => rfl
  | succ n ih => rw [run_ticks_succ, tick_static, ih]

theorem init_static (ps : List Process) (pre ag : Bool) (iv inc : Int) (j : Nat) :
    static_fields (getP (scheduler_init ps ps.length pre ag iv inc).procs j) =
      static_fields (getP ps j) := by
  unfold scheduler_init
  simp only [Int.toNat_ofNat]
  rw [(init_loop_spec ps ps.length).2 j]
  split_ifs <;> rfl

/-- The invariant of the engine holds at the head of every iteration of the tick loop. -/
theorem run_ticks_inv (ps : List Process) (hv : valid_table ps) (pre ag : Bool) (iv inc : Int)
    (T : Nat) : sched_inv ps 0 (run_ticks T (scheduler_init ps ps.length pre ag iv inc)) := by
  induction T with
  | zero => exact init_sched_inv ps hv pre ag iv inc
  | succ n ih =>
    rw [run_ticks_succ]
    unfold tick
    apply execute_tick_inv
    apply schedule_tick_inv ps hv _ _ ih
    rw [config_nprocs (run_ticks_config n _)]
    rfl

theorem run_ticks_time_init (ps : List Process) (pre ag : Bool) (iv inc : Int) (T : Nat) :
    (run_ticks T (scheduler_init ps ps.length pre ag iv inc)).time = (T : Int) := by
  rw [run_ticks_time]
  show (0 : Int) + _ = _
  omega

end PrioritySched

namespace PrioritySched

/-! ## Exclusive states -/

theorem exclusive_of_inv (ps : List Process) (k : Nat) (s : Scheduler)
    (h : sched_inv ps k s) : exclusive ps.length s := by
  unfold sched_inv at h
  refine ⟨?_, h.rq_nodup, ?_⟩
  · intro hc
    rcases h.cur_ok with h1 | h1
    · exact absurd h1 hc
    · exact h1
  · intro i hi hor
    have hp := h.procs_ok i hi
    have hadm : admitted (getP s.procs i).arrival_time s.time i k →
        (getP s.procs i).arrival_time ≤ s.time := by
      unfold admitted
      omega
    constructor
    · intro hc
      obtain ⟨r1, r2, -⟩ := hp.when_running hc
      have := hadm (hp.when_started r2).1
      omega
    · intro hq
      obtain ⟨q1, q2, -⟩ := hp.when_queued hq
      have := hadm q1
      omega

theorem phases_inv (ps : List Process) (hv : valid_table ps) (pre ag : Bool) (iv inc : Int)
    (T : Nat) :
    sched_inv ps ps.length
      (admit_arrivals (run_ticks T (scheduler_init ps ps.length pre ag iv inc))) ∧
    sched_inv ps ps.length
      (maybe_age_waiting
        (admit_arrivals (run_ticks T (scheduler_init ps ps.length pre ag iv inc)))) ∧
    sched_inv ps ps.length
      (schedule_tick (run_ticks T (scheduler_init ps ps.length pre ag iv inc))) := by
  have h0 := run_ticks_inv ps hv pre ag iv inc T
  have hn : (run_ticks T (scheduler_init ps ps.length pre ag iv inc)).nprocs
      = (ps.length : Int) := by
    rw [config_nprocs (run_ticks_config T _)]
    rfl
  have h1 := admit_arrivals_inv ps hv _ hn h0
  have h2 := maybe_age_waiting_inv ps _ _ h1
  exact ⟨h1, h2, dispatch_if_needed_inv ps _ _ h2⟩

/-- C18. On every table with positive bursts and non-negative arrivals, in every
configuration, at the head of every tick and after each of its phases (admission, aging,
dispatch, execution) the running index, when not `-1`, is a table index that does not occur in
the ready queue, no index occurs twice in the ready queue, and no process that is complete
(`remaining_time = 0`) or has not arrived (`time < arrival_time`) is current or in the ready
queue. -/
theorem exclusive_states (procs : List Process) (hv : valid_table procs)
    (preemptive aging_enabled : Bool) (aging_interval aging_increment : Int) (T : Nat) :
    exclusive procs.length
      (run_ticks T (scheduler_init procs procs.length preemptive aging_enabled aging_interval
        aging_increment)) ∧
    exclusive procs.length
      (admit_arrivals (run_ticks T (scheduler_init procs procs.length preemptive aging_enabled
        aging_interval aging_increment))) ∧
    exclusive procs.length
      (maybe_age_waiting (admit_arrivals (run_ticks T (scheduler_init procs procs.length
        preemptive aging_enabled aging_interval aging_increment)))) ∧
    exclusive procs.length
      (dispatch_if_needed (maybe_age_waiting (admit_arrivals (run_ticks T (scheduler_init procs
        procs.length preemptive aging_enabled aging_interval aging_increment))))) ∧
    exclusive procs.length
      (execute_tick (dispatch_if_needed (maybe_age_waiting (admit_arrivals (run_ticks T
        (scheduler_init procs procs.length preemptive aging_enabled aging_interval
          aging_increment)))))) := by
  obtain ⟨h1, h2, h3⟩ := phases_inv procs hv preemptive aging_enabled aging_interval
    aging_increment T
  refine ⟨exclusive_of_inv _ _ _ (run_ticks_inv procs hv _ _ _ _ T),
    exclusive_of_inv _ _ _ h1, exclusive_of_inv _ _ _ h2, exclusive_of_inv _ _ _ h3, ?_⟩
  exact exclusive_of_inv _ _ _ (execute_tick_inv procs _ h3)

theorem exclusive_states_witness :
    valid_table sample ∧
    (exclusive sample.length (run_ticks 5 (scheduler_init sample sample.length true true 3 2)) ∧
    exclusive sample.length
      (admit_arrivals (run_ticks 5 (scheduler_init sample sample.length true true 3 2))) ∧
    exclusive sample.length
      (maybe_age_waiting (admit_arrivals (run_ticks 5 (scheduler_init sample sample.length
        true true 3 2)))) ∧
    exclusive sample.length
      (dispatch_if_needed (maybe_age_waiting (admit_arrivals (run_ticks 5 (scheduler_init sample
        sample.length true true 3 2))))) ∧
    exclusive sample.length
      (execute_tick (dispatch_if_needed (maybe_age_waiting (admit_arrivals (run_ticks 5
        (scheduler_init sample sample.length true true 3 2))))))) :=
  ⟨sample_valid, exclusive_states sample sample_valid true true 3 2 5⟩

/-! ## Conservation of work -/

theorem execute_tick_rem (s : Scheduler) (hc : s.current = -1 ∨ 0 ≤ s.current) (i : Nat)
    (hi : i < s.procs.length) :
    (getP (execute_tick s).procs i).remaining_time =
      (getP s.procs i).remaining_time - (if s.current = (i : Int) then 1 else 0) := by
  unfold execute_tick
  dsimp only
  split_ifs with h1 h2 h3 h3 h3
  · have e : s.current.toNat = i := by omega
    rw [e, getP_set_self _ _ _ hi]
  · have e : ¬ s.current.toNat = i := by omega
    rw [getP_set_ne _ _ _ _ e]
    omega
  · have e : s.current.toNat = i := by omega
    rw [e, getP_set_self _ _ _ hi]
  · have e : ¬ s.current.toNat = i := by omega
    rw [getP_set_ne _ _ _ _ e]
    omega
  · omega
  · omega

theorem cpu_ticks_conserved (ps : List Process) (hv : valid_table ps) (pre ag : Bool)
    (iv inc : Int) (T : Nat) (i : Nat) (hi : i < ps.length) :
    (cpu_ticks (scheduler_init ps ps.length pre ag iv inc) T i : Int) +
      (getP (run_ticks T (scheduler_init ps ps.length pre ag iv inc)).procs i).remaining_time =
      (getP ps i).burst_time := by
  induction T with
  | zero =>
    rw [cpu_ticks, run_ticks, init_procs_getP ps pre ag iv inc i hi]
    simp [init_proc]
  | succ n ih =>
    obtain ⟨-, -, h3⟩ := phases_inv ps hv pre ag iv inc n
    have h0 := run_ticks_inv ps hv pre ag iv inc n
    have hlen : i < (run_ticks n (scheduler_init ps ps.length pre ag iv inc)).procs.length := by
      rw [h0.len]; exact hi
    have hc : (schedule_tick (run_ticks n (scheduler_init ps ps.length pre ag iv inc))).current
          = -1 ∨
        0 ≤ (schedule_tick (run_ticks n (scheduler_init ps ps.length pre ag iv inc))).current := by
      rcases h3.cur_ok with h | h
      · exact Or.inl h
      · exact Or.inr h.1
    have e1 := execute_tick_rem _ hc i (by rw [schedule_tick_length]; exact hlen)
    have e2 := getP_rem_of_rems _ _ (schedule_tick_rems
      (run_ticks n (scheduler_init ps ps.length pre ag iv inc))) i hlen
    rw [cpu_ticks, run_ticks_succ]
    unfold tick
    rw [e1, e2]
    split_ifs
    · push_cast
      omega
    · push_cast
      omega

/-- C17. Conservation of work.  On every table with positive bursts and non-negative arrivals,
in every configuration, at the end of every tick, for every process, the number of ticks so
far in which it was current during the execute phase plus its `remaining_time` is its
`burst_time`; the tick loop exits, and at its exit every process has `remaining_time = 0` and
has occupied the CPU for exactly `burst_time` ticks. -/
theorem conservation_of_work (procs : List Process) (hv : valid_table procs)
    (preemptive aging_enabled : Bool) (aging_interval aging_increment : Int) :
    (∀ T i, i < procs.length →
      (cpu_ticks (scheduler_init procs procs.length preemptive aging_enabled aging_interval
          aging_increment) T i : Int) +
        (getP (run_ticks T (scheduler_init procs procs.length preemptive aging_enabled
          aging_interval aging_increment)).procs i).remaining_time =
        (getP procs i).burst_time) ∧
    ∃ T, run_loop T (scheduler_init procs procs.length preemptive aging_enabled aging_interval
          aging_increment) =
        some (run_ticks T (scheduler_init procs procs.length preemptive aging_enabled
          aging_interval aging_increment)) ∧
      ∀ i < procs.length,
        (getP (run_ticks T (scheduler_init procs procs.length preemptive aging_enabled
          aging_interval aging_increment)).procs i).remaining_time = 0 ∧
        (cpu_ticks (scheduler_init procs procs.length preemptive aging_enabled aging_interval
          aging_increment) T i : Int) = (getP procs i).burst_time := by
  refine ⟨fun T i hi => cpu_ticks_conserved procs hv _ _ _ _ T i hi, ?_⟩
  obtain ⟨fuel, r, hr, hok⟩ := run_loop_final procs hv preemptive aging_enabled aging_interval
    aging_increment
  obtain ⟨T, h1, h2, -⟩ := run_loop_ticks fuel _ r hr
  subst h1
  refine ⟨T, h2, ?_⟩
  intro i hi
  have h0 := (hok.2.2 i hi).2.2.1
  have hc := cpu_ticks_conserved procs hv preemptive aging_enabled aging_interval
    aging_increment T i hi
  exact ⟨h0, by omega⟩

theorem conservation_of_work_witness :
    valid_table sample ∧
    ((∀ T i, i < sample.length →
      (cpu_ticks (scheduler_init sample sample.length true true 3 2) T i : Int) +
        (getP (run_ticks T (scheduler_init sample sample.length true true 3 2)).procs
          i).remaining_time =
        (getP sample i).burst_time) ∧
    ∃ T, run_loop T (scheduler_init sample sample.length true true 3 2) =
        some (run_ticks T (scheduler_init sample sample.length true true 3 2)) ∧
      ∀ i < sample.length,
        (getP (run_ticks T (scheduler_init sample sample.length true true 3 2)).procs
          i).remaining_time = 0 ∧
        (cpu_ticks (scheduler_init sample sample.length true true 3 2) T i : Int) =
          (getP sample i).burst_time) :=
  ⟨sample_valid, conservation_of_work sample sample_valid true true 3 2⟩

end PrioritySched

namespace PrioritySched

/-! ## Effective priorities along the run -/

theorem aging_due_of_frame {s t : Scheduler} (h : frame s = frame t) :
    aging_due s = aging_due t := by
  unfold frame at h
  simp only [Prod.mk.injEq] at h
  obtain ⟨-, -, h3, h4, -, h6, -⟩ := h
  unfold aging_due
  rw [h3, h4, h6]

theorem static_base {p q : Process} (h : static_fields p = static_fields q) :
    p.base_priority = q.base_priority ∧ p.arrival_time = q.arrival_time ∧ p.pid = q.pid := by
  unfold static_fields at h
  simp only [Prod.mk.injEq] at h
  exact ⟨h.2.2.2, h.2.1, h.1⟩

/-- If every process that arrives at the present tick still has its base priority, the
admission phase changes no effective priority. -/
theorem admit_arrivals_eff (s : Scheduler)
    (h : ∀ j, (getP s.procs j).arrival_time = s.time →
      (getP s.procs j).effective_priority = (getP s.procs j).base_priority) (j : Nat) :
    (getP (admit_arrivals s).procs j).effective_priority =
      (getP s.procs j).effective_priority := by
  have key : (∀ j, (getP (admit_arrivals s).procs j).effective_priority =
        (getP s.procs j).effective_priority) ∧
      (∀ j, static_fields (getP (admit_arrivals s).procs j) = static_fields (getP s.procs j)) ∧
      (admit_arrivals s).time = s.time := by
    unfold admit_arrivals
    refine forLoop_induction
      (fun _ (t : Scheduler) => (∀ j, (getP t.procs j).effective_priority =
          (getP s.procs j).effective_priority) ∧
        (∀ j, static_fields (getP t.procs j) = static_fields (getP s.procs j)) ∧
        t.time = s.time) _ _ _ ⟨fun _ => rfl, fun _ => rfl, rfl⟩ ?_
    rintro i - t ⟨h1, h2, h3⟩
    refine ⟨?_, fun j => (admit_body_static i t j).trans (h2 j),
      (frame_time (admit_body_frame i t)).trans h3⟩
    intro j
    unfold admit_body
    dsimp only
    split_ifs with harr
    · rw [getP_set]
      split_ifs with hc
      · obtain ⟨hij, -⟩ := hc
        subst hij
        dsimp only
        obtain ⟨b1, b2, -⟩ := static_base (h2 i)
        rw [b1, h i (by rw [← b2, harr, h3])]
      · exact h1 j
    · exact h1 j
  exact key.1 j

theorem admit_body_rq_mono (i : Nat) (s : Scheduler) (j : Nat) (hj : j ∈ s.rq) :
    j ∈ (admit_body i s).rq := by
  unfold admit_body
  dsimp only
  split_ifs
  · dsimp only
    rw [(rq_push_perm _ _ _).mem_iff]
    exact List.mem_cons_of_mem _ hj
  · exact hj

/-- The admission phase puts every process that arrives at the present tick in the queue. -/
theorem admit_arrivals_mem (s : Scheduler) (j : Nat) (hj : j < s.nprocs.toNat)
    (harr : (getP s.procs j).arrival_time = s.time) : j ∈ (admit_arrivals s).rq := by
  have key : (j < s.nprocs.toNat → j ∈ (admit_arrivals s).rq) := by
    unfold admit_arrivals
    refine (forLoop_induction
      (fun k (t : Scheduler) => (j < k → j ∈ t.rq) ∧
        (∀ j, static_fields (getP t.procs j) = static_fields (getP s.procs j)) ∧
        t.time = s.time) _ _ _ ⟨fun h => absurd h (Nat.not_lt_zero j), fun _ => rfl, rfl⟩ ?_).1
    rintro i - t ⟨h1, h2, h3⟩
    refine ⟨?_, fun j => (admit_body_static i t j).trans (h2 j),
      (frame_time (admit_body_frame i t)).trans h3⟩
    intro hlt
    by_cases hij : j = i
    · subst hij
      obtain ⟨-, b2, -⟩ := static_base (h2 j)
      unfold admit_body
      dsimp only
      rw [if_pos (by rw [b2, harr, h3])]
      dsimp only
      rw [(rq_push_perm _ _ _).mem_iff]
      exact List.mem_cons_self _ _
    · exact admit_body_rq_mono i t j (h1 (by omega))
  exact key hj

/-- When aging is due, on a queue without duplicate that holds table indices, the aging phase
adds the increment to the effective priority of the queued processes and of no other. -/
theorem maybe_age_waiting_eff (s : Scheduler) (hnd : s.rq.Nodup)
    (hlt : ∀ i ∈ s.rq, i < s.procs.length) (j : Nat) :
    (getP (maybe_age_waiting s).procs j).effective_priority =
      (getP s.procs j).effective_priority +
        (if aging_due s = true ∧ j ∈ s.rq then s.aging_increment else 0) := by
  rw [maybe_age_waiting_eq]
  by_cases hdue : aging_due s = true
  · simp only [hdue, if_true, true_and]
    rw [age_procs_getP s.rq s.aging_increment s.procs hnd hlt j]
    split_ifs
    · rfl
    · omega
  · have hf : aging_due s = false := by simpa using hdue
    simp only [hf, Bool.false_eq_true, if_false, false_and]
    omega

theorem boosts_zero_before_arrival (ps : List Process) (hv : valid_table ps) (pre ag : Bool)
    (iv inc : Int) (j : Nat) (hj : j < ps.length) (T : Nat)
    (hT : (T : Int) ≤ (getP ps j).arrival_time) :
    boosts (scheduler_init ps ps.length pre ag iv inc) T j = 0 := by
  induction T with
  | zero => rfl
  | succ n ih =>
    rw [boosts, ih (by push_cast at hT; omega)]
    obtain ⟨h1, -, -⟩ := phases_inv ps hv pre ag iv inc n
    have hnot : j ∉ (admit_arrivals
        (run_ticks n (scheduler_init ps ps.length pre ag iv inc))).rq := by
      intro hq
      have hp := h1.procs_ok j hj
      have hadm := (hp.when_queued hq).1
      have harr := hp.arrival_eq
      have ht : (admit_arrivals (run_ticks n (scheduler_init ps ps.length pre ag iv inc))).time
          = (n : Int) := by
        rw [frame_time (admit_arrivals_frame _), run_ticks_time_init]
      unfold admitted at hadm
      rw [ht, harr] at hadm
      push_cast at hT
      omega
    simp [hnot]

theorem getP_default (procs : List Process) (j : Nat) (h : procs.length ≤ j) :
    getP procs j = default := by
  unfold getP
  exact List.getD_eq_default _ _ h

theorem init_aging_increment (ps : List Process) (pre ag : Bool) (iv inc : Int) (T : Nat) :
    (run_ticks T (scheduler_init ps ps.length pre ag iv inc)).aging_increment = inc ∧
    (run_ticks T (scheduler_init ps ps.length pre ag iv inc)).aging_enabled = ag ∧
    (run_ticks T (scheduler_init ps ps.length pre ag iv inc)).aging_interval = iv ∧
    (run_ticks T (scheduler_init ps ps.length pre ag iv inc)).preemptive = pre := by
  obtain ⟨a, b, c⟩ := config_aging (run_ticks_config T (scheduler_init ps ps.length pre ag iv inc))
  have d := config_preemptive (run_ticks_config T (scheduler_init ps ps.length pre ag iv inc))
  exact ⟨c, a, b, d⟩

theorem eff_phases_of_head (ps : List Process) (hv : valid_table ps) (pre ag : Bool)
    (iv inc : Int) (T : Nat)
    (hE : ∀ j < ps.length,
      (getP (run_ticks T (scheduler_init ps ps.length pre ag iv inc)).procs
          j).effective_priority =
        (getP ps j).base_priority +
          inc * (boosts (scheduler_init ps ps.length pre ag iv inc) T j : Int))
    (j : Nat) (hj : j < ps.length) :
    (getP (admit_arrivals
      (run_ticks T (scheduler_init ps ps.length pre ag iv inc))).procs j).effective_priority =
      (getP ps j).base_priority +
        inc * (boosts (scheduler_init ps ps.length pre ag iv inc) T j : Int) ∧
    (getP (maybe_age_waiting (admit_arrivals
      (run_ticks T (scheduler_init ps ps.length pre ag iv inc)))).procs j).effective_priority =
      (getP ps j).base_priority +
        inc * (boosts (scheduler_init ps ps.length pre ag iv inc) (T + 1) j : Int) ∧
    (getP (schedule_tick
      (run_ticks T (scheduler_init ps ps.length pre ag iv inc))).procs j).effective_priority =
      (getP ps j).base_priority +
        inc * (boosts (scheduler_init ps ps.length pre ag iv inc) (T + 1) j : Int) := by
  have h0 := run_ticks_inv ps hv pre ag iv inc T
  obtain ⟨h1, -, -⟩ := phases_inv ps hv pre ag iv inc T
  have htime := run_ticks_time_init ps pre ag iv inc T
  have hstat : ∀ i, static_fields
      (getP (run_ticks T (scheduler_init ps ps.length pre ag iv inc)).procs i) =
      static_fields (getP ps i) := fun i =>
    (run_ticks_static T _ i).trans (init_static ps pre ag iv inc i)
  generalize hs : run_ticks T (scheduler_init ps ps.length pre ag iv inc) = s at *
  have hadm : ∀ i, (getP s.procs i).arrival_time = s.time →
      (getP s.procs i).effective_priority = (getP s.procs i).base_priority := by
    intro i harr
    by_cases hi : i < ps.length
    · obtain ⟨b1, b2, -⟩ := static_base (hstat i)
      rw [hE i hi, b1]
      have hz := boosts_zero_before_arrival ps hv pre ag iv inc i hi T
        (by rw [← b2, harr, htime])
      rw [hz]
      simp
    · rw [getP_default s.procs i (by rw [h0.len]; omega)]
      rfl
  have e1 := admit_arrivals_eff s hadm j
  have hlt : ∀ i ∈ (admit_arrivals s).rq, i < (admit_arrivals s).procs.length := by
    intro i hi
    rw [h1.len]
    exact h1.rq_lt i hi
  have e2 := maybe_age_waiting_eff (admit_arrivals s) h1.rq_nodup hlt j
  have e3 := (static_of_dispatch_fields
    (dispatch_if_needed_keeps (maybe_age_waiting (admit_arrivals s)) j)).2.1
  have hinc : (admit_arrivals s).aging_increment = inc := by
    have := (init_aging_increment ps pre ag iv inc T).1
    rw [hs] at this
    rw [← this]
    exact (config_aging (frame_config (admit_arrivals_frame s))).2.2
  have hdue : aging_due (admit_arrivals s) = aging_due s :=
    aging_due_of_frame (admit_arrivals_frame s)
  have hb : (boosts (scheduler_init ps ps.length pre ag iv inc) (T + 1) j : Int) =
      (boosts (scheduler_init ps ps.length pre ag iv inc) T j : Int) +
        (if aging_due s = true ∧ j ∈ (admit_arrivals s).rq then 1 else 0) := by
    rw [boosts, hs]
    split_ifs <;> simp
  have r1 : (getP (admit_arrivals s).procs j).effective_priority =
      (getP ps j).base_priority +
        inc * (boosts (scheduler_init ps ps.length pre ag iv inc) T j : Int) := by
    rw [e1, hE j hj]
  have r2 : (getP (maybe_age_waiting (admit_arrivals s)).procs j).effective_priority =
      (getP ps j).base_priority +
        inc * (boosts (scheduler_init ps ps.length pre ag iv inc) (T + 1) j : Int) := by
    rw [e2, r1, hb, hinc, hdue]
    split_ifs
    · ring
    · ring
  refine ⟨r1, r2, ?_⟩
  unfold schedule_tick
  rw [e3, r2]

/-- The effective priority of a process at the head of tick `T`: its base priority plus the
increment times the number of aging applications it has received in the ready queue since the
start of the run. -/
theorem eff_head (ps : List Process) (hv : valid_table ps) (pre ag : Bool) (iv inc : Int)
    (T : Nat) : ∀ j < ps.length,
    (getP (run_ticks T (scheduler_init ps ps.length pre ag iv inc)).procs j).effective_priority =
      (getP ps j).base_priority +
        inc * (boosts (scheduler_init ps ps.length pre ag iv inc) T j : Int) := by
  induction T with
  | zero =>
    intro j hj
    rw [run_ticks, init_procs_getP ps pre ag iv inc j hj, boosts]
    simp [init_proc]
  | succ n ih =>
    intro j hj
    obtain ⟨-, -, r3⟩ := eff_phases_of_head ps hv pre ag iv inc n ih j hj
    rw [run_ticks_succ]
    unfold tick
    rw [(static_of_execute_fields (execute_tick_keeps _ j)).2, r3]

theorem base_kept (ps : List Process) (pre ag : Bool) (iv inc : Int) (T : Nat) (j : Nat) :
    (getP (run_ticks T (scheduler_init ps ps.length pre ag iv inc)).procs j).base_priority =
      (getP ps j).base_priority :=
  (static_base ((run_ticks_static T _ j).trans (init_static ps pre ag iv inc j))).1

end PrioritySched

namespace PrioritySched

/-! ## Aging: arrivals at an aging tick, accumulated boosts, monotonicity -/

/-- C13 (as amended). With aging enabled and a positive interval, a process whose arrival time
`T` is a positive multiple of `aging_interval` has its base priority after the admission phase
of tick `T` and is then in the ready queue, so that the aging phase of the same tick boosts
it: after the admission and aging phases its effective priority is
`base_priority + aging_increment`. -/
theorem arrival_at_aging_tick (procs : List Process) (hv : valid_table procs)
    (preemptive : Bool) (aging_interval aging_increment : Int) (T j : Nat)
    (hj : j < procs.length) (hiv : 0 < aging_interval) (hT : 0 < T)
    (hmod : Int.tmod (T : Int) aging_interval = 0)
    (harr : (getP procs j).arrival_time = (T : Int)) :
    (getP (admit_arrivals (run_ticks T (scheduler_init procs procs.length preemptive true
      aging_interval aging_increment))).procs j).effective_priority =
      (getP procs j).base_priority ∧
    j ∈ (admit_arrivals (run_ticks T (scheduler_init procs procs.length preemptive true
      aging_interval aging_increment))).rq ∧
    (getP (maybe_age_waiting (admit_arrivals (run_ticks T (scheduler_init procs procs.length
      preemptive true aging_interval aging_increment)))).procs j).effective_priority =
      (getP procs j).base_priority + aging_increment ∧
    (getP (maybe_age_waiting (admit_arrivals (run_ticks T (scheduler_init procs procs.length
      preemptive true aging_interval aging_increment)))).procs j).base_priority =
      (getP procs j).base_priority := by
  obtain ⟨r1, r2, -⟩ := eff_phases_of_head procs hv preemptive true aging_interval
    aging_increment T (eff_head procs hv preemptive true aging_interval aging_increment T) j hj
  have hz := boosts_zero_before_arrival procs hv preemptive true aging_interval aging_increment
    j hj T (by rw [harr])
  have htime := run_ticks_time_init procs preemptive true aging_interval aging_increment T
  obtain ⟨-, c2, c3, -⟩ := init_aging_increment procs preemptive true aging_interval
    aging_increment T
  have hn : (run_ticks T (scheduler_init procs procs.length preemptive true aging_interval
      aging_increment)).nprocs = (procs.length : Int) := by
    rw [config_nprocs (run_ticks_config T _)]
    rfl
  have hstat := static_base ((run_ticks_static T (scheduler_init procs procs.length preemptive
    true aging_interval aging_increment) j).trans (init_static procs preemptive true
      aging_interval aging_increment j))
  have hmem : j ∈ (admit_arrivals (run_ticks T (scheduler_init procs procs.length preemptive
      true aging_interval aging_increment))).rq := by
    apply admit_arrivals_mem
    · rw [hn]
      simpa using hj
    · rw [hstat.2.1, harr, htime]
  have hdue : aging_due (run_ticks T (scheduler_init procs procs.length preemptive true
      aging_interval aging_increment)) = true := by
    unfold aging_due
    rw [c2, c3, htime]
    have h0 : (0 : Int) < (T : Int) := by exact_mod_cast hT
    simp [hiv, h0, hmod]
  have hb : boosts (scheduler_init procs procs.length preemptive true aging_interval
      aging_increment) (T + 1) j = 1 := by
    rw [boosts, hz]
    simp [hdue, hmem]
  refine ⟨?_, hmem, ?_, ?_⟩
  · rw [r1, hz]
    simp
  · rw [r2, hb]
    simp
  · have := static_base ((maybe_age_waiting_static _ j).trans
      ((admit_arrivals_static (run_ticks T (scheduler_init procs procs.length preemptive true
        aging_interval aging_increment)) j)))
    rw [this.1, hstat.1]

theorem arrival_at_aging_tick_witness :
    valid_table [mkProc 1 0 5 5, mkProc 2 3 2 1] ∧
    ((getP (admit_arrivals (run_ticks 3 (scheduler_init [mkProc 1 0 5 5, mkProc 2 3 2 1]
      [mkProc 1 0 5 5, mkProc 2 3 2 1].length true true 3 2))).procs 1).effective_priority =
      (getP [mkProc 1 0 5 5, mkProc 2 3 2 1] 1).base_priority ∧
    1 ∈ (admit_arrivals (run_ticks 3 (scheduler_init [mkProc 1 0 5 5, mkProc 2 3 2 1]
      [mkProc 1 0 5 5, mkProc 2 3 2 1].length true true 3 2))).rq ∧
    (getP (maybe_age_waiting (admit_arrivals (run_ticks 3 (scheduler_init
      [mkProc 1 0 5 5, mkProc 2 3 2 1] [mkProc 1 0 5 5, mkProc 2 3 2 1].length true true 3
        2)))).procs 1).effective_priority =
      (getP [mkProc 1 0 5 5, mkProc 2 3 2 1] 1).base_priority + 2 ∧
    (getP (maybe_age_waiting (admit_arrivals (run_ticks 3 (scheduler_init
      [mkProc 1 0 5 5, mkProc 2 3 2 1] [mkProc 1 0 5 5, mkProc 2 3 2 1].length true true 3
        2)))).procs 1).base_priority =
      (getP [mkProc 1 0 5 5, mkProc 2 3 2 1] 1).base_priority) :=
  ⟨by unfold valid_table; decide,
    arrival_at_aging_tick [mkProc 1 0 5 5, mkProc 2 3 2 1] (by unfold valid_table; decide)
      true 3 2 3 1 (by decide) (by decide) (by decide) (by decide) (by decide)⟩

/-- C13 (counterexample). With aging enabled, `aging_interval = 3` and `aging_increment = 2`,
the process P2 of the table `(1, 0, 5, 5)`, `(2, 3, 2, 1)` arrives at the aging tick 3; after
the admission and aging phases of that tick its effective priority is 3, not its base
priority 1. -/
theorem arrival_at_aging_tick_is_boosted :
    (getP [mkProc 1 0 5 5, mkProc 2 3 2 1] 1).arrival_time = 3 ∧
    Int.tmod 3 3 = 0 ∧
    (getP (maybe_age_waiting (admit_arrivals (run_ticks 3 (scheduler_init
      [mkProc 1 0 5 5, mkProc 2 3 2 1] 2 true true 3 2)))).procs 1).effective_priority = 3 ∧
    ¬ (getP (maybe_age_waiting (admit_arrivals (run_ticks 3 (scheduler_init
      [mkProc 1 0 5 5, mkProc 2 3 2 1] 2 true true 3 2)))).procs 1).effective_priority =
      (getP (maybe_age_waiting (admit_arrivals (run_ticks 3 (scheduler_init
        [mkProc 1 0 5 5, mkProc 2 3 2 1] 2 true true 3 2)))).procs 1).base_priority := by
  refine ⟨by decide, by decide, by decide, by decide⟩

/-- C15 (as amended). On every table with positive bursts and non-negative arrivals, in every
configuration, at the head of every tick `T` and after each phase of that tick, every process
(in particular every process in the ready queue) has
`effective_priority = base_priority + aging_increment * b`, where `b` is the number of aging
applications it has received in the ready queue since the start of the run, over all its
stays: a boost is kept when the process is dispatched and when it is preempted, and
`base_priority` is never written. -/
theorem effective_priority_counts_all_boosts (procs : List Process) (hv : valid_table procs)
    (preemptive aging_enabled : Bool) (aging_interval aging_increment : Int) (T j : Nat)
    (hj : j < procs.length) :
    (getP (run_ticks T (scheduler_init procs procs.length preemptive aging_enabled
      aging_interval aging_increment)).procs j).effective_priority =
      (getP procs j).base_priority +
        aging_increment * (boosts (scheduler_init procs procs.length preemptive aging_enabled
          aging_interval aging_increment) T j : Int) ∧
    (getP (admit_arrivals (run_ticks T (scheduler_init procs procs.length preemptive
      aging_enabled aging_interval aging_increment))).procs j).effective_priority =
      (getP procs j).base_priority +
        aging_increment * (boosts (scheduler_init procs procs.length preemptive aging_enabled
          aging_interval aging_increment) T j : Int) ∧
    (getP (maybe_age_waiting (admit_arrivals (run_ticks T (scheduler_init procs procs.length
      preemptive aging_enabled aging_interval aging_increment)))).procs j).effective_priority =
      (getP procs j).base_priority +
        aging_increment * (boosts (scheduler_init procs procs.length preemptive aging_enabled
          aging_interval aging_increment) (T + 1) j : Int) ∧
    (getP (schedule_tick (run_ticks T (scheduler_init procs procs.length preemptive
      aging_enabled aging_interval aging_increment))).procs j).effective_priority =
      (getP procs j).base_priority +
        aging_increment * (boosts (scheduler_init procs procs.length preemptive aging_enabled
          aging_interval aging_increment) (T + 1) j : Int) ∧
    (getP (run_ticks T (scheduler_init procs procs.length preemptive aging_enabled
      aging_interval aging_increment)).procs j).base_priority = (getP procs j).base_priority := by
  have h0 := eff_head procs hv preemptive aging_enabled aging_interval aging_increment T
  obtain ⟨r1, r2, r3⟩ := eff_phases_of_head procs hv preemptive aging_enabled aging_interval
    aging_increment T h0 j hj
  exact ⟨h0 j hj, r1, r2, r3, base_kept procs _ _ _ _ T j⟩

theorem effective_priority_counts_all_boosts_witness :
    valid_table [mkProc 1 0 5 1, mkProc 2 1 1 5, mkProc 3 3 1 9] ∧
    (getP (schedule_tick (run_ticks 3 (scheduler_init
      [mkProc 1 0 5 1, mkProc 2 1 1 5, mkProc 3 3 1 9]
      [mkProc 1 0 5 1, mkProc 2 1 1 5, mkProc 3 3 1 9].length true true 2 1))).procs
        0).effective_priority =
      (getP [mkProc 1 0 5 1, mkProc 2 1 1 5, mkProc 3 3 1 9] 0).base_priority +
        1 * (boosts (scheduler_init [mkProc 1 0 5 1, mkProc 2 1 1 5, mkProc 3 3 1 9]
          [mkProc 1 0 5 1, mkProc 2 1 1 5, mkProc 3 3 1 9].length true true 2 1)
            (3 + 1) 0 : Int) ∧
    boosts (scheduler_init [mkProc 1 0 5 1, mkProc 2 1 1 5, mkProc 3 3 1 9] 3 true true 2 1)
      (3 + 1) 0 = 1 :=
  ⟨by unfold valid_table; decide,
    (effective_priority_counts_all_boosts [mkProc 1 0 5 1, mkProc 2 1 1 5, mkProc 3 3 1 9]
      (by unfold valid_table; decide) true true 2 1 3 0 (by decide)).2.2.2.1,
    by decide⟩

/-- C15 (counterexample). Table `(1, 0, 5, 1)`, `(2, 1, 1, 5)`, `(3, 3, 1, 9)`, preemptive,
aging with interval 2 and increment 1.  P1 is boosted in the queue at tick 2, runs, and is
preempted by P3 at tick 3.  After the dispatch phase of tick 3 it is in the ready queue with
`last_ready_time = 3`; no aging tick lies between 3 and the present tick 3, but its effective
priority is 2, not its base priority 1. -/
theorem preempted_process_keeps_boost :
    0 ∈ (schedule_tick (run_ticks 3 (scheduler_init
      [mkProc 1 0 5 1, mkProc 2 1 1 5, mkProc 3 3 1 9] 3 true true 2 1))).rq ∧
    (schedule_tick (run_ticks 3 (scheduler_init
      [mkProc 1 0 5 1, mkProc 2 1 1 5, mkProc 3 3 1 9] 3 true true 2 1))).time = 3 ∧
    (getP (schedule_tick (run_ticks 3 (scheduler_init
      [mkProc 1 0 5 1, mkProc 2 1 1 5, mkProc 3 3 1 9] 3 true true 2 1))).procs
        0).last_ready_time = 3 ∧
    aging_ticks_between 2 3 3 = 0 ∧
    ¬ (getP (schedule_tick (run_ticks 3 (scheduler_init
      [mkProc 1 0 5 1, mkProc 2 1 1 5, mkProc 3 3 1 9] 3 true true 2 1))).procs
        0).effective_priority =
      (getP (schedule_tick (run_ticks 3 (scheduler_init
        [mkProc 1 0 5 1, mkProc 2 1 1 5, mkProc 3 3 1 9] 3 true true 2 1))).procs
          0).base_priority +
        1 * (aging_ticks_between 2
          (getP (schedule_tick (run_ticks 3 (scheduler_init
            [mkProc 1 0 5 1, mkProc 2 1 1 5, mkProc 3 3 1 9] 3 true true 2 1))).procs
              0).last_ready_time
          (schedule_tick (run_ticks 3 (scheduler_init
            [mkProc 1 0 5 1, mkProc 2 1 1 5, mkProc 3 3 1 9] 3 true true 2 1))).time : Int) := by
  refine ⟨by decide, by decide, by decide, by decide, by decide⟩

theorem boosts_mono (s0 : Scheduler) (T j : Nat) : boosts s0 T j ≤ boosts s0 (T + 1) j := by
  conv_rhs => rw [boosts]
  exact Nat.le_add_right _ _

/-- C16 (as amended). With `aging_increment ≥ 0`, on every table with positive bursts and
non-negative arrivals and with any other configuration, every process has
`effective_priority ≥ base_priority` at the head of every tick and after each of its phases,
and its effective priority never decreases: admission leaves it as it is, aging can only raise
it, dispatch and execution leave it as it is, so that it is at least as large at the head of
the next tick. -/
theorem aging_only_boosts (procs : List Process) (hv : valid_table procs)
    (preemptive aging_enabled : Bool) (aging_interval aging_increment : Int)
    (hinc : 0 ≤ aging_increment) (T j : Nat) (hj : j < procs.length) :
    (getP (run_ticks T (scheduler_init procs procs.length preemptive aging_enabled
      aging_interval aging_increment)).procs j).base_priority ≤
      (getP (run_ticks T (scheduler_init procs procs.length preemptive aging_enabled
        aging_interval aging_increment)).procs j).effective_priority ∧
    (getP (admit_arrivals (run_ticks T (scheduler_init procs procs.length preemptive
      aging_enabled aging_interval aging_increment))).procs j).effective_priority =
      (getP (run_ticks T (scheduler_init procs procs.length preemptive aging_enabled
        aging_interval aging_increment)).procs j).effective_priority ∧
    (getP (admit_arrivals (run_ticks T (scheduler_init procs procs.length preemptive
      aging_enabled aging_interval aging_increment))).procs j).effective_priority ≤
      (getP (maybe_age_waiting (admit_arrivals (run_ticks T (scheduler_init procs procs.length
        preemptive aging_enabled aging_interval aging_increment)))).procs
          j).effective_priority ∧
    (getP (schedule_tick (run_ticks T (scheduler_init procs procs.length preemptive
      aging_enabled aging_interval aging_increment))).procs j).effective_priority =
      (getP (maybe_age_waiting (admit_arrivals (run_ticks T (scheduler_init procs procs.length
        preemptive aging_enabled aging_interval aging_increment)))).procs
          j).effective_priority ∧
    (getP (run_ticks (T + 1) (scheduler_init procs procs.length preemptive aging_enabled
      aging_interval aging_increment)).procs j).effective_priority =
      (getP (schedule_tick (run_ticks T (scheduler_init procs procs.length preemptive
        aging_enabled aging_interval aging_increment))).procs j).effective_priority ∧
    (getP (run_ticks T (scheduler_init procs procs.length preemptive aging_enabled
      aging_interval aging_increment)).procs j).effective_priority ≤
      (getP (run_ticks (T + 1) (scheduler_init procs procs.length preemptive aging_enabled
        aging_interval aging_increment)).procs j).effective_priority := by
  have h0 := eff_head procs hv preemptive aging_enabled aging_interval aging_increment T
  have h1 := eff_head procs hv preemptive aging_enabled aging_interval aging_increment (T + 1)
  obtain ⟨r1, r2, r3⟩ := eff_phases_of_head procs hv preemptive aging_enabled aging_interval
    aging_increment T h0 j hj
  have hb := base_kept procs preemptive aging_enabled aging_interval aging_increment T j
  have hm := boosts_mono (scheduler_init procs procs.length preemptive aging_enabled
    aging_interval aging_increment) T j
  have hm' : (boosts (scheduler_init procs procs.length preemptive aging_enabled
      aging_interval aging_increment) T j : Int) ≤
      (boosts (scheduler_init procs procs.length preemptive aging_enabled
        aging_interval aging_increment) (T + 1) j : Int) := by exact_mod_cast hm
  have hle := mul_le_mul_of_nonneg_left hm' hinc
  have hnn : 0 ≤ aging_increment * (boosts (scheduler_init procs procs.length preemptive
      aging_enabled aging_interval aging_increment) T j : Int) :=
    mul_nonneg hinc (by exact_mod_cast Nat.zero_le _)
  rw [h0 j hj, h1 j hj, r1, r2, r3, hb]
  refine ⟨?_, rfl, ?_, rfl, rfl, ?_⟩
  · omega
  · omega
  · omega

theorem aging_only_boosts_witness :
    valid_table s3_procs ∧ (0 : Int) ≤ 2 ∧
    (getP (run_ticks 3 (scheduler_init s3_procs s3_procs.length true true 3 2)).procs
      1).effective_priority ≤
      (getP (run_ticks (3 + 1) (scheduler_init s3_procs s3_procs.length true true 3 2)).procs
        1).effective_priority ∧
    (getP (run_ticks 3 (scheduler_init s3_procs s3_procs.length true true 3 2)).procs
      1).effective_priority = 1 ∧
    (getP (run_ticks (3 + 1) (scheduler_init s3_procs s3_procs.length true true 3 2)).procs
      1).effective_priority = 3 :=
  ⟨by unfold valid_table; decide, by decide,
    (aging_only_boosts s3_procs (by unfold valid_table; decide) true true 3 2 (by decide) 3 1
      (by decide)).2.2.2.2.2,
    by decide, by decide⟩

/-- C16 (counterexample). `scheduler_init` accepts `aging_increment = -1`.  In scenario S3
with `aging_interval = 3`, P2 waits in the ready queue from tick 0; at the head of tick 3 its
effective priority is its base priority 1, at the head of tick 4 it is 0: it has decreased
from one tick to the next and is below the base priority. -/
theorem negative_increment_lowers_priority :
    1 ∈ (run_ticks 3 (scheduler_init s3_procs 2 true true 3 (-1))).rq ∧
    1 ∈ (run_ticks 4 (scheduler_init s3_procs 2 true true 3 (-1))).rq ∧
    (getP (run_ticks 3 (scheduler_init s3_procs 2 true true 3 (-1))).procs
      1).effective_priority = 1 ∧
    (getP (run_ticks 4 (scheduler_init s3_procs 2 true true 3 (-1))).procs
      1).effective_priority = 0 ∧
    (getP (run_ticks 4 (scheduler_init s3_procs 2 true true 3 (-1))).procs
      1).base_priority = 1 ∧
    ¬ (getP (run_ticks 4 (scheduler_init s3_procs 2 true true 3 (-1))).procs
      1).effective_priority ≥
      (getP (run_ticks 4 (scheduler_init s3_procs 2 true true 3 (-1))).procs
        1).base_priority := by
  refine ⟨by decide, by decide, by decide, by decide, by decide, by decide⟩

/-! ## Preemption on a tie of effective priority -/

/-- C14 (the code at the failing input). Table `(1, 0, 3, 1)`, `(2, 1, 3, 3)`, preemptive,
aging with interval 2 and increment 2.  At tick 2, after the aging phase, P2 is running with
effective priority 3 and the top of the ready queue is P1, whose effective priority has been
boosted to 3: the two are equal.  `dispatch_if_needed` nevertheless displaces P2 and gives
the CPU to P1, because `compare_proc` breaks the tie by the earlier arrival of P1. -/
theorem tie_of_effective_priority_preempts :
    (maybe_age_waiting (admit_arrivals (run_ticks 2 (scheduler_init
      [mkProc 1 0 3 1, mkProc 2 1 3 3] 2 true true 2 2)))).preemptive = true ∧
    (maybe_age_waiting (admit_arrivals (run_ticks 2 (scheduler_init
      [mkProc 1 0 3 1, mkProc 2 1 3 3] 2 true true 2 2)))).current = 1 ∧
    rq_peek (maybe_age_waiting (admit_arrivals (run_ticks 2 (scheduler_init
      [mkProc 1 0 3 1, mkProc 2 1 3 3] 2 true true 2 2)))).rq = 0 ∧
    (getP (maybe_age_waiting (admit_arrivals (run_ticks 2 (scheduler_init
      [mkProc 1 0 3 1, mkProc 2 1 3 3] 2 true true 2 2)))).procs 0).effective_priority = 3 ∧
    (getP (maybe_age_waiting (admit_arrivals (run_ticks 2 (scheduler_init
      [mkProc 1 0 3 1, mkProc 2 1 3 3] 2 true true 2 2)))).procs 1).effective_priority = 3 ∧
    (dispatch_if_needed (maybe_age_waiting (admit_arrivals (run_ticks 2 (scheduler_init
      [mkProc 1 0 3 1, mkProc 2 1 3 3] 2 true true 2 2))))).current = 0 ∧
    (run_trace 6 (scheduler_init [mkProc 1 0 3 1, mkProc 2 1 3 3] 2 true true 2 2)).map
      Prod.snd = [some 1, some 2, some 1, some 1, some 2, some 2] := by
  refine ⟨by decide, by decide, by decide, by decide, by decide, by decide, by decide⟩

end PrioritySched

namespace PrioritySched

/-! ## The ready queue is a heap along the run -/

theorem key_shift_of_dispatch_fields {p q : Process}
    (h : dispatch_fields q = dispatch_fields p) : key_shift 0 p q := by
  unfold dispatch_fields at h
  simp only [Prod.mk.injEq] at h
  exact ⟨by rw [h.2.2.2.2.1]; omega, h.2.1, h.1⟩

theorem key_shift_of_execute_fields {p q : Process}
    (h : execute_fields q = execute_fields p) : key_shift 0 p q := by
  unfold execute_fields at h
  simp only [Prod.mk.injEq] at h
  exact ⟨by rw [h.2.2.2.2.1]; omega, h.2.1, h.1⟩

theorem admit_body_heap (ps : List Process) (k : Nat) (hk : k < ps.length) (s : Scheduler)
    (h : sched_inv ps k s) (hh : is_heap s.procs s.rq) :
    is_heap (admit_body k s).procs (admit_body k s).rq := by
  unfold sched_inv at h
  unfold admit_body
  dsimp only
  split_ifs with harr
  · dsimp only
    apply rq_push_heap
    refine is_heap_shift s.procs _ 0 _ ?_ hh
    intro x hx
    have hxk : k ≠ x := by
      intro e
      subst e
      have hadm := ((h.procs_ok k hk).when_queued hx).1
      unfold admitted at hadm
      omega
    rw [getP_set_ne _ _ _ _ hxk]
    exact ⟨by omega, rfl, rfl⟩
  · exact hh

theorem admit_arrivals_heap (ps : List Process) (hv : valid_table ps) (s : Scheduler)
    (hn : s.nprocs = (ps.length : Int)) (h : sched_inv ps 0 s) (hh : is_heap s.procs s.rq) :
    is_heap (admit_arrivals s).procs (admit_arrivals s).rq := by
  have key : sched_inv ps ps.length (admit_arrivals s) ∧
      is_heap (admit_arrivals s).procs (admit_arrivals s).rq := by
    unfold admit_arrivals
    rw [hn, Int.toNat_ofNat]
    exact forLoop_induction
      (fun i (t : Scheduler) => sched_inv ps i t ∧ is_heap t.procs t.rq) _ _ _ ⟨h, hh⟩
      (fun i hi t ht => ⟨admit_body_inv ps hv i hi t ht.1, admit_body_heap ps i hi t ht.1 ht.2⟩)
  exact key.2

theorem maybe_age_waiting_heap (s : Scheduler) (hh : is_heap s.procs s.rq) :
    is_heap (maybe_age_waiting s).procs (maybe_age_waiting s).rq := by
  rw [maybe_age_waiting_eq]
  split_ifs
  · exact rq_reheapify_heap _ _
  · exact hh

theorem dispatch_top_heap (s : Scheduler) (hh : is_heap s.procs s.rq) :
    is_heap (dispatch_top s).procs (dispatch_top s).rq := by
  have hk : ∀ j, key_shift 0 (getP s.procs j) (getP (dispatch_top s).procs j) := fun j =>
    key_shift_of_dispatch_fields (dispatch_top_keeps s j).1
  have hq : (dispatch_top s).rq = (rq_pop s.procs s.rq).2 := rfl
  rw [hq]
  exact is_heap_shift s.procs _ 0 _ (fun i _ => hk i) (rq_pop_heap s.procs s.rq hh)

theorem dispatch_if_needed_heap (s : Scheduler) (hh : is_heap s.procs s.rq) :
    is_heap (dispatch_if_needed s).procs (dispatch_if_needed s).rq := by
  unfold dispatch_if_needed
  dsimp only
  split_ifs
  · exact dispatch_top_heap s hh
  · exact hh
  · exact hh
  · apply dispatch_top_heap
    dsimp only
    apply rq_push_heap
    refine is_heap_shift s.procs _ 0 _ ?_ hh
    intro x _
    refine key_shift_of_dispatch_fields ?_
    refine getP_set_field dispatch_fields _ _ _ ?_ x
    rfl
  · exact hh
  · exact hh

theorem execute_tick_rq (s : Scheduler) : (execute_tick s).rq = s.rq := by
  unfold execute_tick
  dsimp only
  split_ifs <;> rfl

theorem execute_tick_heap (s : Scheduler) (hh : is_heap s.procs s.rq) :
    is_heap (execute_tick s).procs (execute_tick s).rq := by
  rw [execute_tick_rq]
  exact is_heap_shift s.procs _ 0 _
    (fun i _ => key_shift_of_execute_fields (execute_tick_keeps s i)) hh

/-- The ready queue satisfies the heap property at the head of every tick and after the
admission, aging and dispatch phases. -/
theorem run_ticks_heap (ps : List Process) (hv : valid_table ps) (pre ag : Bool) (iv inc : Int)
    (T : Nat) :
    is_heap (run_ticks T (scheduler_init ps ps.length pre ag iv inc)).procs
      (run_ticks T (scheduler_init ps ps.length pre ag iv inc)).rq ∧
    is_heap (admit_arrivals (run_ticks T (scheduler_init ps ps.length pre ag iv inc))).procs
      (admit_arrivals (run_ticks T (scheduler_init ps ps.length pre ag iv inc))).rq ∧
    is_heap (maybe_age_waiting (admit_arrivals
        (run_ticks T (scheduler_init ps ps.length pre ag iv inc)))).procs
      (maybe_age_waiting (admit_arrivals
        (run_ticks T (scheduler_init ps ps.length pre ag iv inc)))).rq ∧
    is_heap (schedule_tick (run_ticks T (scheduler_init ps ps.length pre ag iv inc))).procs
      (schedule_tick (run_ticks T (scheduler_init ps ps.length pre ag iv inc))).rq := by
  have phases : ∀ T : Nat,
      is_heap (run_ticks T (scheduler_init ps ps.length pre ag iv inc)).procs
        (run_ticks T (scheduler_init ps ps.length pre ag iv inc)).rq →
      is_heap (admit_arrivals (run_ticks T (scheduler_init ps ps.length pre ag iv inc))).procs
        (admit_arrivals (run_ticks T (scheduler_init ps ps.length pre ag iv inc))).rq ∧
      is_heap (maybe_age_waiting (admit_arrivals
          (run_ticks T (scheduler_init ps ps.length pre ag iv inc)))).procs
        (maybe_age_waiting (admit_arrivals
          (run_ticks T (scheduler_init ps ps.length pre ag iv inc)))).rq ∧
      is_heap (schedule_tick (run_ticks T (scheduler_init ps ps.length pre ag iv inc))).procs
        (schedule_tick (run_ticks T (scheduler_init ps ps.length pre ag iv inc))).rq := by
    intro T h0
    have hn : (run_ticks T (scheduler_init ps ps.length pre ag iv inc)).nprocs
        = (ps.length : Int) := by
      rw [config_nprocs (run_ticks_config T _)]
      rfl
    have h1 := admit_arrivals_heap ps hv _ hn (run_ticks_inv ps hv pre ag iv inc T) h0
    have h2 := maybe_age_waiting_heap _ h1
    exact ⟨h1, h2, dispatch_if_needed_heap _ h2⟩
  have head : ∀ T : Nat,
      is_heap (run_ticks T (scheduler_init ps ps.length pre ag iv inc)).procs
        (run_ticks T (scheduler_init ps ps.length pre ag iv inc)).rq := by
    intro T
    induction T with
    | zero =>
      intro k hk
      exact absurd hk (Nat.not_lt_zero k)
    | succ n ih =>
      rw [run_ticks_succ]
      unfold tick
      exact execute_tick_heap _ (phases n ih).2.2
  exact ⟨head T, phases T (head T)⟩

end PrioritySched

namespace PrioritySched

/-! ## Preemptive priority discipline -/

theorem dispatch_top_dominates (s : Scheduler) (hh : is_heap s.procs s.rq) (hne : s.rq ≠ [])
    (c : Nat) (hc : (dispatch_top s).current = (c : Int)) :
    ∀ x ∈ s.rq, ¬ compare_proc s.procs x c > 0 := by
  rw [dispatch_top_current s hne] at hc
  have e : s.rq.getD 0 0 = c := by exact_mod_cast hc
  intro x hx
  obtain ⟨k, hk, ek⟩ := mem_getD s.rq x hx
  rw [← ek, ← e]
  exact heap_root_max s.procs s.rq hh k hk

/-- In preemptive mode, on a heap, the process that holds the CPU after the dispatch phase is
beaten neither by a process of the ready queue nor by the process that held the CPU before. -/
theorem dispatch_dominates (s : Scheduler) (hh : is_heap s.procs s.rq)
    (hpre : s.preemptive = true) (hcur : s.current = -1 ∨ 0 ≤ s.current) (c : Nat)
    (hc : (dispatch_if_needed s).current = (c : Int)) (x : Nat)
    (hx : x ∈ s.rq ∨ s.current = (x : Int)) : ¬ compare_proc s.procs x c > 0 := by
  unfold dispatch_if_needed at hc
  dsimp only at hc
  split_ifs at hc with h1 h2 h3 h4 h5
  · have hne : s.rq ≠ [] := by
      intro he
      rw [(rq_is_empty_iff s.rq).mpr he] at h2
      simp at h2
    rcases hx with hx | hx
    · exact dispatch_top_dominates s hh hne c hc x hx
    · omega
  · omega
  · rw [hpre] at h3
    simp at h3
  · have hc0 : 0 ≤ s.current := by omega
    have hperm := rq_push_perm
      (s.procs.set s.current.toNat { getP s.procs s.current.toNat with
        last_ready_time := s.time }) s.rq s.current.toNat
    have hkeys : ∀ j, key_shift 0 (getP s.procs j)
        (getP (s.procs.set s.current.toNat { getP s.procs s.current.toNat with
          last_ready_time := s.time }) j) := by
      intro j
      refine key_shift_of_dispatch_fields ?_
      refine getP_set_field dispatch_fields _ _ _ ?_ j
      rfl
    have hheap : is_heap
        (s.procs.set s.current.toNat { getP s.procs s.current.toNat with
          last_ready_time := s.time })
        (rq_push (s.procs.set s.current.toNat { getP s.procs s.current.toNat with
          last_ready_time := s.time }) s.rq s.current.toNat) :=
      rq_push_heap _ _ _ (is_heap_shift s.procs _ 0 _ (fun i _ => hkeys i) hh)
    have hdom := dispatch_top_dominates _ hheap (rq_push_ne_nil _ _ _) c hc x
      (by
        dsimp only
        rw [hperm.mem_iff, List.mem_cons]
        rcases hx with hx | hx
        · exact Or.inr hx
        · left
          omega)
    dsimp only at hdom
    rw [compare_proc_shift s.procs _ 0 x c (hkeys x) (hkeys c)] at hdom
    exact hdom
  · have hne : s.rq ≠ [] := by
      intro he
      rw [(rq_is_empty_iff s.rq).mpr he] at h4
      simp at h4
    have hc0 : s.current.toNat = c := by omega
    rw [rq_peek_nonempty s.rq hne, Int.toNat_ofNat, hc0] at h5
    rcases hx with hx | hx
    · obtain ⟨k, hk, ek⟩ := mem_getD s.rq x hx
      rw [← ek]
      exact compare_proc_not_trans _ _ _ _ (heap_root_max s.procs s.rq hh k hk) h5
    · have : x = c := by omega
      rw [this]
      exact compare_proc_irrefl _ _
  · have hem : s.rq = [] := by
      by_contra hne
      rw [← rq_is_empty_iff] at hne
      simp [hne] at h4
    rcases hx with hx | hx
    · rw [hem] at hx
      exact absurd hx (List.not_mem_nil x)
    · have : x = c := by omega
      rw [this]
      exact compare_proc_irrefl _ _

theorem distinct_pids_of_static (ps qs : List Process) (hl : qs.length = ps.length)
    (hs : ∀ j, static_fields (getP qs j) = static_fields (getP ps j))
    (hd : distinct_pids ps) : distinct_pids qs := by
  intro i hi j hj hij
  rw [(static_base (hs i)).2.2, (static_base (hs j)).2.2]
  exact hd i (by rw [← hl]; exact hi) j (by rw [← hl]; exact hj) hij

/-- C19. Preemptive priority discipline.  With `preemptive = true`, on every table with positive
bursts and non-negative arrivals and with any aging configuration, at every tick `T` the
process `c` that executes (current after the dispatch phase) has arrived and is not complete,
and no process that has arrived and is not complete beats it under `compare_proc` evaluated
on the table as it is after the aging phase of that tick; when the pids are pairwise distinct
it beats every other such process.  The CPU is idle at a tick only if every process that has
arrived is complete. -/
theorem preemptive_priority_discipline (procs : List Process) (hv : valid_table procs)
    (aging_enabled : Bool) (aging_interval aging_increment : Int) (T : Nat) :
    (∀ c : Nat,
      (schedule_tick (run_ticks T (scheduler_init procs procs.length true aging_enabled
        aging_interval aging_increment))).current = (c : Int) →
      c < procs.length ∧ (getP procs c).arrival_time ≤ (T : Int) ∧
      (getP (schedule_tick (run_ticks T (scheduler_init procs procs.length true aging_enabled
        aging_interval aging_increment))).procs c).remaining_time ≠ 0 ∧
      ∀ j < procs.length, (getP procs j).arrival_time ≤ (T : Int) →
        (getP (schedule_tick (run_ticks T (scheduler_init procs procs.length true
          aging_enabled aging_interval aging_increment))).procs j).remaining_time ≠ 0 →
        ¬ compare_proc (maybe_age_waiting (admit_arrivals (run_ticks T (scheduler_init procs
            procs.length true aging_enabled aging_interval aging_increment)))).procs j c > 0 ∧
        (distinct_pids procs → j ≠ c →
          compare_proc (maybe_age_waiting (admit_arrivals (run_ticks T (scheduler_init procs
            procs.length true aging_enabled aging_interval aging_increment)))).procs c j > 0)) ∧
    ((schedule_tick (run_ticks T (scheduler_init procs procs.length true aging_enabled
        aging_interval aging_increment))).current = -1 →
      ∀ j < procs.length, (getP procs j).arrival_time ≤ (T : Int) →
        (getP (schedule_tick (run_ticks T (scheduler_init procs procs.length true
          aging_enabled aging_interval aging_increment))).procs j).remaining_time = 0) ∧
    ((schedule_tick (run_ticks T (scheduler_init procs procs.length true aging_enabled
        aging_interval aging_increment))).current = -1 ∨
      ∃ c : Nat, (schedule_tick (run_ticks T (scheduler_init procs procs.length true
        aging_enabled aging_interval aging_increment))).current = (c : Int)) := by
  obtain ⟨-, h2, h3⟩ := phases_inv procs hv true aging_enabled aging_interval aging_increment T
  obtain ⟨-, -, hh2, -⟩ := run_ticks_heap procs hv true aging_enabled aging_interval
    aging_increment T
  have htime0 := run_ticks_time_init procs true aging_enabled aging_interval aging_increment T
  have hpre0 := (init_aging_increment procs true aging_enabled aging_interval
    aging_increment T).2.2.2
  have hstat0 : ∀ i, static_fields
      (getP (run_ticks T (scheduler_init procs procs.length true aging_enabled aging_interval
        aging_increment)).procs i) = static_fields (getP procs i) := fun i =>
    (run_ticks_static T _ i).trans (init_static procs true aging_enabled aging_interval
      aging_increment i)
  generalize run_ticks T (scheduler_init procs procs.length true aging_enabled aging_interval
    aging_increment) = s at *
  have hfa : frame (maybe_age_waiting (admit_arrivals s)) = frame s :=
    (maybe_age_waiting_frame _).trans (admit_arrivals_frame s)
  have hta : (maybe_age_waiting (admit_arrivals s)).time = (T : Int) := by
    rw [frame_time hfa, htime0]
  have hpa : (maybe_age_waiting (admit_arrivals s)).preemptive = true := by
    rw [frame_preemptive hfa, hpre0]
  have hstata : ∀ i, static_fields (getP (maybe_age_waiting (admit_arrivals s)).procs i) =
      static_fields (getP procs i) := fun i =>
    ((maybe_age_waiting_static _ i).trans (admit_arrivals_static s i)).trans (hstat0 i)
  have hsched : schedule_tick s = dispatch_if_needed (maybe_age_waiting (admit_arrivals s)) :=
    rfl
  rw [hsched] at h3 ⊢
  generalize maybe_age_waiting (admit_arrivals s) = a at *
  unfold sched_inv at h2 h3
  have htd : (dispatch_if_needed a).time = (T : Int) := by
    rw [frame_time (dispatch_if_needed_frame a), hta]
  have hcura : a.current = -1 ∨ 0 ≤ a.current := by
    rcases h2.cur_ok with h | h
    · exact Or.inl h
    · exact Or.inr h.1
  have hready : ∀ j < procs.length, (getP procs j).arrival_time ≤ (T : Int) →
      (getP (dispatch_if_needed a).procs j).remaining_time ≠ 0 →
      j ∈ a.rq ∨ a.current = (j : Int) := by
    intro j hj harr hrem
    have hp := h2.procs_ok j hj
    have hr : (getP (dispatch_if_needed a).procs j).remaining_time =
        (getP a.procs j).remaining_time :=
      (static_of_dispatch_fields (dispatch_if_needed_keeps a j)).2.2
    rw [hr] at hrem
    by_contra hcon
    push_neg at hcon
    apply hrem
    refine hp.when_idle hcon.1 hcon.2 ?_
    unfold admitted
    rw [hp.arrival_eq, hta]
    omega
  refine ⟨?_, ?_, ?_⟩
  · intro c hc
    have hcl : c < procs.length := by
      rcases h3.cur_ok with h | h
      · omega
      · have := h.2.1
        rw [hc] at this
        simpa using this
    have hpc := h3.procs_ok c hcl
    obtain ⟨r1, r2, -⟩ := hpc.when_running hc
    have hadm := (hpc.when_started r2).1
    refine ⟨hcl, ?_, by omega, ?_⟩
    · unfold admitted at hadm
      rw [hpc.arrival_eq, htd] at hadm
      omega
    · intro j hj harr hrem
      have hdom := dispatch_dominates a hh2 hpa hcura c hc j (hready j hj harr hrem)
      refine ⟨hdom, ?_⟩
      intro hd hjc
      have hda := distinct_pids_of_static procs a.procs h2.len hstata hd
      rcases compare_proc_total a.procs hda j c (by rw [h2.len]; exact hj)
        (by rw [h2.len]; exact hcl) hjc with ht | ht
      · exact absurd ht.1 hdom
      · exact ht.2
  · intro hidle j hj harr
    by_contra hrem
    have hp := h3.procs_ok j hj
    have hrq := dispatch_if_needed_idle a hidle
    apply hrem
    refine hp.when_idle ?_ ?_ ?_
    · rw [hrq]
      exact List.not_mem_nil j
    · rw [hidle]
      omega
    · unfold admitted
      rw [hp.arrival_eq, htd]
      omega
  · rcases h3.cur_ok with h | h
    · exact Or.inl h
    · exact Or.inr ⟨(dispatch_if_needed a).current.toNat, (Int.toNat_of_nonneg h.1).symm⟩

theorem preemptive_priority_discipline_witness :
    valid_table sample ∧
    (schedule_tick (run_ticks 6 (scheduler_init sample sample.length true true 3
      1))).current = ((0 : Nat) : Int) ∧
    (∀ j < sample.length, (getP sample j).arrival_time ≤ ((6 : Nat) : Int) →
      (getP (schedule_tick (run_ticks 6 (scheduler_init sample sample.length true true 3
        1))).procs j).remaining_time ≠ 0 →
      ¬ compare_proc (maybe_age_waiting (admit_arrivals (run_ticks 6 (scheduler_init sample
          sample.length true true 3 1)))).procs j 0 > 0 ∧
      (distinct_pids sample → j ≠ 0 →
        compare_proc (maybe_age_waiting (admit_arrivals (run_ticks 6 (scheduler_init sample
          sample.length true true 3 1)))).procs 0 j > 0)) :=
  ⟨sample_valid, by decide,
    ((preemptive_priority_discipline sample sample_valid true 3 1 6).1 0 (by decide)).2.2.2⟩

end PrioritySched
